import Mathlib

/-!
Verification of the Country Identity Resolution and Optimal Slot Assignment
Engine of the FGCteamfiller application (`src/app.py`).

The development shallowly embeds the relevant Python functions into Lean:

* floating point costs and video values are modelled as exact rationals `ℚ`
  (the program only adds, compares and sorts these quantities);
* Python strings are modelled through `List Char` processing; the Unicode
  NFKD/NFKC normalisation steps are modelled by an explicit decomposition
  table covering exactly the accented characters occurring in the program's
  country data (`ç é ô ü` and the right single quote);
* Python dictionaries are modelled as association lists with
  first-match lookup, and the first-write-wins insertion discipline of the
  alias tables is modelled by keeping every generated binding in insertion
  order (first-match lookup then realises first-write-wins);
* diagnostics strings are modelled by an inductive type `Diag` carrying the
  same payload data that the Python code interpolates into each message;
* the `console` parameter of the engine only emits log output and never
  influences the returned values, so the embedding corresponds to the
  `console=None` instantiation.
-/

namespace FGC

/-! ### Character-level helpers -/

/-- The apostrophe character (U+0027). -/
def aposChar : Char := Char.ofNat 39

/-- The right single quotation mark (U+2019), written `’` in the source. -/
def rsquoChar : Char := Char.ofNat 0x2019

/-- Python regional-indicator range used by `FLAG_EMOJI_PATTERN`
(`[\U0001F1E6-\U0001F1FF]`). -/
def isRegionalIndicator (c : Char) : Bool :=
  0x1F1E6 ≤ c.toNat && c.toNat ≤ 0x1F1FF

/-- Model of Python `\s` / `str.strip()` whitespace on the character
repertoire handled by the embedding. -/
def isPySpace (c : Char) : Bool := c.isWhitespace

/-- Python regex `\w` word characters (ASCII portion). -/
def isWordChar (c : Char) : Bool := c.isAlphanum || c = Char.ofNat 95

/-- Characters of the regex class `[\s:-]`. -/
def isSpaceColonDash (c : Char) : Bool :=
  isPySpace c || c = ':' || c = '-'

/-- Strip the characters of Python `strip(" -–—,:")` from both ends. -/
def stripNoiseEdges (cs : List Char) : List Char :=
  let p : Char → Bool := fun c =>
    c = ' ' || c = '-' || c = '–' || c = '—' || c = ',' || c = ':'
  ((cs.dropWhile p).reverse.dropWhile p).reverse

/-- Strip Python `str.strip()` whitespace from both ends. -/
def trimChars (cs : List Char) : List Char :=
  ((cs.dropWhile isPySpace).reverse.dropWhile isPySpace).reverse

/-- Lower-case a character list (ASCII case mapping). -/
def lowerChars (cs : List Char) : List Char := cs.map Char.toLower

/-- Upper-case a character list (ASCII case mapping, models `str.upper`). -/
def upperChars (cs : List Char) : List Char := cs.map Char.toUpper

/-- Decide whether `pat` occurs as a contiguous sublist of `cs`. -/
def containsSub (cs pat : List Char) : Bool :=
  match cs with
  | [] => pat.isEmpty
  | _ :: rest => pat.isPrefixOf cs || containsSub rest pat

/-- Replace every occurrence of a (non-empty) pattern, left to right
(models `str.replace`; the program never calls it with an empty pattern).
The input length bounds the number of steps, so fuel-based structural
recursion computes the full replacement. -/
def replaceSubGo : Nat → List Char → List Char → List Char → List Char
  | 0, cs, _, _ => cs
  | fuel + 1, cs, pat, repl =>
    match cs with
    | [] => []
    | c :: rest =>
      if pat.isPrefixOf (c :: rest) && !pat.isEmpty then
        repl ++ replaceSubGo fuel ((c :: rest).drop pat.length) pat repl
      else c :: replaceSubGo fuel rest pat repl

def replaceSub (cs pat repl : List Char) : List Char :=
  replaceSubGo (cs.length + 1) cs pat repl

/-- NFKD decomposition followed by removal of combining marks, restricted to
the accented characters that occur in the program's country data.  All other
characters are left untouched (they either are ASCII or are dropped later by
the `[^a-z0-9]` filter, exactly as in the Python pipeline). -/
def foldAccent (c : Char) : Char :=
  if c = 'ç' then 'c'
  else if c = 'é' then 'e'
  else if c = 'ô' then 'o'
  else if c = 'ü' then 'u'
  else if c = 'Ç' then 'C'
  else if c = 'É' then 'E'
  else if c = 'Ô' then 'O'
  else if c = 'Ü' then 'U'
  else c

/-- Keep only ASCII lower-case letters and digits (the `[^a-z0-9]` removal). -/
def isLowerAlnum (c : Char) : Bool :=
  ('a' ≤ c && c ≤ 'z') || ('0' ≤ c && c ≤ '9')

/-! ### `_normalize_country_name` -/

/-- Embedding of `_normalize_country_name`: NFKD + drop combining marks
(modelled by `foldAccent`), replace `’` by `'`, lower-case, and keep only
`[a-z0-9]`. -/
def normalizeCountryNameChars (cs : List Char) : List Char :=
  let decomposed := cs.map foldAccent
  let replaced := decomposed.map fun c => if c = rsquoChar then aposChar else c
  (lowerChars replaced).filter isLowerAlnum

def normalize_country_name (s : String) : String :=
  String.mk (normalizeCountryNameChars s.toList)

/-! ### `strip_leading_flag_emoji` -/

/-- Embedding of `strip_leading_flag_emoji`: if the text starts (after
optional whitespace) with two regional-indicator characters, remove them and
strip; otherwise just strip. -/
def stripLeadingFlagChars (cs : List Char) : List Char :=
  let ws := cs.takeWhile isPySpace
  let rest := cs.dropWhile isPySpace
  match rest with
  | c1 :: c2 :: tail =>
    if isRegionalIndicator c1 && isRegionalIndicator c2 then
      trimChars (ws ++ tail)
    else trimChars cs
  | _ => trimChars cs

/-! ### `_strip_country_name_noise` -/

/-- Case-insensitive literal word match at the head of a character list;
returns the remainder on success. -/
def matchWordCI : List Char → List Char → Option (List Char)
  | [], cs => some cs
  | _ :: _, [] => none
  | a :: ws, c :: cs => if c.toLower = a then matchWordCI ws cs else none

/-- Match regex `\s+` at the head (greedy). -/
def matchSpaces1 : List Char → Option (List Char)
  | [] => none
  | c :: cs => if isPySpace c then some (cs.dropWhile isPySpace) else none

/-- Match `(?:team|delegation)\b[\s:-]*` at the head. -/
def matchTeamDelegation (cs : List Char) : Option (List Char) :=
  let tryWord : String → Option (List Char) := fun w =>
    match matchWordCI w.toList cs with
    | some rest =>
      match rest with
      | [] => some []
      | c :: _ =>
        if isWordChar c then none
        else some (rest.dropWhile isSpaceColonDash)
    | none => none
  match tryWord "team" with
  | some r => some r
  | none => tryWord "delegation"

/-- Match `^(?:(?:first\s+global|fgc)\s+)?(?:team|delegation)\b[\s:-]*`
(the `COUNTRY_NAME_LEADING_NOISE_PATTERN`), with regex backtracking over the
optional group. -/
def matchLeadingNoise (cs : List Char) : Option (List Char) :=
  let afterOptional : Option (List Char) :=
    let p1 : Option (List Char) :=
      (matchWordCI "first".toList cs).bind fun r1 =>
        (matchSpaces1 r1).bind fun r2 =>
          (matchWordCI "global".toList r2).bind fun r3 =>
            matchSpaces1 r3
    match p1 with
    | some r => some r
    | none => (matchWordCI "fgc".toList cs).bind matchSpaces1
  match afterOptional with
  | some rest =>
    match matchTeamDelegation rest with
    | some r => some r
    | none => matchTeamDelegation cs
  | none => matchTeamDelegation cs

/-- The `while True` loop of `_strip_country_name_noise` (each successful
substitution removes at least the matched noise word, so the string length
bounds the number of iterations). -/
def noiseLoop : Nat → List Char → List Char
  | 0, cs => cs
  | fuel + 1, cs =>
    match matchLeadingNoise cs with
    | none => cs
    | some rest => noiseLoop fuel (stripNoiseEdges rest)

/-- Match `^of\b[\s:-]*` removal (`re.sub(r"(?i)^of\b[\s:-]*", "", value)`). -/
def stripLeadingOf (cs : List Char) : List Char :=
  match matchWordCI "of".toList cs with
  | some rest =>
    match rest with
    | [] => []
    | c :: _ => if isWordChar c then cs else rest.dropWhile isSpaceColonDash
  | none => cs

/-- Case-insensitive suffix test. -/
def endsWithCI (cs : List Char) (w : String) : Bool :=
  let wl := w.toList
  decide (wl.length ≤ cs.length) &&
    decide (lowerChars (cs.drop (cs.length - wl.length)) = wl)

/-- `COUNTRY_NAME_TRAILING_NOISE_PATTERN.sub("", ·)`: remove a trailing
`team`/`delegation` word together with the `[\s:-]*` run before it. -/
def stripTrailingNoise (cs : List Char) : List Char :=
  if endsWithCI cs "delegation" then
    ((cs.take (cs.length - 10)).reverse.dropWhile isSpaceColonDash).reverse
  else if endsWithCI cs "team" then
    ((cs.take (cs.length - 4)).reverse.dropWhile isSpaceColonDash).reverse
  else cs

/-- Embedding of `_strip_country_name_noise`. -/
def stripCountryNameNoiseChars (cs : List Char) : List Char :=
  let value := trimChars cs
  if value.isEmpty then value
  else
    let afterLoop := noiseLoop (value.length + 1) value
    let afterOf := stripNoiseEdges (stripLeadingOf afterLoop)
    stripNoiseEdges (stripTrailingNoise afterOf)

/-! ### Country data tables -/

/-- The `COUNTRY_CODE_DATA` table: `(alpha3, alpha2, canonical name)`. -/
def countryCodeData : List (String × String × String) := [
  ("AFG", "AF", "Afghanistan"),
  ("ALB", "AL", "Albania"),
  ("DZA", "DZ", "Algeria"),
  ("AND", "AD", "Andorra"),
  ("AGO", "AO", "Angola"),
  ("AIA", "AI", "Anguilla"),
  ("ATG", "AG", "Antigua and Barbuda"),
  ("ARG", "AR", "Argentina"),
  ("ARM", "AM", "Armenia"),
  ("ABW", "AW", "Aruba"),
  ("AUS", "AU", "Australia"),
  ("AUT", "AT", "Austria"),
  ("AZE", "AZ", "Azerbaijan"),
  ("BHS", "BS", "Bahamas"),
  ("BHR", "BH", "Bahrain"),
  ("BGD", "BD", "Bangladesh"),
  ("BRB", "BB", "Barbados"),
  ("BLR", "BY", "Belarus"),
  ("BEL", "BE", "Belgium"),
  ("BLZ", "BZ", "Belize"),
  ("BEN", "BJ", "Benin"),
  ("BMU", "BM", "Bermuda"),
  ("BTN", "BT", "Bhutan"),
  ("BOL", "BO", "Bolivia (Plurinational State of)"),
  ("BIH", "BA", "Bosnia and Herzegovina"),
  ("BWA", "BW", "Botswana"),
  ("BRA", "BR", "Brazil"),
  ("BRN", "BN", "Brunei Darussalam"),
  ("BGR", "BG", "Bulgaria"),
  ("BFA", "BF", "Burkina Faso"),
  ("BDI", "BI", "Burundi"),
  ("KHM", "KH", "Cambodia"),
  ("CMR", "CM", "Cameroon"),
  ("CAN", "CA", "Canada"),
  ("CPV", "CV", "Cabo Verde"),
  ("CYM", "KY", "Cayman Islands"),
  ("CAF", "CF", "Central African Republic"),
  ("TCD", "TD", "Chad"),
  ("CHL", "CL", "Chile"),
  ("CHN", "CN", "China"),
  ("COL", "CO", "Colombia"),
  ("COM", "KM", "Comoros"),
  ("COG", "CG", "Congo"),
  ("COD", "CD", "Democratic Republic of the Congo"),
  ("COK", "CK", "Cook Islands"),
  ("CRI", "CR", "Costa Rica"),
  ("CIV", "CI", "Côte d’Ivoire"),
  ("HRV", "HR", "Croatia"),
  ("CUB", "CU", "Cuba"),
  ("CUW", "CW", "Curaçao"),
  ("CYP", "CY", "Cyprus"),
  ("CZE", "CZ", "Czechia"),
  ("DNK", "DK", "Denmark"),
  ("DJI", "DJ", "Djibouti"),
  ("DMA", "DM", "Dominica"),
  ("DOM", "DO", "Dominican Republic"),
  ("ECU", "EC", "Ecuador"),
  ("EGY", "EG", "Egypt"),
  ("SLV", "SV", "El Salvador"),
  ("GNQ", "GQ", "Equatorial Guinea"),
  ("ERI", "ER", "Eritrea"),
  ("EST", "EE", "Estonia"),
  ("SWZ", "SZ", "Eswatini"),
  ("ETH", "ET", "Ethiopia"),
  ("FJI", "FJ", "Fiji"),
  ("FIN", "FI", "Finland"),
  ("FRA", "FR", "France"),
  ("GUF", "GF", "French Guiana"),
  ("PYF", "PF", "French Polynesia"),
  ("GAB", "GA", "Gabon"),
  ("GMB", "GM", "Gambia"),
  ("GEO", "GE", "Georgia"),
  ("DEU", "DE", "Germany"),
  ("GHA", "GH", "Ghana"),
  ("GRC", "GR", "Greece"),
  ("GRD", "GD", "Grenada"),
  ("GLP", "GP", "Guadeloupe"),
  ("GTM", "GT", "Guatemala"),
  ("GGY", "GG", "Guernsey"),
  ("GIN", "GN", "Guinea"),
  ("GNB", "GW", "Guinea-Bissau"),
  ("GUY", "GY", "Guyana"),
  ("HTI", "HT", "Haiti"),
  ("HND", "HN", "Honduras"),
  ("HKG", "HK", "Hong Kong"),
  ("HUN", "HU", "Hungary"),
  ("ISL", "IS", "Iceland"),
  ("IND", "IN", "India"),
  ("IDN", "ID", "Indonesia"),
  ("IRN", "IR", "Iran (Islamic Republic of)"),
  ("IRQ", "IQ", "Iraq"),
  ("IRL", "IE", "Ireland"),
  ("IMN", "IM", "Isle of Man"),
  ("ISR", "IL", "Israel"),
  ("ITA", "IT", "Italy"),
  ("JAM", "JM", "Jamaica"),
  ("JPN", "JP", "Japan"),
  ("JEY", "JE", "Jersey"),
  ("JOR", "JO", "Jordan"),
  ("KAZ", "KZ", "Kazakhstan"),
  ("KEN", "KE", "Kenya"),
  ("KIR", "KI", "Kiribati"),
  ("PRK", "KP", "Democratic People\u0027s Republic of Korea"),
  ("KOR", "KR", "Republic of Korea"),
  ("KWT", "KW", "Kuwait"),
  ("KGZ", "KG", "Kyrgyzstan"),
  ("LAO", "LA", "Lao People\u0027s Democratic Republic"),
  ("LVA", "LV", "Latvia"),
  ("LBN", "LB", "Lebanon"),
  ("LSO", "LS", "Lesotho"),
  ("LBR", "LR", "Liberia"),
  ("LBY", "LY", "Libya"),
  ("LIE", "LI", "Liechtenstein"),
  ("LTU", "LT", "Lithuania"),
  ("LUX", "LU", "Luxembourg"),
  ("MAC", "MO", "Macao"),
  ("MDG", "MG", "Madagascar"),
  ("MWI", "MW", "Malawi"),
  ("MYS", "MY", "Malaysia"),
  ("MDV", "MV", "Maldives"),
  ("MLI", "ML", "Mali"),
  ("MLT", "MT", "Malta"),
  ("MHL", "MH", "Marshall Islands"),
  ("MTQ", "MQ", "Martinique"),
  ("MRT", "MR", "Mauritania"),
  ("MUS", "MU", "Mauritius"),
  ("MYT", "YT", "Mayotte"),
  ("MEX", "MX", "Mexico"),
  ("FSM", "FM", "Micronesia (Federated States of)"),
  ("MDA", "MD", "Republic of Moldova"),
  ("MCO", "MC", "Monaco"),
  ("MNG", "MN", "Mongolia"),
  ("MNE", "ME", "Montenegro"),
  ("MSR", "MS", "Montserrat"),
  ("MAR", "MA", "Morocco"),
  ("MOZ", "MZ", "Mozambique"),
  ("MMR", "MM", "Myanmar"),
  ("NAM", "NA", "Namibia"),
  ("NRU", "NR", "Nauru"),
  ("NPL", "NP", "Nepal"),
  ("NLD", "NL", "Netherlands"),
  ("NCL", "NC", "New Caledonia"),
  ("NZL", "NZ", "New Zealand"),
  ("NIC", "NI", "Nicaragua"),
  ("NER", "NE", "Niger"),
  ("NGA", "NG", "Nigeria"),
  ("NIU", "NU", "Niue"),
  ("MKD", "MK", "North Macedonia"),
  ("NOR", "NO", "Norway"),
  ("OMN", "OM", "Oman"),
  ("PAK", "PK", "Pakistan"),
  ("PLW", "PW", "Palau"),
  ("PSE", "PS", "State of Palestine"),
  ("PAN", "PA", "Panama"),
  ("PNG", "PG", "Papua New Guinea"),
  ("PRY", "PY", "Paraguay"),
  ("PER", "PE", "Peru"),
  ("PHL", "PH", "Philippines"),
  ("POL", "PL", "Poland"),
  ("PRT", "PT", "Portugal"),
  ("PRI", "PR", "Puerto Rico"),
  ("QAT", "QA", "Qatar"),
  ("REU", "RE", "Réunion"),
  ("ROU", "RO", "Romania"),
  ("RUS", "RU", "Russian Federation"),
  ("RWA", "RW", "Rwanda"),
  ("BLM", "BL", "Saint Barthélemy"),
  ("SHN", "SH", "Saint Helena, Ascension and Tristan da Cunha"),
  ("KNA", "KN", "Saint Kitts and Nevis"),
  ("LCA", "LC", "Saint Lucia"),
  ("MAF", "MF", "Saint Martin (French part)"),
  ("SPM", "PM", "Saint Pierre and Miquelon"),
  ("VCT", "VC", "Saint Vincent and the Grenadines"),
  ("WSM", "WS", "Samoa"),
  ("SMR", "SM", "San Marino"),
  ("STP", "ST", "Sao Tome and Principe"),
  ("SAU", "SA", "Saudi Arabia"),
  ("SEN", "SN", "Senegal"),
  ("SRB", "RS", "Serbia"),
  ("SYC", "SC", "Seychelles"),
  ("SLE", "SL", "Sierra Leone"),
  ("SGP", "SG", "Singapore"),
  ("SXM", "SX", "Sint Maarten (Dutch part)"),
  ("SVK", "SK", "Slovakia"),
  ("SVN", "SI", "Slovenia"),
  ("SLB", "SB", "Solomon Islands"),
  ("SOM", "SO", "Somalia"),
  ("ZAF", "ZA", "South Africa"),
  ("SSD", "SS", "South Sudan"),
  ("ESP", "ES", "Spain"),
  ("LKA", "LK", "Sri Lanka"),
  ("SDN", "SD", "Sudan"),
  ("SUR", "SR", "Suriname"),
  ("SWE", "SE", "Sweden"),
  ("CHE", "CH", "Switzerland"),
  ("SYR", "SY", "Syrian Arab Republic"),
  ("TWN", "TW", "Taiwan, Province of China"),
  ("TJK", "TJ", "Tajikistan"),
  ("TZA", "TZ", "United Republic of Tanzania"),
  ("THA", "TH", "Thailand"),
  ("TLS", "TL", "Timor-Leste"),
  ("TGO", "TG", "Togo"),
  ("TON", "TO", "Tonga"),
  ("TTO", "TT", "Trinidad and Tobago"),
  ("TUN", "TN", "Tunisia"),
  ("TUR", "TR", "Turkey"),
  ("TKM", "TM", "Turkmenistan"),
  ("TCA", "TC", "Turks and Caicos Islands"),
  ("TUV", "TV", "Tuvalu"),
  ("UGA", "UG", "Uganda"),
  ("UKR", "UA", "Ukraine"),
  ("ARE", "AE", "United Arab Emirates"),
  ("GBR", "GB", "United Kingdom of Great Britain and Northern Ireland"),
  ("USA", "US", "United States of America"),
  ("URY", "UY", "Uruguay"),
  ("UZB", "UZ", "Uzbekistan"),
  ("VUT", "VU", "Vanuatu"),
  ("VAT", "VA", "Vatican City State"),
  ("VEN", "VE", "Bolivarian Republic of Venezuela"),
  ("VNM", "VN", "Viet Nam"),
  ("WLF", "WF", "Wallis and Futuna"),
  ("ESH", "EH", "Western Sahara"),
  ("YEM", "YE", "Yemen"),
  ("ZMB", "ZM", "Zambia"),
  ("ZWE", "ZW", "Zimbabwe"),
  ("XKX", "XK", "Kosovo")]

/-- The `ADDITIONAL_COUNTRY_ALIASES` table. -/
def additionalCountryAliases : String → List String
  | "ARE" => ["UAE", "United Arab Emirates"]
  | "BOL" => ["Bolivia"]
  | "BRN" => ["Brunei"]
  | "CIV" => ["Ivory Coast", "Cote d\u0027Ivoire"]
  | "COD" => ["DR Congo", "Democratic Republic of Congo", "Congo DR"]
  | "COG" => ["Republic of the Congo", "Congo"]
  | "CPV" => ["Cape Verde"]
  | "CZE" => ["Czech Republic"]
  | "FSM" => ["Micronesia"]
  | "GBR" => ["United Kingdom", "Great Britain", "UK"]
  | "IRN" => ["Iran"]
  | "KOR" => ["South Korea", "Republic of Korea"]
  | "LAO" => ["Laos"]
  | "MAC" => ["Macau"]
  | "MDA" => ["Moldova"]
  | "MKD" => ["Macedonia", "North Macedonia"]
  | "MMR" => ["Burma", "Myanmar"]
  | "PRK" => ["North Korea"]
  | "RUS" => ["Russia"]
  | "SRB" => ["Serbia"]
  | "SWZ" => ["Swaziland"]
  | "SYR" => ["Syria"]
  | "TJK" => ["Tadjikistan"]
  | "TLS" => ["East Timor"]
  | "TTO" => ["Trinidad & Tobago", "Trinidad and Tobago"]
  | "TWN" => ["Taiwan"]
  | "TZA" => ["Tanzania"]
  | "UKR" => ["Ukraine"]
  | "USA" => ["United States", "USA", "United States of America"]
  | "VEN" => ["Venezuela"]
  | "VNM" => ["Vietnam"]
  | "XKX" => ["Kosovo"]
  | "TUR" => ["Türkiye", "Republic of Türkiye"]
  | _ => []

/-- The `COUNTRY_KEYWORD_MATCHES` list. -/
def countryKeywordMatches : List (String × String) :=
  [("hongkong", "HKG"), ("palestin", "PSE"), ("moldov", "MDA"),
   ("micrones", "FSM"), ("iran", "IRN"), ("china", "CHN"),
   ("turkiye", "TUR")]

/-! ### `_generate_country_name_variants` -/

/-- Leftmost match of `\s*\(.*?\)` starting exactly at the head: the
whitespace run, an opening parenthesis, and everything up to the first
closing parenthesis. Returns the remainder after the match. -/
def parenMatchAt (cs : List Char) : Option (List Char) :=
  let afterWs := cs.dropWhile isPySpace
  match afterWs with
  | c :: rest =>
    if c = '(' then
      if rest.contains ')' then
        some ((rest.dropWhile (· ≠ ')')).drop 1)
      else none
    else none
  | [] => none

/-- Split at the leftmost match of `\s*\(.*?\)`: returns the text before the
match and the text after it. -/
def splitParenMatch : List Char → Option (List Char × List Char)
  | [] => none
  | c :: rest =>
    match parenMatchAt (c :: rest) with
    | some tail => some ([], tail)
    | none =>
      match splitParenMatch rest with
      | some (pre, post) => some (c :: pre, post)
      | none => none

/-- `re.sub(r"\s*\(.*?\)", "", ·)`: remove every parenthesised qualifier. -/
def removeParens : Nat → List Char → List Char
  | 0, cs => cs
  | fuel + 1, cs =>
    match splitParenMatch cs with
    | none => cs
    | some (pre, post) => pre ++ removeParens fuel post

/-- Split on a separator character, mirroring `str.split(",")`. -/
def splitOnChar (sep : Char) (cs : List Char) : List (List Char) :=
  match cs with
  | [] => [[]]
  | c :: rest =>
    let r := splitOnChar sep rest
    if c = sep then [] :: r
    else
      match r with
      | [] => [[c]]
      | h :: t => (c :: h) :: t

/-- Embedding of `_generate_country_name_variants`.  The Python function
returns a set; the embedding returns the generated variants as a list
(possibly with repetitions).  All variants of one table row map to the same
code, so the unspecified set-iteration order and the deduplication are
irrelevant to the alias table built from them. -/
def generateCountryNameVariants (name : String) : List String :=
  let stripped := trimChars name.toList
  if stripped.isEmpty then []
  else
    let base := [String.mk stripped,
                 String.mk (replaceSub stripped [rsquoChar] [aposChar])]
    let parens :=
      if stripped.contains '(' && stripped.contains ')' then
        let without := trimChars (removeParens (stripped.length + 1) stripped)
        if without.isEmpty then [] else [String.mk without]
      else []
    let commas :=
      if stripped.contains ',' then
        let parts := ((splitOnChar ',' stripped).map trimChars).filter
          (fun p => !p.isEmpty)
        let reversedJoin :=
          if parts.length = 2 then
            [String.mk ((parts.getD 1 []) ++ (' ' :: parts.getD 0 []))]
          else []
        reversedJoin ++ parts.map String.mk
      else []
    let amp :=
      if containsSub (lowerChars stripped) " and ".toList then
        [String.mk (replaceSub stripped " and ".toList " & ".toList)]
      else []
    base ++ parens ++ commas ++ amp ++ [String.mk (upperChars stripped)]

/-! ### The alias tables built at start-up -/

/-- `COUNTRY_CODE_TO_INFO`: alpha-3 code to `(name, alpha2)`. -/
def countryCodeToInfo (code : String) : Option (String × String) :=
  (countryCodeData.find? fun r => r.1 = code).map fun r => (r.2.2, r.2.1)

/-- `ISO2_TO_ISO3` (the data table has pairwise-distinct alpha-2 codes, so
first-write-wins insertion is plain lookup). -/
def iso2ToIso3 (code : String) : Option String :=
  (countryCodeData.find? fun r => r.2.1 = code).map fun r => r.1

/-- All bindings generated for `COUNTRY_NAME_TO_CODE`, in insertion order:
for each data row, the name variants, the supplemental aliases and the two
codes, each normalised.  Empty normalised keys are skipped, as in the source.
First-match lookup over this list realises the first-write-wins dictionary. -/
def countryNameBindings : List (String × String) :=
  countryCodeData.flatMap fun r =>
    ((generateCountryNameVariants r.2.2 ++ additionalCountryAliases r.1
        ++ [r.1, r.2.1]).map
      fun v => (normalize_country_name v, r.1)).filter fun p => p.1 ≠ ""

/-- `COUNTRY_NAME_TO_CODE` lookup. -/
def countryNameToCode (key : String) : Option String :=
  (countryNameBindings.find? fun p => p.1 = key).map fun p => p.2

/-! ### `normalize_country_code` and `lookup_country_code` -/

/-- Is every character an ASCII capital letter (regex `[A-Z]{n}` fullmatch
combined with a length check)? -/
def allUpperAlpha (cs : List Char) : Bool :=
  cs.all fun c => 'A' ≤ c && c ≤ 'Z'

/-- Embedding of `normalize_country_code`. -/
def normalize_country_code (code : String) : Option String :=
  let candidate := upperChars (trimChars code.toList)
  if candidate.isEmpty then none
  else if candidate.length = 3 && allUpperAlpha candidate
      && (countryCodeToInfo (String.mk candidate)).isSome then
    some (String.mk candidate)
  else if candidate.length = 2 && allUpperAlpha candidate then
    iso2ToIso3 (String.mk candidate)
  else none

/-- Embedding of `normalize_country_lookup_value`. -/
def normalize_country_lookup_value (name : String) : String :=
  String.mk (normalizeCountryNameChars
    (stripCountryNameNoiseChars (stripLeadingFlagChars name.toList)))

/-- Embedding of `lookup_country_code`. -/
def lookup_country_code (name : String) : Option String :=
  let normalized := normalize_country_lookup_value name
  if normalized = "" then none
  else
    match countryNameToCode normalized with
    | some code => some code
    | none =>
      (countryKeywordMatches.find? fun kw =>
        containsSub normalized.toList kw.1.toList).map fun kw => kw.2

/-- Embedding of `get_country_display_name`. -/
def get_country_display_name (code : String) : Option String :=
  (countryCodeToInfo (String.mk (upperChars code.toList))).map fun i => i.1

/-! ### `_normalize_booth_key` and `_match_booth_interview`

The Unicode NFKC step of `_normalize_booth_key` is modelled as the identity
(it only rewrites compatibility characters, which the embedded repertoire
does not contain); upper-casing uses the ASCII case mapping. -/

/-- ASCII capital letter or digit (the `[A-Z0-9]` class). -/
def isUpperDigit (c : Char) : Bool :=
  ('A' ≤ c && c ≤ 'Z') || ('0' ≤ c && c ≤ '9')

/-- Merge adjacent spaces into one. -/
def squeezeSpaces : List Char → List Char
  | [] => []
  | c :: rest =>
    match squeezeSpaces rest with
    | [] => [c]
    | d :: t => if c = ' ' && d = ' ' then d :: t else c :: d :: t

/-- Embedding of `_normalize_booth_key`: upper-case, replace every maximal
run of non-`[A-Z0-9]` characters by a single space, and strip. -/
def normalizeBoothKey (s : String) : String :=
  let uppered := upperChars s.toList
  let spaced := uppered.map fun c => if isUpperDigit c then c else ' '
  String.mk (trimChars (squeezeSpaces spaced))

structure BoothInterviewRow where
  key : String
  script : String
  normalized_key : String
deriving DecidableEq, Repr

/-- Length of the common prefix of two character lists. -/
def runLen : List Char → List Char → Nat
  | a :: as, b :: bs => if a = b then runLen as bs + 1 else 0
  | _, _ => 0

/-- Model of `difflib.SequenceMatcher.find_longest_match` on the ranges
`[alo, ahi) × [blo, bhi)` (without the autojunk heuristic, which only
affects second sequences of length at least 200): the longest matching
block, ties resolved towards the smallest start in `a`, then in `b`. -/
def bestMatchIn (a b : List Char) (alo ahi blo bhi : Nat) : Nat × Nat × Nat :=
  (List.range (ahi - alo)).foldl
    (fun best di =>
      let i := alo + di
      (List.range (bhi - blo)).foldl
        (fun best dj =>
          let j := blo + dj
          let k := min (runLen (a.drop i) (b.drop j)) (min (ahi - i) (bhi - j))
          if best.2.2 < k then (i, j, k) else best)
        best)
    (alo, blo, 0)

/-- Model of `difflib`-style matching blocks (Ratcliff/Obershelp): recurse
on both sides of the longest match.  The sum of the range sizes strictly
decreases, so that sum is enough fuel. -/
def matchingBlocksGo :
    Nat → List Char → List Char → Nat → Nat → Nat → Nat →
      List (Nat × Nat × Nat)
  | 0, _, _, _, _, _, _ => []
  | fuel + 1, a, b, alo, ahi, blo, bhi =>
    let m := bestMatchIn a b alo ahi blo bhi
    if m.2.2 = 0 then []
    else
      matchingBlocksGo fuel a b alo m.1 blo m.2.1 ++ [m] ++
        matchingBlocksGo fuel a b (m.1 + m.2.2) ahi (m.2.1 + m.2.2) bhi

/-- Total number of matched characters between two strings. -/
def matchedChars (a b : List Char) : Nat :=
  ((matchingBlocksGo (a.length + b.length + 1) a b 0 a.length 0 b.length).map
    fun m => m.2.2).sum

/-- Model of `difflib.SequenceMatcher(None, a, b).ratio()` over exact
rationals: `2 * M / (len(a) + len(b))`, and `1` when both are empty. -/
def similarityQ (a b : List Char) : ℚ :=
  if a.length + b.length = 0 then 1
  else (2 * (matchedChars a b : ℚ)) / ((a.length : ℚ) + (b.length : ℚ))

/-- The best-scoring fold of `_match_booth_interview` (strict improvement,
so the first row attaining the maximum is kept). -/
def boothBestFold (nk : List Char) (rows : List BoothInterviewRow)
    (init : Option BoothInterviewRow × ℚ) : Option BoothInterviewRow × ℚ :=
  rows.foldl
    (fun best row =>
      let score := similarityQ nk row.normalized_key.toList
      if best.2 < score then (some row, score) else best)
    init

/-- Embedding of `_match_booth_interview`. -/
def match_booth_interview (key : String) (rows : List BoothInterviewRow) :
    Option BoothInterviewRow :=
  let nk := normalizeBoothKey key
  if nk = "" then none
  else
    match rows.find? fun row => row.normalized_key = nk with
    | some row => some row
    | none =>
      let best := boothBestFold nk.toList rows (none, 0)
      match best.1 with
      | some row => if 7 / 10 ≤ best.2 then some row else none
      | none => none

/-! ### Schedule records

Schedule match records are JSON-like nested values (the declared input type
of `build_match_country_map` is `Sequence[Mapping[str, Any]]`).  Python
floats appearing as match numbers are modelled as rationals, with
`float.is_integer` becoming a denominator test. -/

inductive JVal where
  | str (s : String)
  | intVal (n : Int)
  | floatVal (q : ℚ)
  | boolVal (b : Bool)
  | nullVal
  | arr (xs : List JVal)
  | obj (fields : List (String × JVal))
deriving Repr

/-- `dict` lookup on a record (first binding wins, as Python keys are
unique). -/
def lookupField (fields : List (String × JVal)) (key : String) : Option JVal :=
  (fields.find? fun p => p.1 = key).map fun p => p.2

/-- Decimal value of a digit string (`int(s)` on an all-digit string). -/
def digitsToInt (cs : List Char) : Int :=
  cs.foldl (fun acc c => acc * 10 + ((c.toNat : Int) - 48)) 0

/-- The maximal digit runs of a string, in order (`re.findall(r"\d+", s)`). -/
def digitRuns : List Char → List (List Char)
  | [] => []
  | c :: rest =>
    let r := digitRuns rest
    if c.isDigit then
      match rest with
      | d :: _ =>
        if d.isDigit then
          match r with
          | run :: t => (c :: run) :: t
          | [] => [[c]]
        else [c] :: r
      | [] => [[c]]
    else r

/-- Embedding of `MatchScheduleImporterUI._coerce_match_number`. -/
def coerce_match_number : Option JVal → Option Int
  | some (.boolVal _) => none
  | some (.intVal n) => some n
  | some (.floatVal q) => if q.den = 1 then some q.num else none
  | some (.str s) =>
    let stripped := trimChars s.toList
    if stripped.isEmpty then none
    else if stripped.all Char.isDigit then some (digitsToInt stripped)
    else
      match (digitRuns stripped).getLast? with
      | some run => some (digitsToInt run)
      | none => none
  | _ => none

/-- Embedding of `MatchScheduleImporterUI.extract_match_number`: probe the
primary keys, then the fallback keys. -/
def extract_match_number (fields : List (String × JVal)) : Option Int :=
  match ["matchNumber", "match_number", "matchNumberDisplay", "matchnumber",
         "matchNo", "id"].findSome?
      (fun key => coerce_match_number (lookupField fields key)) with
  | some n => some n
  | none =>
    ["matchKey", "match"].findSome?
      fun key => coerce_match_number (lookupField fields key)

/-- State of the recursive `visit` of `_extract_countries_from_match`:
raw tokens and normalised codes, both kept de-duplicated in first-seen
order (list membership plays the role of the `seen` sets). -/
structure ExtractState where
  rawValues : List String
  codes : List String
deriving DecidableEq, Repr

/-- The recursive `visit` of `_extract_countries_from_match`.  The Python
recursion is bounded by `depth > 6`; the fuel argument is `7 - depth`, so
the walk starts with fuel 7. -/
def visitJ : Nat → JVal → ExtractState → ExtractState
  | 0, _, st => st
  | _ + 1, .str s, st =>
    match normalize_country_code s with
    | some iso3 =>
      let stripped := String.mk (trimChars s.toList)
      let st1 :=
        if stripped ≠ "" && !st.rawValues.contains stripped then
          { st with rawValues := st.rawValues ++ [stripped] }
        else st
      if !st1.codes.contains iso3 then
        { st1 with codes := st1.codes ++ [iso3] }
      else st1
    | none => st
  | fuel + 1, .obj fields, st =>
    let st1 :=
      ["country", "countryCode", "country_code", "countrycode",
       "teamCountry"].foldl
        (fun st key =>
          match lookupField fields key with
          | some v => visitJ fuel v st
          | none => st)
        st
    fields.foldl
      (fun st p =>
        match p.2 with
        | .arr _ => visitJ fuel p.2 st
        | .obj _ => visitJ fuel p.2 st
        | _ => st)
      st1
  | fuel + 1, .arr xs, st => xs.foldl (fun st v => visitJ fuel v st) st
  | _ + 1, _, st => st

/-- Embedding of `_extract_countries_from_match`: returns
`(raw_values, codes_ordered)`. -/
def extract_countries_from_match (fields : List (String × JVal)) :
    List String × List String :=
  let st1 :=
    ["countries", "countryCodes", "teams", "participants", "alliances",
     "blueAllianceTeams", "redAllianceTeams"].foldl
      (fun st key =>
        match lookupField fields key with
        | some v => visitJ 7 v st
        | none => st)
      (⟨[], []⟩ : ExtractState)
  let st2 :=
    if st1.codes.isEmpty then
      fields.foldl
        (fun st p =>
          match p.2 with
          | .arr _ => visitJ 7 p.2 st
          | .obj _ => visitJ 7 p.2 st
          | _ => st)
        st1
    else st1
  (st2.rawValues, st2.codes)

/-! ### Diagnostics

Each diagnostic string of the source is modelled by a constructor carrying
the data the message interpolates. -/

inductive Diag where
  /-- "Schedule entry missing match number. Details: …" -/
  | scheduleMissingMatchNumber
  /-- "No country entries found for match #n. Details: …" -/
  | noCountryEntries (matchNumber : Int)
  /-- "Match #n on sheet s is missing country data in the imported schedule." -/
  | matchMissingCountryData (matchNumber : Int) (sheet : String)
  /-- "Unrecognized country codes in schedule for match #n: …" -/
  | unrecognizedCountryCodes (matchNumber : Int) (codes : List String)
  /-- "Match #n on sheet s has country entries, but none could be normalized." -/
  | noneNormalized (matchNumber : Int) (sheet : String)
  /-- "No videos found for countries … in match #n." -/
  | noVideosFound (matchNumber : Int) (codes : List String)
  /-- "Match #n on sheet s has no assignable countries with videos." -/
  | noAssignableCountries (matchNumber : Int) (sheet : String)
  /-- "Countries … in match #n lack value scores and were ignored." -/
  | missingValueScores (matchNumber : Int) (codes : List String)
  /-- "p placeholders reached assignment, but only u unique country videos were available." -/
  | supplyShortfallCounts (placeholders : Nat) (uniques : Nat)
  /-- "Fewer unique country videos are available than placeholders; duplicates may be required." -/
  | supplyShortfallWarning
  /-- "Unable to compute assignments because there are fewer available countries than placeholders." -/
  | hungarianInfeasible
  /-- "No available country could be assigned to placeholder before match #n on sheet s." -/
  | noAvailableCountry (matchNumber : Int) (sheet : String)
  /-- "No valid assignment found for placeholder before match #n on sheet s." -/
  | noValidAssignment (matchNumber : Int) (sheet : String)
  /-- "Unable to assign any video to placeholder before match #n on sheet s, even after allowing duplicates." -/
  | unableEvenWithDuplicates (matchNumber : Int) (sheet : String)
  /-- "Duplicate assignment: country c reused for match #n." -/
  | duplicateAssignment (code : String) (matchNumber : Int)
deriving DecidableEq, Repr

/-- `dict` upsert for the match-country map (insertion order preserved,
later values for an existing key overwrite in place). -/
def upsertMap (m : List (Int × List String)) (k : Int) (v : List String) :
    List (Int × List String) :=
  if m.any fun p => p.1 = k then
    m.map fun p => if p.1 = k then (k, v) else p
  else m ++ [(k, v)]

/-- Map lookup with default `[]` (`match_countries.get(n, [])`). -/
def lookupMapD (m : List (Int × List String)) (k : Int) : List String :=
  ((m.find? fun p => p.1 = k).map fun p => p.2).getD []

/-- Embedding of `build_match_country_map` (the `importer.describe_match`
calls only produce text for the diagnostic messages, and the console calls
only log). -/
def build_match_country_map (matchRecords : List (List (String × JVal))) :
    List (Int × List String) × List Diag :=
  matchRecords.foldl
    (fun acc fields =>
      match extract_match_number fields with
      | none => (acc.1, acc.2 ++ [Diag.scheduleMissingMatchNumber])
      | some n =>
        let countries := (extract_countries_from_match fields).2
        if countries.isEmpty then
          (acc.1, acc.2 ++ [Diag.noCountryEntries n])
        else (upsertMap acc.1 n countries, acc.2))
    ([], [])

/-! ### Video catalog -/

/-- The fields of `VideoEntry` consumed by the assignment engine; the
`value` field is the optimisation weight (may be absent). -/
structure VideoEntry where
  team_name : String
  normalized_name : String
  value : Option ℚ
  video_id : Option String
  time : Option String
  row_index : Nat
  video_number : Option String
  duration : Option String
deriving DecidableEq, Repr

/-- The fields of `VideoDataset` consumed by the assignment engine: the
entry list and its two first-write-wins indexes, modelled as association
lists with first-match lookup. -/
structure VideoDataset where
  entries : List VideoEntry
  by_code : List (String × VideoEntry)
  by_normalized_name : List (String × VideoEntry)
  sheet_title : String := "Videos"
deriving DecidableEq, Repr

structure PlaceholderSlot where
  sheet_title : String
  row_index : Nat
  task_column : Nat
  match_number : Int
  placeholder_index : Nat
deriving DecidableEq, Repr

structure PlaceholderAssignment where
  slot : PlaceholderSlot
  country_code : String
  video : VideoEntry
  dataset : VideoDataset
deriving DecidableEq, Repr

/-- Association-list lookup for the dataset indexes. -/
def lookupEntry (m : List (String × VideoEntry)) (k : String) :
    Option VideoEntry :=
  (m.find? fun p => p.1 = k).map fun p => p.2

/-- Regex search `\b code \b` over a text: the pattern occurs at a position
with a non-word character (or an edge) on both sides. -/
def wordBoundaryScan : Option Char → List Char → List Char → Bool
  | prev, text, pat =>
    (pat.isPrefixOf text &&
        (match prev with | none => true | some c => !isWordChar c) &&
        (match text.drop pat.length with
         | [] => true
         | c :: _ => !isWordChar c)) ||
      match text with
      | [] => false
      | c :: rest => wordBoundaryScan (some c) rest pat

/-- Embedding of `find_video_entry_for_code`. -/
def find_video_entry_for_code (code : String) (dataset : VideoDataset) :
    Option VideoEntry :=
  let code := String.mk (upperChars code.toList)
  match lookupEntry dataset.by_code code with
  | some entry => some entry
  | none =>
    let candidate_names :=
      (match get_country_display_name code with
       | some d => [d]
       | none => []) ++ additionalCountryAliases code
    match candidate_names.findSome? fun name =>
        [normalize_country_lookup_value name,
         normalize_country_name (String.mk (stripLeadingFlagChars name.toList))
        ].findSome? fun normalized =>
          if normalized = "" then none
          else lookupEntry dataset.by_normalized_name normalized with
    | some entry => some entry
    | none =>
      dataset.entries.find? fun entry =>
        wordBoundaryScan none (upperChars entry.team_name.toList) code.toList

/-! ### `_hungarian_algorithm`

The e-maxx formulation with row/column potentials.  The Python lists
`u, v, p, way, minv, used` become Lean lists (`List.getD` / `List.set`
access; the algorithm only ever touches in-range indices), and `math.inf`
becomes `Option ℚ` with `none` for infinity.  Both `while True` loops are
driven by fuel: the inner Dijkstra loop marks a fresh column as used in
every iteration and the augmenting flip walks a chain of distinct used
columns, so `cols + 2` fuel is enough for either loop. -/

/-- `a < m` where `none` is `math.inf`. -/
def ltInf (a : ℚ) : Option ℚ → Bool
  | none => true
  | some b => decide (a < b)

/-- `m < m'` on `Option ℚ` with `none` as `math.inf`. -/
def optLt : Option ℚ → Option ℚ → Bool
  | none, _ => false
  | some _, none => true
  | some a, some b => decide (a < b)

structure InnerState where
  u : List ℚ
  v : List ℚ
  p : List Nat
  way : List Nat
  minv : List (Option ℚ)
  used : List Bool
  j0 : Nat
deriving DecidableEq, Repr

/-- The result of the `for j in range(1, cols + 1)` scan: updated
`minv`/`way`, the minimum `delta`, and its first column `j1`. -/
structure ScanResult where
  minv : List (Option ℚ)
  way : List Nat
  delta : Option ℚ
  j1 : Nat
deriving DecidableEq, Repr

/-- The `for j in range(1, cols + 1)` scan: update `minv`/`way` and find the
minimum `delta` together with its first column `j1`. -/
def innerScan (c : Nat → Nat → ℚ) (cols : Nat) (s : InnerState) : ScanResult :=
  let i0 := s.p.getD s.j0 0
  (List.range' 1 cols).foldl
    (fun acc j =>
      if s.used.getD j false then acc
      else
        let cur := c (i0 - 1) (j - 1) - s.u.getD i0 0 - s.v.getD j 0
        let mw : List (Option ℚ) × List Nat :=
          if ltInf cur (acc.minv.getD j none) then
            (acc.minv.set j (some cur), acc.way.set j s.j0)
          else (acc.minv, acc.way)
        if optLt (mw.1.getD j none) acc.delta then
          ⟨mw.1, mw.2, mw.1.getD j none, j⟩
        else ⟨mw.1, mw.2, acc.delta, acc.j1⟩)
    ⟨s.minv, s.way, none, 0⟩

/-- The `for j in range(cols + 1)` potential update with a finite `delta`. -/
def applyDelta (d : ℚ) (cols : Nat) (s : InnerState) :
    List ℚ × List ℚ × List (Option ℚ) :=
  (List.range (cols + 1)).foldl
    (fun acc j =>
      if s.used.getD j false then
        let pj := s.p.getD j 0
        (acc.1.set pj (acc.1.getD pj 0 + d),
         acc.2.1.set j (acc.2.1.getD j 0 - d), acc.2.2)
      else (acc.1, acc.2.1, acc.2.2.set j ((acc.2.2.getD j none).map (· - d))))
    (s.u, s.v, s.minv)

/-- The inner `while True` loop of `_hungarian_algorithm`. -/
def innerLoop (c : Nat → Nat → ℚ) (cols : Nat) :
    Nat → InnerState → InnerState
  | 0, s => s
  | fuel + 1, s =>
    let s := { s with used := s.used.set s.j0 true }
    let scan := innerScan c cols s
    match scan.delta with
    | none => { s with minv := scan.minv, way := scan.way }
    | some d =>
      let uvm := applyDelta d cols { s with minv := scan.minv, way := scan.way }
      let s := { s with u := uvm.1, v := uvm.2.1, minv := uvm.2.2,
                        way := scan.way, j0 := scan.j1 }
      if s.p.getD s.j0 0 = 0 then s else innerLoop c cols fuel s

/-- The augmenting `while True` flip along the `way` chain. -/
def flipLoop (way : List Nat) : Nat → Nat → List Nat → List Nat
  | 0, _, p => p
  | fuel + 1, j0, p =>
    let j1 := way.getD j0 0
    let p := p.set j0 (p.getD j1 0)
    if j1 = 0 then p else flipLoop way fuel j1 p

structure HungarianState where
  u : List ℚ
  v : List ℚ
  p : List Nat
  way : List Nat
deriving DecidableEq, Repr

/-- One iteration of the outer `for i in range(1, rows + 1)` loop. -/
def hungarianOuter (c : Nat → Nat → ℚ) (cols : Nat) (i : Nat)
    (st : HungarianState) : HungarianState :=
  let s : InnerState :=
    ⟨st.u, st.v, st.p.set 0 i, st.way,
     List.replicate (cols + 1) none, List.replicate (cols + 1) false, 0⟩
  let s := innerLoop c cols (cols + 2) s
  let pfinal := flipLoop s.way (cols + 2) s.j0 s.p
  ⟨s.u, s.v, pfinal, s.way⟩

/-- The initial state: `u`, `v` zero, `p`, `way` zero. -/
def hungarianInit (rows cols : Nat) : HungarianState :=
  ⟨List.replicate (rows + 1) 0, List.replicate (cols + 1) 0,
   List.replicate (cols + 1) 0, List.replicate (cols + 1) 0⟩

/-- Embedding of `_hungarian_algorithm`; `none` models the `ValueError`
raised when the matrix has fewer columns than rows. -/
def hungarian (m : List (List ℚ)) : Option (List Int) :=
  let rows := m.length
  if rows = 0 then some []
  else
    let cols := (m.headD []).length
    if cols < rows then none
    else
      let c : Nat → Nat → ℚ := fun i j => (m.getD i []).getD j 0
      let st := (List.range rows).foldl
        (fun st i => hungarianOuter c cols (i + 1) st)
        (hungarianInit rows cols)
      let assignment := (List.range' 1 cols).foldl
        (fun asg j =>
          if st.p.getD j 0 ≠ 0 then
            asg.set (st.p.getD j 0 - 1) ((j : Int) - 1)
          else asg)
        (List.replicate rows (-1 : Int))
      some assignment

/-! ### `compute_team_video_assignments` -/

/-- `inf_cost = 1e12`, the forbidden pairing sentinel. -/
def infCost : ℚ := 10 ^ 12

/-- `duplicate_trigger_cost = 1e11`, the synthetic padding column cost. -/
def duplicateTriggerCost : ℚ := 10 ^ 11

/-- The tie-break epsilon `1e-6`. -/
def epsQ : ℚ := 1 / 10 ^ 6

/-- First-seen-order deduplication (`dict.fromkeys`). -/
def dedupKeepFirst : List String → List String
  | [] => []
  | x :: xs => x :: (dedupKeepFirst xs).filter (· ≠ x)

/-- Lexicographic comparison of character lists (Python string `<=`). -/
def charListLE : List Char → List Char → Bool
  | [], _ => true
  | _ :: _, [] => false
  | a :: as, b :: bs => if a = b then charListLE as bs else decide (a < b)

def stringLE (a b : String) : Bool := charListLE a.toList b.toList

/-- `sorted` on strings (a stable sort under a total order, so any stable
sort matches the Python built-in; insertion sort keeps every definition
kernel-computable). -/
def sortStrings (xs : List String) : List String :=
  List.insertionSort (fun a b => stringLE a b = true) xs

/-- `str(code).strip() or "(blank)"` for the unresolved-codes payload. -/
def blankOrTrim (code : String) : String :=
  let t := String.mk (trimChars code.toList)
  if t = "" then "(blank)" else t

/-- The running state of the candidate-filtering loop (Stage A).  The
`logged_matches` set of the source only gates console output and is not
modelled; `unresolved_logged` and `missing_logged` gate diagnostics and
are. -/
structure StageAState where
  slot_candidates : List (PlaceholderSlot × List String)
  diagnostics : List Diag
  unresolved_logged : List (String × Int)
  missing_logged : List (String × Int)

/-- The per-code partition of the candidate loop: codes with a video entry
carrying a numeric value, codes with no entry, and codes whose entry lacks
a value. -/
def partitionByVideo (ds : VideoDataset) :
    List String → List String × List String × List String
  | [] => ([], [], [])
  | code :: rest =>
    let r := partitionByVideo ds rest
    match find_video_entry_for_code code ds with
    | none => (r.1, code :: r.2.1, r.2.2)
    | some e =>
      match e.value with
      | none => (r.1, r.2.1, code :: r.2.2)
      | some _ => (code :: r.1, r.2.1, r.2.2)

/-- One slot of the Stage A candidate-filtering loop. -/
def stageAStep (mc : List (Int × List String)) (ds : VideoDataset)
    (st : StageAState) (slot : PlaceholderSlot) : StageAState :=
  let countries := lookupMapD mc slot.match_number
  if countries.isEmpty then
    { st with diagnostics := st.diagnostics ++
        [Diag.matchMissingCountryData slot.match_number slot.sheet_title] }
  else
    let normalized_codes0 := countries.filterMap normalize_country_code
    let unresolved_codes :=
      countries.filter fun c => (normalize_country_code c).isNone
    let match_key := (slot.sheet_title, slot.match_number)
    let st :=
      if !unresolved_codes.isEmpty && !st.unresolved_logged.contains match_key
      then
        { st with
          diagnostics := st.diagnostics ++
            [Diag.unrecognizedCountryCodes slot.match_number
              (sortStrings (dedupKeepFirst (unresolved_codes.map blankOrTrim)))],
          unresolved_logged := st.unresolved_logged ++ [match_key] }
      else st
    let normalized_codes := dedupKeepFirst normalized_codes0
    if normalized_codes.isEmpty then
      { st with diagnostics := st.diagnostics ++
          [Diag.noneNormalized slot.match_number slot.sheet_title] }
    else
      let part := partitionByVideo ds normalized_codes
      let valid_codes := part.1
      let missing_entries := part.2.1
      let missing_value_codes := part.2.2
      let st :=
        if !missing_entries.isEmpty && !st.missing_logged.contains match_key
        then
          { st with
            diagnostics := st.diagnostics ++
              [Diag.noVideosFound slot.match_number
                (sortStrings (dedupKeepFirst missing_entries))],
            missing_logged := st.missing_logged ++ [match_key] }
        else st
      if valid_codes.isEmpty then
        { st with diagnostics := st.diagnostics ++
            [Diag.noAssignableCountries slot.match_number slot.sheet_title] }
      else
        let st :=
          if !missing_value_codes.isEmpty then
            { st with diagnostics := st.diagnostics ++
                [Diag.missingValueScores slot.match_number
                  (sortStrings (dedupKeepFirst missing_value_codes))] }
          else st
        { st with slot_candidates := st.slot_candidates ++ [(slot, valid_codes)] }

/-- Stage A over all slots. -/
def stageA (slots : List PlaceholderSlot) (mc : List (Int × List String))
    (ds : VideoDataset) : StageAState :=
  slots.foldl (stageAStep mc ds) ⟨[], [], [], []⟩

/-- `unique_codes = sorted({code for _, codes in slot_candidates for code in codes})`. -/
def uniqueCodes (cands : List (PlaceholderSlot × List String)) : List String :=
  sortStrings (dedupKeepFirst (cands.flatMap fun sc => sc.2))

/-- The column labels: the unique codes followed by `None` padding up to the
row count. -/
def columnCodes (cands : List (PlaceholderSlot × List String)) :
    List (Option String) :=
  let unique := uniqueCodes cands
  unique.map some ++ List.replicate (cands.length - unique.length) none

/-- One row of the cost matrix. -/
def rowCosts (ds : VideoDataset) (slot : PlaceholderSlot)
    (codes : List String) (cols : List (Option String)) : List ℚ :=
  cols.map fun col =>
    match col with
    | none => duplicateTriggerCost + (slot.placeholder_index : ℚ) * epsQ
    | some code =>
      if codes.contains code then
        match find_video_entry_for_code code ds with
        | none => infCost
        | some e =>
          match e.value with
          | none => infCost
          | some v => v + (slot.placeholder_index : ℚ) * epsQ
      else infCost

/-- The Stage B cost matrix. -/
def costMatrix (cands : List (PlaceholderSlot × List String))
    (ds : VideoDataset) : List (List ℚ) :=
  cands.map fun sc => rowCosts ds sc.1 sc.2 (columnCodes cands)

/-- State shared by the extraction pass and the duplicate fallback pass.
`results` models `results_by_index` (each row index is bound at most once,
so an insertion-ordered association list with first-match lookup coincides
with the Python dict) and `counts` models `assigned_counts`. -/
structure AssignPassState where
  results : List (Nat × PlaceholderAssignment)
  unmatched : List Nat
  counts : List (String × Nat)
  diagnostics : List Diag
  duplicate_messages : List Diag

/-- `assigned_counts.get(code, 0)`. -/
def countGet (counts : List (String × Nat)) (code : String) : Nat :=
  ((counts.find? fun p => p.1 = code).map fun p => p.2).getD 0

/-- `assigned_counts[code] = n`. -/
def countSet (counts : List (String × Nat)) (code : String) (n : Nat) :
    List (String × Nat) :=
  if counts.any fun p => p.1 = code then
    counts.map fun p => if p.1 = code then (code, n) else p
  else counts ++ [(code, n)]

/-- `results_by_index.get(i)`. -/
def resultsGet (results : List (Nat × PlaceholderAssignment)) (i : Nat) :
    Option PlaceholderAssignment :=
  (results.find? fun p => p.1 = i).map fun p => p.2

/-- The body of one first-pass extraction row once the solver column
`column_index` has been read (Stage D, solver output re-validation). -/
def firstPassBody (ds : VideoDataset)
    (colCodes : List (Option String)) (cost : List (List ℚ))
    (st : AssignPassState) (row_index : Nat)
    (sc : PlaceholderSlot × List String) (column_index : Int) :
    AssignPassState :=
    let slot := sc.1
    if column_index < 0 || (colCodes.length : Int) ≤ column_index then
      { st with
        diagnostics := st.diagnostics ++
          [Diag.noAvailableCountry slot.match_number slot.sheet_title],
        unmatched := st.unmatched ++ [row_index] }
    else
      let ci := column_index.toNat
      let cost_val := (cost.getD row_index []).getD ci 0
      if infCost ≤ cost_val then
        { st with
          diagnostics := st.diagnostics ++
            [Diag.noValidAssignment slot.match_number slot.sheet_title],
          unmatched := st.unmatched ++ [row_index] }
      else
        match colCodes.getD ci none with
        | none => { st with unmatched := st.unmatched ++ [row_index] }
        | some code =>
          match find_video_entry_for_code code ds with
          | none => { st with unmatched := st.unmatched ++ [row_index] }
          | some entry =>
            if entry.value.isNone then
              { st with unmatched := st.unmatched ++ [row_index] }
            else if 0 < countGet st.counts code then
              { st with unmatched := st.unmatched ++ [row_index] }
            else
              { st with
                counts := countSet st.counts code
                  (countGet st.counts code + 1),
                results := st.results ++ [(row_index, ⟨slot, code, entry, ds⟩)] }

/-- One row of the first-pass extraction loop. -/
def firstPassStep (ds : VideoDataset)
    (cands : List (PlaceholderSlot × List String))
    (colCodes : List (Option String)) (cost : List (List ℚ))
    (assignments : List Int) (st : AssignPassState) (row_index : Nat) :
    AssignPassState :=
  match cands.get? row_index with
  | none => st
  | some sc =>
    firstPassBody ds colCodes cost st row_index sc
      (if row_index < assignments.length then assignments.getD row_index (-1)
       else -1)

/-- Sort order of the fallback candidate tuples
`(assigned_count, value, code, entry)`: the Python key tuple
`(count, value, code)` compared lexicographically (the codes in one
candidate list are pairwise distinct, so the entry component never has to be
compared). -/
def fallbackLE (a b : Nat × ℚ × String × VideoEntry) : Bool :=
  if a.1 ≠ b.1 then decide (a.1 < b.1)
  else if a.2.1 ≠ b.2.1 then decide (a.2.1 < b.2.1)
  else stringLE a.2.2.1 b.2.2.1

/-- One row of the greedy duplicate-fallback loop. -/
def fallbackStep (ds : VideoDataset)
    (cands : List (PlaceholderSlot × List String)) (st : AssignPassState)
    (row_index : Nat) : AssignPassState :=
  match cands.get? row_index with
  | none => st
  | some sc =>
    let slot := sc.1
    let candidate_entries := sc.2.filterMap fun code =>
      match find_video_entry_for_code code ds with
      | none => none
      | some entry =>
        match entry.value with
        | none => none
        | some v => some (countGet st.counts code, v, code, entry)
    if candidate_entries.isEmpty then
      { st with diagnostics := st.diagnostics ++
          [Diag.unableEvenWithDuplicates slot.match_number slot.sheet_title] }
    else
      match List.insertionSort (fun a b => fallbackLE a b = true)
          candidate_entries with
      | [] => st
      | chosen :: _ =>
        let code := chosen.2.2.1
        { st with
          counts := countSet st.counts code (chosen.1 + 1),
          duplicate_messages :=
            if 0 < chosen.1 then
              st.duplicate_messages ++
                [Diag.duplicateAssignment code slot.match_number]
            else st.duplicate_messages,
          results := st.results ++ [(row_index, ⟨slot, code, chosen.2.2.2, ds⟩)] }

/-- Decimal digits of a natural number (enough fuel always supplied). -/
def natDecChars : Nat → Nat → List Char
  | 0, _ => []
  | fuel + 1, n =>
    if n < 10 then [Char.ofNat (48 + n)]
    else natDecChars fuel (n / 10) ++ [Char.ofNat (48 + n % 10)]

/-- Decimal representation of an integer. -/
def intDecChars (m : Int) : List Char :=
  if m < 0 then '-' :: natDecChars (m.natAbs + 1) m.natAbs
  else natDecChars (m.natAbs + 1) m.natAbs

/-- `sorted(duplicate_messages)` compares the rendered message strings;
they share the fixed message text around the code and the decimal match
number, so the order is the lexicographic order of those two parts. -/
def dupMsgLE (a b : Diag) : Bool :=
  match a, b with
  | Diag.duplicateAssignment c1 m1, Diag.duplicateAssignment c2 m2 =>
    if c1 ≠ c2 then stringLE c1 c2
    else charListLE (intDecChars m1) (intDecChars m2)
  | _, _ => true

/-- Embedding of `compute_team_video_assignments` (`console = None`). -/
def compute_team_video_assignments (slots : List PlaceholderSlot)
    (mc : List (Int × List String)) (ds : VideoDataset) :
    List PlaceholderAssignment × List Diag :=
  let stA := stageA slots mc ds
  let cands := stA.slot_candidates
  let diags := stA.diagnostics
  if cands.isEmpty then ([], diags)
  else
    let unique := uniqueCodes cands
    let diags :=
      if unique.length < cands.length then
        diags ++ [Diag.supplyShortfallCounts cands.length unique.length,
                  Diag.supplyShortfallWarning]
      else diags
    let colCodes := columnCodes cands
    let cost := costMatrix cands ds
    if cost.isEmpty || (cost.headD []).isEmpty then ([], diags)
    else
      match hungarian cost with
      | none => ([], diags ++ [Diag.hungarianInfeasible])
      | some assignments =>
        let st1 := (List.range cands.length).foldl
          (firstPassStep ds cands colCodes cost assignments)
          ⟨[], [], [], diags, []⟩
        let st2 := st1.unmatched.foldl (fallbackStep ds cands) st1
        let ordered := (List.range cands.length).filterMap
          (resultsGet st2.results)
        (ordered, st2.diagnostics ++
          List.insertionSort (fun a b => dupMsgLE a b = true)
            st2.duplicate_messages)

/-- The Stage A diagnostics extended with the supply-shortfall messages
(the `diagnostics` list as it stands when the extraction loops start). -/
def passDiags (slots : List PlaceholderSlot) (mc : List (Int × List String))
    (ds : VideoDataset) : List Diag :=
  let stA := stageA slots mc ds
  if (uniqueCodes stA.slot_candidates).length < stA.slot_candidates.length
  then
    stA.diagnostics ++
      [Diag.supplyShortfallCounts stA.slot_candidates.length
        (uniqueCodes stA.slot_candidates).length,
       Diag.supplyShortfallWarning]
  else stA.diagnostics

/-- The pass state after the first (solver-output) extraction loop. -/
def firstPassState (slots : List PlaceholderSlot)
    (mc : List (Int × List String)) (ds : VideoDataset) (asg : List Int) :
    AssignPassState :=
  let cands := (stageA slots mc ds).slot_candidates
  (List.range cands.length).foldl
    (firstPassStep ds cands (columnCodes cands) (costMatrix cands ds) asg)
    ⟨[], [], [], passDiags slots mc ds, []⟩

/-- The pass state after the greedy duplicate-fallback loop. -/
def finalState (slots : List PlaceholderSlot)
    (mc : List (Int × List String)) (ds : VideoDataset) (asg : List Int) :
    AssignPassState :=
  (firstPassState slots mc ds asg).unmatched.foldl
    (fallbackStep ds (stageA slots mc ds).slot_candidates)
    (firstPassState slots mc ds asg)

/-! ### Specification-side notions used to state the claims -/

/-- The catalog value of the video entry resolved for a code (a candidate
code always resolves to an entry with a value). -/
def videoValueOf (ds : VideoDataset) (code : String) : ℚ :=
  match find_video_entry_for_code code ds with
  | some e => e.value.getD 0
  | none => 0

/-- All perfect matchings of the slots to pairwise-distinct identities
drawn from their candidate lists (brute force). -/
def perfectMatchings : List (List String) → List (List String)
  | [] => [[]]
  | codes :: rest =>
    (perfectMatchings rest).flatMap fun tail =>
      (codes.filter fun c => !tail.contains c).map fun c => c :: tail

/-- The total video value of a matching. -/
def matchingValueTotal (ds : VideoDataset) (codes : List String) : ℚ :=
  codes.foldl (fun acc c => acc + videoValueOf ds c) 0

/-- The total video value assigned by the engine. -/
def assignedValueTotal (asgs : List PlaceholderAssignment) : ℚ :=
  asgs.foldl (fun acc a => acc + a.video.value.getD 0) 0

/-- The minimum of a list of rationals (explicit fold). -/
def qListMin : List ℚ → Option ℚ
  | [] => none
  | x :: xs => some (xs.foldl (fun a b => if b < a then b else a) x)

/-- The invariant of every surviving slot-candidate pair: a non-empty,
duplicate-free candidate list whose codes all resolve to a video entry with
a numeric value. -/
def ValidCands (ds : VideoDataset) (sc : PlaceholderSlot × List String) : Prop :=
  sc.2 ≠ [] ∧ sc.2.Nodup ∧
    ∀ c ∈ sc.2, ∃ e v, find_video_entry_for_code c ds = some e ∧
      e.value = some v

/-- The default slot/candidate pair used for out-of-range `getD` access in
statements (never reached under the stated bounds). -/
def dfltSC : PlaceholderSlot × List String := (⟨"", 0, 0, 0, 0⟩, [])

/-- The cost-matrix cell contract of claim C3 for row `i`, column `j`:
padding columns cost `1e11` plus the row epsilon, candidate identities cost
their video value plus the row epsilon, and non-candidate identities cost
`1e12`. -/
def CellFormulaOK (cands : List (PlaceholderSlot × List String))
    (ds : VideoDataset) (i j : Nat) : Prop :=
  let row := cands.getD i dfltSC
  let eps := (row.1.placeholder_index : ℚ) * epsQ
  let cell := ((costMatrix cands ds).getD i []).getD j 0
  ((columnCodes cands).getD j none = none →
    cell = duplicateTriggerCost + eps) ∧
  (∀ code, (columnCodes cands).getD j none = some code →
    (code ∈ row.2 →
      ∃ e v, find_video_entry_for_code code ds = some e ∧
        e.value = some v ∧ cell = v + eps) ∧
    (code ∉ row.2 → cell = infCost))

/-- The default assignment used for out-of-range `getD` access in
statements (never reached under the stated bounds). -/
def dfltAssign : PlaceholderAssignment :=
  ⟨dfltSC.1, "", ⟨"", "", none, none, none, 0, none, none⟩, ⟨[], [], [], "Videos"⟩⟩

/-- The feasibility contract of claim C2 for row `k`: the assignment binds
the `k`-th surviving slot and its identity belongs to that slot's candidate
set. -/
def RowOK (cands : List (PlaceholderSlot × List String))
    (a : PlaceholderAssignment) (k : Nat) : Prop :=
  a.slot = (cands.getD k dfltSC).1 ∧ a.country_code ∈ (cands.getD k dfltSC).2

/-- Invariant of the first-pass extraction fold after processing rows
`0, …, m-1`: results bind processed rows to feasible assignments, every
processed row is either bound or queued as unmatched, and the unmatched
queue holds unbound processed rows without repetition. -/
def PassInv (cands : List (PlaceholderSlot × List String))
    (st : AssignPassState) (m : Nat) : Prop :=
  (∀ k a, resultsGet st.results k = some a → k < m ∧ RowOK cands a k) ∧
  (∀ k, k < m → (resultsGet st.results k).isSome = true ∨ k ∈ st.unmatched) ∧
  (∀ k ∈ st.unmatched, resultsGet st.results k = none ∧ k < m) ∧
  st.unmatched.Nodup

/-- Counter bookkeeping invariant shared by both assignment passes: every
identity's usage counter equals the number of result bindings carrying
it. -/
def CountsInv (st : AssignPassState) : Prop :=
  ∀ code, countGet st.counts code =
    (st.results.filter fun p => p.2.country_code = code).length

/-- Duplicate-diagnostic invariant: once an identity's counter reaches two,
a duplicate message naming it has been recorded. -/
def DupInv (st : AssignPassState) : Prop :=
  ∀ code, 2 ≤ countGet st.counts code →
    ∃ m, Diag.duplicateAssignment code m ∈ st.duplicate_messages

/-! ### Concrete instances used by counterexamples and witnesses -/

/-- A catalog with a single USA video of value 5. -/
def usaEntry : VideoEntry := ⟨"USA video", "usavideo", some 5, none, none, 0, none, none⟩

def usaDataset : VideoDataset := ⟨[usaEntry], [("USA", usaEntry)], [], "Videos"⟩

/-- A placeholder slot before match `i` with placeholder index 0. -/
def mkSlot (i : Int) : PlaceholderSlot := ⟨"Sheet", i.toNat, 0, i, 0⟩

/-- Three slots whose matches are all eligible only for USA. -/
def usaSlots : List PlaceholderSlot := [mkSlot 1, mkSlot 2, mkSlot 3]

def usaMap : List (Int × List String) := [(1, ["USA"]), (2, ["USA"]), (3, ["USA"])]

/-- The supply-sufficient instance on which the solver still reuses a video:
AFG has value 1, ALB value `2e12` (beyond the `1e12` forbidden-pairing
sentinel). -/
def afgEntry : VideoEntry := ⟨"AFG video", "afgvideo", some 1, none, none, 0, none, none⟩

def albEntry : VideoEntry :=
  ⟨"ALB video", "albvideo", some (2 * 10 ^ 12), none, none, 1, none, none⟩

def bigValueDataset : VideoDataset :=
  ⟨[afgEntry, albEntry], [("AFG", afgEntry), ("ALB", albEntry)], [], "Videos"⟩

def bigValueMap : List (Int × List String) := [(1, ["AFG"]), (2, ["AFG", "ALB"])]

def bigValueSlots : List PlaceholderSlot := [mkSlot 1, mkSlot 2]

/-- An empty catalog. -/
def emptyDataset : VideoDataset := ⟨[], [], [], "Videos"⟩

/-- A booth-interview row whose stored normalized key is the normalization
of its label. -/
def boothRow1 : BoothInterviewRow := ⟨"Booth 1", "Script A", "BOOTH 1"⟩

def boothRows : List BoothInterviewRow := [boothRow1]

/-- Schedule records for the C9 witness: one well-formed record, one with
no match number, one with a number but no country tokens. -/
def rec1 : List (String × JVal) :=
  [("matchNumber", JVal.intVal 1),
   ("countries", JVal.arr [JVal.str "usa", JVal.str "USA", JVal.str "US"])]

def rec2 : List (String × JVal) := [("foo", JVal.nullVal)]

def rec3 : List (String × JVal) := [("matchNumber", JVal.intVal 2)]

def matchRecords1 : List (List (String × JVal)) := [rec1, rec2, rec3]

/-- The row-to-column bookkeeping array `p` encodes a partial matching
covering rows `1..i`: real columns hold row numbers at most `i`, nonzero
values are pairwise distinct, and every row `1..i` is held somewhere. -/
def HMatching (p : List Nat) (i cols : Nat) : Prop :=
  p.length = cols + 1 ∧
  (∀ j, 1 ≤ j → j ≤ cols → p.getD j 0 ≤ i) ∧
  (∀ j1 j2, 1 ≤ j1 → j1 ≤ cols → 1 ≤ j2 → j2 ≤ cols → j1 ≠ j2 →
    p.getD j1 0 ≠ 0 → p.getD j1 0 ≠ p.getD j2 0) ∧
  (∀ r, 1 ≤ r → r ≤ i → ∃ j, 1 ≤ j ∧ j ≤ cols ∧ p.getD j 0 = r)

/-- A finite augmenting chain of real columns for the `way` array: each
element points to the next, and the last points to column `0`. -/
def ChainOK (way : List Nat) (cols : Nat) (cs : List Nat) : Prop :=
  cs ≠ [] ∧ cs.Nodup ∧ (∀ x ∈ cs, 1 ≤ x ∧ x ≤ cols) ∧
  (∀ k, k + 1 < cs.length → way.getD (cs.getD k 0) 0 = cs.getD (k + 1) 0) ∧
  way.getD (cs.getD (cs.length - 1) 0) 0 = 0

/-- The body of the `for j in range(1, cols + 1)` scan, as a named step
function (identical to the lambda inside `innerScan`). -/
def scanStep (c : Nat → Nat → ℚ) (s : InnerState) (acc : ScanResult)
    (j : Nat) : ScanResult :=
  if s.used.getD j false then acc
  else
    let cur := c (s.p.getD s.j0 0 - 1) (j - 1) -
      s.u.getD (s.p.getD s.j0 0) 0 - s.v.getD j 0
    let mw : List (Option ℚ) × List Nat :=
      if ltInf cur (acc.minv.getD j none) then
        (acc.minv.set j (some cur), acc.way.set j s.j0)
      else (acc.minv, acc.way)
    if optLt (mw.1.getD j none) acc.delta then
      ⟨mw.1, mw.2, mw.1.getD j none, j⟩
    else ⟨mw.1, mw.2, acc.delta, acc.j1⟩


/-! ## Theorems

The Batteries rational operations are `@[irreducible]` by default, which
blocks `decide`-style evaluation; they are restored to the ordinary
`semireducible` setting for this verification development. -/

set_option allowUnsafeReducibility true

attribute [local semireducible] Rat.add Rat.sub Rat.mul Rat.inv Rat.div

set_option maxRecDepth 100000 in
/-- **C7, counterexample.**  The identity normaliser does **not** map
`"🇰🇷 Team Korea"` to `KOR`: after stripping the flag marker and the leading
noise word `Team`, the remaining text normalises to `korea`, which is not an
alias of any entry (the canonical name is `Republic of Korea` and the
supplemental aliases are `South Korea` and `Republic of Korea`), and no
keyword rule covers it. -/
theorem lookup_country_code_team_korea_not_kor :
    lookup_country_code "🇰🇷 Team Korea" ≠ some "KOR" := by
  decide

set_option maxRecDepth 100000 in
/-- **C7, amended.**  The identity normaliser maps `"Cote d'Ivoire"` to
`CIV` and both `"Czechia"` and `"Czech Republic"` to `CZE`, but it maps
`"🇰🇷 Team Korea"` to `null` (no canonical identity), not to `KOR`. -/
theorem lookup_country_code_scenarios :
    lookup_country_code "🇰🇷 Team Korea" = none ∧
    lookup_country_code "Cote d\u0027Ivoire" = some "CIV" ∧
    lookup_country_code "Czechia" = some "CZE" ∧
    lookup_country_code "Czech Republic" = some "CZE" := by
  refine ⟨by decide, by decide, by decide, by decide⟩

set_option maxRecDepth 100000 in
/-- **C1 (code bug).**  On `bigValueSlots`/`bigValueMap`/`bigValueDataset`
the premises of the optimality claim hold — 2 surviving slots, 2 distinct
candidate identities with pairwise-distinct values, and a perfect matching
exists — yet the engine assigns a total video value of `2` (duplicating
AFG), while the unique perfect matching of slots to distinct candidate
identities has total `2000000000001`.  The `1e12` forbidden-pairing
sentinel is not larger than every admissible value, so the solver can
prefer a forbidden edge, and the re-validation pass then routes the row
into the duplicate fallback even though supply is sufficient. -/
theorem compute_team_video_assignments_not_optimal :
    (stageA bigValueSlots bigValueMap bigValueDataset).slot_candidates.length ≤
      (uniqueCodes (stageA bigValueSlots bigValueMap bigValueDataset).slot_candidates).length ∧
    ((uniqueCodes (stageA bigValueSlots bigValueMap bigValueDataset).slot_candidates).map
      (videoValueOf bigValueDataset)).Pairwise (· ≠ ·) ∧
    qListMin ((perfectMatchings
        ((stageA bigValueSlots bigValueMap bigValueDataset).slot_candidates.map
          fun sc => sc.2)).map
      (matchingValueTotal bigValueDataset)) = some 2000000000001 ∧
    assignedValueTotal
      (compute_team_video_assignments bigValueSlots bigValueMap bigValueDataset).1 = 2 ∧
    (2 : ℚ) ≠ 2000000000001 := by
  refine ⟨by decide, by decide,
    by decide, by decide, by norm_num⟩

/-- Every branch of a Stage A step grows either the diagnostics or the
slot-candidate list. -/
theorem stageAStep_progress (mc : List (Int × List String)) (ds : VideoDataset)
    (st : StageAState) (slot : PlaceholderSlot) :
    st.diagnostics.length < (stageAStep mc ds st slot).diagnostics.length ∨
    st.slot_candidates.length <
      (stageAStep mc ds st slot).slot_candidates.length := by
  unfold stageAStep
  repeat' ((try dsimp only); split)
  all_goals
    try simp only [List.length_append, List.length_cons, List.length_nil]
  all_goals omega

/-- A Stage A step never shrinks the diagnostics or the candidate list. -/
theorem stageAStep_mono (mc : List (Int × List String)) (ds : VideoDataset)
    (st : StageAState) (slot : PlaceholderSlot) :
    st.diagnostics.length ≤ (stageAStep mc ds st slot).diagnostics.length ∧
    st.slot_candidates.length ≤
      (stageAStep mc ds st slot).slot_candidates.length := by
  unfold stageAStep
  repeat' ((try dsimp only); split)
  all_goals
    try simp only [List.length_append, List.length_cons, List.length_nil]
  all_goals omega

/-- Folding Stage A steps never shrinks the diagnostics or candidates. -/
theorem stageA_foldl_mono (mc : List (Int × List String)) (ds : VideoDataset)
    (slots : List PlaceholderSlot) (st : StageAState) :
    st.diagnostics.length ≤
      (slots.foldl (stageAStep mc ds) st).diagnostics.length ∧
    st.slot_candidates.length ≤
      (slots.foldl (stageAStep mc ds) st).slot_candidates.length := by
  induction slots generalizing st with
  | nil => exact ⟨le_refl _, le_refl _⟩
  | cons s rest ih =>
    have h1 := stageAStep_mono mc ds st s
    have h2 := ih (stageAStep mc ds st s)
    exact ⟨h1.1.trans h2.1, h1.2.trans h2.2⟩

/-- When at least one slot was supplied and none survived filtering, Stage A
produced at least one diagnostic. -/
theorem stageA_diagnostics_nonempty (slots : List PlaceholderSlot)
    (mc : List (Int × List String)) (ds : VideoDataset)
    (hs : slots ≠ []) (hc : (stageA slots mc ds).slot_candidates = []) :
    (stageA slots mc ds).diagnostics ≠ [] := by
  cases slots with
  | nil => exact absurd rfl hs
  | cons s rest =>
    have hstep := stageAStep_progress mc ds ⟨[], [], [], []⟩ s
    have hmono := stageA_foldl_mono mc ds rest (stageAStep mc ds ⟨[], [], [], []⟩ s)
    have hfold : stageA (s :: rest) mc ds =
        rest.foldl (stageAStep mc ds) (stageAStep mc ds ⟨[], [], [], []⟩ s) := rfl
    intro hdiag
    rw [hfold] at hc hdiag
    have hd0 : (rest.foldl (stageAStep mc ds)
        (stageAStep mc ds ⟨[], [], [], []⟩ s)).diagnostics.length = 0 := by
      rw [hdiag]; rfl
    have hc0 : (rest.foldl (stageAStep mc ds)
        (stageAStep mc ds ⟨[], [], [], []⟩ s)).slot_candidates.length = 0 := by
      rw [hc]; rfl
    simp only [List.length_nil] at hstep
    omega

/-- **C6, counterexample.**  With an empty slot list (so the cost matrix is
degenerate with zero rows and no slot survives filtering), the engine
returns an empty assignment list **and an empty diagnostics list** — there
is no accompanying diagnostic, contrary to the claim. -/
theorem compute_team_video_assignments_empty_no_diagnostic :
    compute_team_video_assignments [] [] emptyDataset = ([], []) := by
  decide

/-- **C6, amended.**  The engine is a total function returning an
`(assignments, diagnostics)` pair (the embedding models the only `raise` in
its call graph, the `ValueError` of the Hungarian solver, as an explicit
`none` that the engine converts into a diagnostic).  Whenever no slot
survives candidate filtering it returns the empty assignment list with the
Stage A diagnostics, and those diagnostics are non-empty provided at least
one slot was supplied; with an empty slot list both components are empty. -/
theorem compute_team_video_assignments_degenerate (slots : List PlaceholderSlot)
    (mc : List (Int × List String)) (ds : VideoDataset)
    (hc : (stageA slots mc ds).slot_candidates = []) :
    compute_team_video_assignments slots mc ds =
      ([], (stageA slots mc ds).diagnostics) ∧
    (slots ≠ [] → (stageA slots mc ds).diagnostics ≠ []) := by
  constructor
  · unfold compute_team_video_assignments
    simp [hc]
  · intro hs
    exact stageA_diagnostics_nonempty slots mc ds hs hc

/-- Witness for C6: one slot whose match has no schedule entry is filtered
out, and the engine returns no assignments together with the
missing-country-data diagnostic. -/
theorem compute_team_video_assignments_degenerate_witness :
    compute_team_video_assignments [mkSlot 1] [] emptyDataset =
      ([], (stageA [mkSlot 1] [] emptyDataset).diagnostics) ∧
    ([mkSlot 1] ≠ [] → (stageA [mkSlot 1] [] emptyDataset).diagnostics ≠ []) :=
  compute_team_video_assignments_degenerate [mkSlot 1] [] emptyDataset (by decide)

/-! ### Stage A invariants -/

theorem mem_dedupKeepFirst {x : String} :
    ∀ {xs : List String}, x ∈ dedupKeepFirst xs ↔ x ∈ xs := by
  intro xs
  induction xs with
  | nil => simp [dedupKeepFirst]
  | cons a l ih =>
    simp only [dedupKeepFirst, List.mem_cons, List.mem_filter]
    constructor
    · rintro (rfl | ⟨hx, _⟩)
      · exact Or.inl rfl
      · exact Or.inr (ih.mp hx)
    · rintro (rfl | hx)
      · exact Or.inl rfl
      · by_cases hxa : x = a
        · exact Or.inl hxa
        · exact Or.inr ⟨ih.mpr hx, by simpa using hxa⟩

theorem dedupKeepFirst_nodup : ∀ xs : List String, (dedupKeepFirst xs).Nodup := by
  intro xs
  induction xs with
  | nil => simp [dedupKeepFirst]
  | cons a l ih =>
    simp only [dedupKeepFirst, List.nodup_cons]
    refine ⟨fun hmem => ?_, ih.filter _⟩
    have := (List.mem_filter.mp hmem).2
    simp at this

theorem partitionByVideo_fst_sublist (ds : VideoDataset) :
    ∀ codes : List String, (partitionByVideo ds codes).1.Sublist codes := by
  intro codes
  induction codes with
  | nil => simp [partitionByVideo]
  | cons c rest ih =>
    simp only [partitionByVideo]
    split
    · exact ih.cons c
    · split
      · exact ih.cons c
      · exact ih.cons₂ c

theorem partitionByVideo_fst_valid (ds : VideoDataset) :
    ∀ (codes : List String), ∀ c ∈ (partitionByVideo ds codes).1,
      ∃ e v, find_video_entry_for_code c ds = some e ∧ e.value = some v := by
  intro codes
  induction codes with
  | nil => simp [partitionByVideo]
  | cons c rest ih =>
    simp only [partitionByVideo]
    split
    · exact ih
    · next e hfind =>
      split
      · exact ih
      · next v hval =>
        intro c0 hc0
        rcases List.mem_cons.mp hc0 with rfl | hc0
        · exact ⟨e, v, hfind, hval⟩
        · exact ih c0 hc0

/-- A Stage A step either leaves the candidate list unchanged or appends a
single valid slot/candidate pair for the processed slot. -/
theorem stageAStep_candidates (mc : List (Int × List String))
    (ds : VideoDataset) (st : StageAState) (slot : PlaceholderSlot) :
    (stageAStep mc ds st slot).slot_candidates = st.slot_candidates ∨
    ∃ codes, (stageAStep mc ds st slot).slot_candidates =
        st.slot_candidates ++ [(slot, codes)] ∧ ValidCands ds (slot, codes) := by
  unfold stageAStep
  repeat' ((try dsimp only); split)
  all_goals
    first
      | exact Or.inl rfl
      | refine Or.inr ⟨_, rfl, ?_, ?_, ?_⟩
  all_goals
    first
      | exact (partitionByVideo_fst_sublist _ _).nodup (dedupKeepFirst_nodup _)
      | exact fun c hc => partitionByVideo_fst_valid _ _ c hc
      | simp_all [List.isEmpty_iff]

/-- Every surviving slot-candidate pair satisfies the Stage A invariant. -/
theorem stageA_foldl_valid (mc : List (Int × List String)) (ds : VideoDataset)
    (slots : List PlaceholderSlot) :
    ∀ st : StageAState, (∀ sc ∈ st.slot_candidates, ValidCands ds sc) →
      ∀ sc ∈ (slots.foldl (stageAStep mc ds) st).slot_candidates,
        ValidCands ds sc := by
  induction slots with
  | nil => exact fun st h => h
  | cons s rest ih =>
    intro st h
    apply ih
    rcases stageAStep_candidates mc ds st s with heq | ⟨codes, heq, hv⟩
    · rw [heq]; exact h
    · rw [heq]
      intro sc hsc
      rcases List.mem_append.mp hsc with hsc | hsc
      · exact h sc hsc
      · rcases List.mem_singleton.mp hsc with rfl
        exact hv

theorem stageA_valid (slots : List PlaceholderSlot)
    (mc : List (Int × List String)) (ds : VideoDataset) :
    ∀ sc ∈ (stageA slots mc ds).slot_candidates, ValidCands ds sc :=
  stageA_foldl_valid mc ds slots ⟨[], [], [], []⟩ (by simp)

/-- `getD` through `map` at an in-range index. -/
theorem getD_map_lt {α β : Type} (f : α → β) (l : List α) (i : Nat)
    (d : α) (d' : β) (h : i < l.length) :
    (l.map f).getD i d' = f (l.getD i d) := by
  rw [List.getD_eq_getElem _ _ (by simpa using h), List.getD_eq_getElem _ _ h,
    List.getElem_map]

/-- The cost-matrix cell contract, for any candidate list satisfying the
Stage A invariant. -/
theorem cellFormulaOK_of_valid (cands : List (PlaceholderSlot × List String))
    (ds : VideoDataset) (i j : Nat)
    (hval : ∀ sc ∈ cands, ValidCands ds sc)
    (hi : i < cands.length)
    (hj : j < (columnCodes cands).length) :
    CellFormulaOK cands ds i j := by
  have hrowmem : cands.getD i dfltSC ∈ cands := by
    rw [List.getD_eq_getElem _ _ hi]
    exact List.getElem_mem hi
  have hvalid := hval _ hrowmem
  unfold CellFormulaOK
  have h1 : (costMatrix cands ds).getD i [] =
      rowCosts ds (cands.getD i dfltSC).1 (cands.getD i dfltSC).2
        (columnCodes cands) := by
    unfold costMatrix
    exact getD_map_lt _ cands i dfltSC [] hi
  have h2 : (rowCosts ds (cands.getD i dfltSC).1 (cands.getD i dfltSC).2
      (columnCodes cands)).getD j 0 = (fun col =>
        match col with
        | none => duplicateTriggerCost +
            ((cands.getD i dfltSC).1.placeholder_index : ℚ) * epsQ
        | some code =>
          if (cands.getD i dfltSC).2.contains code then
            match find_video_entry_for_code code ds with
            | none => infCost
            | some e =>
              match e.value with
              | none => infCost
              | some v => v + ((cands.getD i dfltSC).1.placeholder_index : ℚ) * epsQ
          else infCost) ((columnCodes cands).getD j none) := by
    unfold rowCosts
    exact getD_map_lt _ (columnCodes cands) j none 0 hj
  rw [h1, h2]
  cases hcol : (columnCodes cands).getD j none with
  | none => exact ⟨fun _ => rfl, fun code hcode => by simp at hcode⟩
  | some code0 =>
    refine ⟨fun h => by simp at h, ?_⟩
    intro code hcode
    have hcc : code = code0 := by
      have h := hcode.symm
      simpa using h
    subst hcc
    constructor
    · intro hmem
      obtain ⟨e, v, hfind, hval⟩ := hvalid.2.2 code hmem
      refine ⟨e, v, hfind, hval, ?_⟩
      have hcontains : (cands.getD i dfltSC).2.contains code = true :=
        List.elem_iff.mpr hmem
      simp only [hcontains, if_true, hfind, hval]
    · intro hmem
      have hcontains : (cands.getD i dfltSC).2.contains code = false := by
        by_contra h
        exact hmem (List.elem_iff.mp (Bool.of_not_eq_false h))
      simp only [hcontains, Bool.false_eq_true, if_false]

/-- **C3.**  Every cell of the Stage B cost matrix follows the contract:
`videoValue + placeholderIndex·1e-6` for a candidate identity, `1e12` for a
non-candidate identity, and `1e11 + placeholderIndex·1e-6` for a synthetic
padding column. -/
theorem cost_matrix_cells (slots : List PlaceholderSlot)
    (mc : List (Int × List String)) (ds : VideoDataset) (i j : Nat)
    (hi : i < (stageA slots mc ds).slot_candidates.length)
    (hj : j < (columnCodes (stageA slots mc ds).slot_candidates).length) :
    CellFormulaOK (stageA slots mc ds).slot_candidates ds i j :=
  cellFormulaOK_of_valid _ ds i j (stageA_valid slots mc ds) hi hj

/-- Witness for C3 on the USA instance: row 0, column 0 (the USA column)
satisfies the cell contract. -/
theorem cost_matrix_cells_witness :
    CellFormulaOK (stageA usaSlots usaMap usaDataset).slot_candidates
      usaDataset 0 0 :=
  cost_matrix_cells usaSlots usaMap usaDataset 0 0 (by decide) (by decide)

/-! ### Feasibility of the extraction and fallback passes (C2) -/

theorem resultsGet_append (l1 l2 : List (Nat × PlaceholderAssignment))
    (k : Nat) :
    resultsGet (l1 ++ l2) k = (resultsGet l1 k).or (resultsGet l2 k) := by
  unfold resultsGet
  rw [List.find?_append]
  cases List.find? (fun p => p.1 = k) l1 <;> simp

theorem resultsGet_singleton (k k' : Nat) (a : PlaceholderAssignment) :
    resultsGet [(k, a)] k' = if k = k' then some a else none := by
  unfold resultsGet
  by_cases h : k = k' <;> simp [List.find?, h]

/-- The slot/candidate pair read by a pass step is the `getD` one. -/
theorem get?_eq_some_getD (cands : List (PlaceholderSlot × List String))
    (k : Nat) (h : k < cands.length) :
    cands.get? k = some (cands.getD k dfltSC) := by
  rw [List.get?_eq_getElem?, List.getElem?_eq_getElem h,
    List.getD_eq_getElem _ _ h]

/-- One step of the first-pass extraction preserves the invariant,
whatever column the solver proposed. -/
theorem firstPassBody_inv (ds : VideoDataset)
    (cands : List (PlaceholderSlot × List String))
    (st : AssignPassState) (m : Nat) (ci : Int) (hm : m < cands.length)
    (hval : ∀ sc ∈ cands, ValidCands ds sc)
    (h : PassInv cands st m) :
    PassInv cands
      (firstPassBody ds (columnCodes cands) (costMatrix cands ds) st m
        (cands.getD m dfltSC) ci) (m + 1) := by
  obtain ⟨ha, hb, hc, hd⟩ := h
  have hmnone : resultsGet st.results m = none := by
    cases hr : resultsGet st.results m with
    | none => rfl
    | some a => exact absurd (ha m a hr).1 (lt_irrefl m)
  have hmnotmem : m ∉ st.unmatched := fun hmem => absurd (hc m hmem).2 (lt_irrefl m)
  have hunm : ∀ st' : AssignPassState,
      st'.results = st.results → st'.unmatched = st.unmatched ++ [m] →
      PassInv cands st' (m + 1) := by
    intro st' hres hunmatched
    refine ⟨?_, ?_, ?_, ?_⟩
    · intro k a hk
      rw [hres] at hk
      exact ⟨Nat.lt_succ_of_lt (ha k a hk).1, (ha k a hk).2⟩
    · intro k hk
      rw [hres, hunmatched]
      rcases Nat.lt_succ_iff_lt_or_eq.mp hk with hk | rfl
      · rcases hb k hk with h | h
        · exact Or.inl h
        · exact Or.inr (List.mem_append_left _ h)
      · exact Or.inr (List.mem_append_right _ (List.mem_singleton_self _))
    · intro k hk
      rw [hres]
      rw [hunmatched] at hk
      rcases List.mem_append.mp hk with hk | hk
      · exact ⟨(hc k hk).1, Nat.lt_succ_of_lt (hc k hk).2⟩
      · rcases List.mem_singleton.mp hk with rfl
        exact ⟨hmnone, Nat.lt_succ_self _⟩
    · rw [hunmatched]
      simp [List.nodup_append, hd, hmnotmem]
  have haccept : ∀ code entry,
      code ∈ (cands.getD m dfltSC).2 →
      PassInv cands
        { st with
          counts := countSet st.counts code (countGet st.counts code + 1),
          results := st.results ++
            [(m, ⟨(cands.getD m dfltSC).1, code, entry, ds⟩)] } (m + 1) := by
    intro code entry hcodemem
    refine ⟨?_, ?_, ?_, hd⟩
    · intro k a hk
      rw [resultsGet_append] at hk
      cases hr : resultsGet st.results k with
      | some a0 =>
        rw [hr] at hk
        simp only [Option.or_some, Option.some.injEq] at hk
        subst hk
        exact ⟨Nat.lt_succ_of_lt (ha k a0 hr).1, (ha k a0 hr).2⟩
      | none =>
        rw [hr] at hk
        simp only [Option.none_or] at hk
        rw [resultsGet_singleton] at hk
        split at hk
        · next heq =>
          subst heq
          cases hk
          exact ⟨Nat.lt_succ_self m, rfl, hcodemem⟩
        · cases hk
    · intro k hk
      rcases Nat.lt_succ_iff_lt_or_eq.mp hk with hk | rfl
      · rcases hb k hk with h | h
        · left
          rw [resultsGet_append, Option.isSome_or]
          simp [h]
        · exact Or.inr h
      · left
        rw [resultsGet_append, hmnone, resultsGet_singleton]
        simp
    · intro k hk
      have hkm : k ≠ m := fun heq => hmnotmem (heq ▸ hk)
      refine ⟨?_, Nat.lt_succ_of_lt (hc k hk).2⟩
      rw [resultsGet_append, (hc k hk).1, resultsGet_singleton]
      simp only [Option.none_or, ite_eq_right_iff]
      intro heq
      exact absurd heq.symm hkm
  unfold firstPassBody
  dsimp only
  split
  · exact hunm _ rfl rfl
  · next hrange =>
    split
    · exact hunm _ rfl rfl
    · next hcost =>
      split
      · exact hunm _ rfl rfl
      · next code hcol =>
        split
        · exact hunm _ rfl rfl
        · next entry hfind =>
          split
          · exact hunm _ rfl rfl
          · split
            · exact hunm _ rfl rfl
            · apply haccept
              -- the accepted column is a candidate of row `m`: otherwise its
              -- cell would be the forbidden 1e12, contradicting the cost test
              have hcib : ¬ ci < 0 ∧
                  ¬ ((columnCodes cands).length : Int) ≤ ci := by
                simpa using hrange
              have hci : ci.toNat < (columnCodes cands).length := by omega
              have hcell := cellFormulaOK_of_valid cands ds m ci.toNat hval hm hci
              unfold CellFormulaOK at hcell
              by_contra hnot
              have hcellinf := (hcell.2 code hcol).2 hnot
              rw [hcellinf] at hcost
              exact hcost (le_refl _)

/-- The first-pass extraction over all rows establishes the invariant. -/
theorem firstPass_inv (ds : VideoDataset)
    (cands : List (PlaceholderSlot × List String)) (assignments : List Int)
    (diags dups : List Diag)
    (hval : ∀ sc ∈ cands, ValidCands ds sc) :
    ∀ m, m ≤ cands.length →
      PassInv cands
        ((List.range m).foldl
          (firstPassStep ds cands (columnCodes cands) (costMatrix cands ds)
            assignments)
          ⟨[], [], [], diags, dups⟩) m := by
  intro m
  induction m with
  | zero =>
    intro _
    refine ⟨?_, ?_, ?_, List.nodup_nil⟩
    · intro k a hk
      simp [resultsGet] at hk
    · intro k hk
      exact absurd hk (Nat.not_lt_zero k)
    · intro k hk
      simp at hk
  | succ m ih =>
    intro hm
    rw [List.range_succ, List.foldl_append, List.foldl_cons, List.foldl_nil]
    have hstep : firstPassStep ds cands (columnCodes cands)
        (costMatrix cands ds) assignments
        ((List.range m).foldl
          (firstPassStep ds cands (columnCodes cands) (costMatrix cands ds)
            assignments) ⟨[], [], [], diags, dups⟩) m =
        firstPassBody ds (columnCodes cands) (costMatrix cands ds)
          ((List.range m).foldl
            (firstPassStep ds cands (columnCodes cands) (costMatrix cands ds)
              assignments) ⟨[], [], [], diags, dups⟩) m (cands.getD m dfltSC)
          (if m < assignments.length then assignments.getD m (-1) else -1) := by
      unfold firstPassStep
      rw [get?_eq_some_getD cands m (by omega)]
    rw [hstep]
    exact firstPassBody_inv ds cands _ m _ (by omega) hval (ih (by omega))

/-- A fallback step on a row with valid candidates appends exactly one
binding for that row, and it is feasible. -/
theorem fallbackStep_results (ds : VideoDataset)
    (cands : List (PlaceholderSlot × List String)) (st : AssignPassState)
    (k : Nat) (hk : k < cands.length)
    (hval : ∀ sc ∈ cands, ValidCands ds sc) :
    ∃ a, (fallbackStep ds cands st k).results = st.results ++ [(k, a)] ∧
      RowOK cands a k := by
  have hsc := get?_eq_some_getD cands k hk
  have hscmem : cands.getD k dfltSC ∈ cands := by
    rw [List.getD_eq_getElem _ _ hk]
    exact List.getElem_mem hk
  obtain ⟨hne, _hnd, hv⟩ := hval _ hscmem
  unfold fallbackStep
  rw [hsc]
  dsimp only
  have hentries : ((cands.getD k dfltSC).2.filterMap fun code =>
      match find_video_entry_for_code code ds with
      | none => none
      | some entry =>
        match entry.value with
        | none => none
        | some v => some (countGet st.counts code, v, code, entry)) ≠ [] := by
    cases hcodes : (cands.getD k dfltSC).2 with
    | nil => exact absurd hcodes hne
    | cons c rest =>
      obtain ⟨e, v, hfind, hvalue⟩ := hv c (by rw [hcodes]; exact List.mem_cons_self c rest)
      simp only [List.filterMap_cons, hfind, hvalue]
      exact List.cons_ne_nil _ _
  split
  · next hempty =>
    exact absurd (List.isEmpty_iff.mp hempty) hentries
  · next hempty =>
    split
    · next hsort =>
      have hperm := List.perm_insertionSort
        (fun a b => fallbackLE a b = true)
        ((cands.getD k dfltSC).2.filterMap fun code =>
          match find_video_entry_for_code code ds with
          | none => none
          | some entry =>
            match entry.value with
            | none => none
            | some v => some (countGet st.counts code, v, code, entry))
      rw [hsort] at hperm
      exact absurd (hperm.nil_eq).symm hentries
    · next chosen rest hsort =>
      refine ⟨_, rfl, rfl, ?_⟩
      have hmem : chosen ∈ List.insertionSort
          (fun a b => fallbackLE a b = true)
          ((cands.getD k dfltSC).2.filterMap fun code =>
            match find_video_entry_for_code code ds with
            | none => none
            | some entry =>
              match entry.value with
              | none => none
              | some v => some (countGet st.counts code, v, code, entry)) := by
        rw [hsort]
        exact List.mem_cons_self _ _
      have hmem2 := (List.perm_insertionSort _ _).mem_iff.mp hmem
      obtain ⟨code, hcodemem, heq⟩ := List.mem_filterMap.mp hmem2
      obtain ⟨e2, v2, hfind2, hvalue2⟩ := hv code hcodemem
      simp only [hfind2, hvalue2, Option.some.injEq] at heq
      subst heq
      exact hcodemem

/-- The fallback fold fills every queued row with a feasible binding while
preserving existing ones. -/
theorem fallback_fold (ds : VideoDataset)
    (cands : List (PlaceholderSlot × List String))
    (hval : ∀ sc ∈ cands, ValidCands ds sc) :
    ∀ (todo : List Nat) (st : AssignPassState),
      (∀ k ∈ todo, k < cands.length) → todo.Nodup →
      (∀ k ∈ todo, resultsGet st.results k = none) →
      (∀ k a, resultsGet st.results k = some a → RowOK cands a k) →
      (∀ k a, resultsGet (todo.foldl (fallbackStep ds cands) st).results k =
          some a → RowOK cands a k) ∧
      (∀ k, (resultsGet st.results k).isSome = true →
        (resultsGet (todo.foldl (fallbackStep ds cands) st).results k).isSome
          = true) ∧
      (∀ k ∈ todo,
        (resultsGet (todo.foldl (fallbackStep ds cands) st).results k).isSome
          = true) := by
  intro todo
  induction todo with
  | nil =>
    intro st _ _ _ hrow
    refine ⟨hrow, fun k h => h, ?_⟩
    intro k hk
    simp at hk
  | cons k0 rest ih =>
    intro st hlt hnd hnone hrow
    obtain ⟨a0, hres0, hrow0⟩ :=
      fallbackStep_results ds cands st k0 (hlt k0 (List.mem_cons_self _ _)) hval
    rw [List.foldl_cons]
    have hk0get : resultsGet (fallbackStep ds cands st k0).results k0 = some a0 := by
      rw [hres0, resultsGet_append, hnone k0 (List.mem_cons_self _ _),
        resultsGet_singleton]
      simp
    have hget_pres : ∀ k, k ≠ k0 →
        resultsGet (fallbackStep ds cands st k0).results k =
          resultsGet st.results k := by
      intro k hk
      rw [hres0, resultsGet_append, resultsGet_singleton,
        if_neg (fun h => hk h.symm)]
      cases resultsGet st.results k <;> simp
    have hrest := ih (fallbackStep ds cands st k0)
      (fun k hk => hlt k (List.mem_cons_of_mem _ hk))
      (List.Nodup.of_cons hnd)
      (by
        intro k hk
        have hkne : k ≠ k0 := by
          rintro rfl
          exact (List.nodup_cons.mp hnd).1 hk
        rw [hget_pres k hkne]
        exact hnone k (List.mem_cons_of_mem _ hk))
      (by
        intro k a hk
        rw [hres0, resultsGet_append] at hk
        cases hr : resultsGet st.results k with
        | some b =>
          rw [hr] at hk
          simp only [Option.or_some, Option.some.injEq] at hk
          exact hk ▸ hrow k b hr
        | none =>
          rw [hr] at hk
          simp only [Option.none_or] at hk
          rw [resultsGet_singleton] at hk
          split at hk
          · next heq =>
            cases hk
            exact heq ▸ hrow0
          · cases hk)
    refine ⟨hrest.1, ?_, ?_⟩
    · intro k hk
      apply hrest.2.1
      by_cases hkne : k = k0
      · subst hkne
        rw [hk0get]
        rfl
      · rw [hget_pres k hkne]
        exact hk
    · intro k hk
      rcases List.mem_cons.mp hk with rfl | hk
      · exact hrest.2.1 k (by rw [hk0get]; rfl)
      · exact hrest.2.2 k hk

/-- `filterMap` over `range n` of an everywhere-`some` function. -/
theorem filterMap_range_allSome (g : Nat → Option PlaceholderAssignment) :
    ∀ n : Nat, (∀ k, k < n → (g k).isSome = true) →
      ((List.range n).filterMap g).length = n ∧
      ∀ k, k < n → ((List.range n).filterMap g).getD k dfltAssign =
        (g k).getD dfltAssign := by
  intro n
  induction n with
  | zero => exact fun _ => ⟨rfl, fun k hk => absurd hk (Nat.not_lt_zero k)⟩
  | succ n ih =>
    intro h
    obtain ⟨ihlen, ihget⟩ := ih fun k hk => h k (Nat.lt_succ_of_lt hk)
    obtain ⟨a, ha⟩ := Option.isSome_iff_exists.mp (h n (Nat.lt_succ_self n))
    have hsplit : (List.range (n + 1)).filterMap g =
        (List.range n).filterMap g ++ [a] := by
      rw [List.range_succ, List.filterMap_append]
      simp [ha]
    constructor
    · rw [hsplit, List.length_append, ihlen]
      rfl
    · intro k hk
      rcases Nat.lt_succ_iff_lt_or_eq.mp hk with hk | rfl
      · rw [hsplit, List.getD_append _ _ _ _ (by omega), ihget k hk]
      · rw [hsplit]
        have hlen : ((List.range k).filterMap g).length = k := ihlen
        rw [List.getD_eq_getElem _ _ (by simp [List.length_append, hlen]),
          List.getElem_append_right (by omega)]
        simp [hlen, ha]

/-- Surviving slots have candidates, so the unique-code pool is
non-empty. -/
theorem uniqueCodes_ne_nil (ds : VideoDataset)
    (cands : List (PlaceholderSlot × List String)) (hc : cands ≠ [])
    (hval : ∀ sc ∈ cands, ValidCands ds sc) : uniqueCodes cands ≠ [] := by
  cases cands with
  | nil => exact absurd rfl hc
  | cons sc rest =>
    obtain ⟨hne, _, _⟩ := hval sc (List.mem_cons_self _ _)
    cases hcodes : sc.2 with
    | nil => exact absurd hcodes hne
    | cons c cs =>
      have hmem : c ∈ uniqueCodes (sc :: rest) := by
        unfold uniqueCodes sortStrings
        rw [(List.perm_insertionSort _ _).mem_iff]
        rw [mem_dedupKeepFirst]
        exact List.mem_flatMap.mpr ⟨sc, List.mem_cons_self _ _,
          by rw [hcodes]; exact List.mem_cons_self _ _⟩
      exact List.ne_nil_of_mem hmem

theorem columnCodes_length (cands : List (PlaceholderSlot × List String)) :
    (columnCodes cands).length =
      max (uniqueCodes cands).length cands.length := by
  unfold columnCodes
  simp only [List.length_append, List.length_map, List.length_replicate]
  omega

theorem costMatrix_length (cands : List (PlaceholderSlot × List String))
    (ds : VideoDataset) : (costMatrix cands ds).length = cands.length := by
  unfold costMatrix
  exact List.length_map _ _

theorem costMatrix_head_length (cands : List (PlaceholderSlot × List String))
    (ds : VideoDataset) (hc : cands ≠ []) :
    ((costMatrix cands ds).headD []).length = (columnCodes cands).length := by
  cases cands with
  | nil => exact absurd rfl hc
  | cons sc rest =>
    show (rowCosts ds sc.1 sc.2 (columnCodes (sc :: rest))).length = _
    unfold rowCosts
    exact List.length_map _ _

/-- The Hungarian solver succeeds whenever the matrix has at least as many
columns as rows. -/
theorem hungarian_isSome (m : List (List ℚ))
    (h : ¬ (m.headD []).length < m.length) :
    ∃ asg, hungarian m = some asg := by
  unfold hungarian
  dsimp only
  split
  · exact ⟨[], rfl⟩
  · exact ⟨_, rfl⟩


/-- **C2.**  Every slot that survives candidate filtering receives exactly
one assignment (the output has one entry per surviving slot, in order), and
each assignment's country code is drawn from that slot's valid-candidate
set. -/
theorem assignments_feasible (slots : List PlaceholderSlot)
    (mc : List (Int × List String)) (ds : VideoDataset) :
    (compute_team_video_assignments slots mc ds).1.length =
      (stageA slots mc ds).slot_candidates.length ∧
    ∀ k, k < (stageA slots mc ds).slot_candidates.length →
      RowOK (stageA slots mc ds).slot_candidates
        ((compute_team_video_assignments slots mc ds).1.getD k dfltAssign)
        k := by
  set cands := (stageA slots mc ds).slot_candidates with hcands
  by_cases hc : cands = []
  · have hres : (compute_team_video_assignments slots mc ds).1 = [] := by
      unfold compute_team_video_assignments
      dsimp only
      rw [← hcands, hc]
      rfl
    rw [hres, hc]
    exact ⟨rfl, fun k hk => absurd hk (Nat.not_lt_zero k)⟩
  · have hval := stageA_valid slots mc ds
    rw [← hcands] at hval
    have hcostlen := costMatrix_length cands ds
    have hheadlen := costMatrix_head_length cands ds hc
    have hcolslen := columnCodes_length cands
    have hclen : 0 < cands.length := List.length_pos.mpr hc
    obtain ⟨asg, hasg⟩ := hungarian_isSome (costMatrix cands ds) (by omega)
    have hcond2 : ((costMatrix cands ds).isEmpty ||
        ((costMatrix cands ds).headD []).isEmpty) = false := by
      have h1 : (costMatrix cands ds).isEmpty = false := by
        rw [List.isEmpty_eq_false]
        intro hnil
        rw [hnil] at hcostlen
        simp at hcostlen
        omega
      have hunil := uniqueCodes_ne_nil ds cands hc hval
      have h2 : ((costMatrix cands ds).headD []).isEmpty = false := by
        rw [List.isEmpty_eq_false]
        intro hnil
        rw [hnil] at hheadlen
        have := List.length_pos.mpr hunil
        simp only [List.length_nil] at hheadlen
        omega
      rw [h1, h2]
      rfl
    have hres : (compute_team_video_assignments slots mc ds).1 =
        (List.range cands.length).filterMap
          (resultsGet
            (((List.range cands.length).foldl
                (firstPassStep ds cands (columnCodes cands)
                  (costMatrix cands ds) asg)
                ⟨[], [], [],
                  (if (uniqueCodes cands).length < cands.length then (stageA slots mc ds).diagnostics ++ [Diag.supplyShortfallCounts cands.length (uniqueCodes cands).length, Diag.supplyShortfallWarning] else (stageA slots mc ds).diagnostics), []⟩).unmatched.foldl
              (fallbackStep ds cands)
              ((List.range cands.length).foldl
                (firstPassStep ds cands (columnCodes cands)
                  (costMatrix cands ds) asg)
                ⟨[], [], [],
                  (if (uniqueCodes cands).length < cands.length then (stageA slots mc ds).diagnostics ++ [Diag.supplyShortfallCounts cands.length (uniqueCodes cands).length, Diag.supplyShortfallWarning] else (stageA slots mc ds).diagnostics), []⟩)).results) := by
      unfold compute_team_video_assignments
      dsimp only
      rw [← hcands,
        if_neg (fun h => hc (List.isEmpty_iff.mp h))]
      rw [if_neg (by rw [hcond2]; simp : ¬ ((costMatrix cands ds).isEmpty ||
        ((costMatrix cands ds).headD []).isEmpty) = true), hasg]
    obtain ⟨ha1, hb1, hc1, hd1⟩ := firstPass_inv ds cands asg _ _ hval
      cands.length le_rfl
    have hfb := fallback_fold ds cands hval _ _
      (fun k hk => (hc1 k hk).2) hd1 (fun k hk => (hc1 k hk).1)
      (fun k a hk => (ha1 k a hk).2)
    have hall : ∀ k, k < cands.length →
        ((resultsGet
          (((List.range cands.length).foldl
              (firstPassStep ds cands (columnCodes cands)
                (costMatrix cands ds) asg)
              ⟨[], [], [],
                (if (uniqueCodes cands).length < cands.length then (stageA slots mc ds).diagnostics ++ [Diag.supplyShortfallCounts cands.length (uniqueCodes cands).length, Diag.supplyShortfallWarning] else (stageA slots mc ds).diagnostics), []⟩).unmatched.foldl
            (fallbackStep ds cands)
            ((List.range cands.length).foldl
              (firstPassStep ds cands (columnCodes cands)
                (costMatrix cands ds) asg)
              ⟨[], [], [],
                (if (uniqueCodes cands).length < cands.length then (stageA slots mc ds).diagnostics ++ [Diag.supplyShortfallCounts cands.length (uniqueCodes cands).length, Diag.supplyShortfallWarning] else (stageA slots mc ds).diagnostics), []⟩)).results) k).isSome = true := by
      intro k hk
      rcases hb1 k hk with hsome | hmem
      · exact hfb.2.1 k hsome
      · exact hfb.2.2 k hmem
    obtain ⟨hlen, hget⟩ := filterMap_range_allSome _ cands.length hall
    constructor
    · rw [hres, hlen]
    · intro k hk
      rw [hres, hget k hk]
      obtain ⟨a, hka⟩ := Option.isSome_iff_exists.mp (hall k hk)
      rw [hka]
      exact hfb.1 k a hka

/-! ### Ordering lemmas for the fallback sort (C4) -/

theorem charListLE_refl : ∀ x : List Char, charListLE x x = true := by
  intro x
  induction x with
  | nil => rfl
  | cons a as ih =>
    unfold charListLE
    rw [if_pos rfl]
    exact ih

theorem charListLE_total :
    ∀ x y : List Char, charListLE x y = true ∨ charListLE y x = true := by
  intro x
  induction x with
  | nil => intro y; left; rfl
  | cons a as ih =>
    intro y
    cases y with
    | nil => right; rfl
    | cons b bs =>
      unfold charListLE
      by_cases hab : a = b
      · subst hab
        rw [if_pos rfl, if_pos rfl]
        exact ih bs
      · rw [if_neg hab, if_neg (Ne.symm hab)]
        rcases lt_trichotomy a b with h | h | h
        · left; exact decide_eq_true h
        · exact absurd h hab
        · right; exact decide_eq_true h

theorem charListLE_trans :
    ∀ x y z : List Char, charListLE x y = true → charListLE y z = true →
      charListLE x z = true := by
  intro x
  induction x with
  | nil => intro y z _ _; rfl
  | cons a as ih =>
    intro y z hxy hyz
    cases y with
    | nil => cases hxy
    | cons b bs =>
      cases z with
      | nil => cases hyz
      | cons c cs =>
        unfold charListLE at hxy hyz ⊢
        by_cases hab : a = b
        · subst hab
          rw [if_pos rfl] at hxy
          by_cases hac : a = c
          · subst hac
            rw [if_pos rfl] at hyz ⊢
            exact ih bs cs hxy hyz
          · rw [if_neg hac] at hyz ⊢
            exact hyz
        · rw [if_neg hab] at hxy
          by_cases hbc : b = c
          · subst hbc
            rw [if_neg hab]
            exact hxy
          · rw [if_neg hbc] at hyz
            have h1 : a < b := of_decide_eq_true hxy
            have h2 : b < c := of_decide_eq_true hyz
            by_cases hac : a = c
            · subst hac
              exact absurd (lt_trans h1 h2) (lt_irrefl a)
            · rw [if_neg hac]
              exact decide_eq_true (lt_trans h1 h2)

theorem fallbackLE_iff (a b : Nat × ℚ × String × VideoEntry) :
    fallbackLE a b = true ↔
      (a.1 < b.1 ∨ (a.1 = b.1 ∧ (a.2.1 < b.2.1 ∨
        (a.2.1 = b.2.1 ∧ stringLE a.2.2.1 b.2.2.1 = true)))) := by
  unfold fallbackLE
  by_cases h1 : a.1 = b.1
  · by_cases h2 : a.2.1 = b.2.1
    · simp [h1, h2]
    · simp [h1, h2]
  · simp [h1]

theorem fallbackLE_total (a b : Nat × ℚ × String × VideoEntry) :
    fallbackLE a b = true ∨ fallbackLE b a = true := by
  rw [fallbackLE_iff, fallbackLE_iff]
  rcases lt_trichotomy a.1 b.1 with h1 | h1 | h1
  · exact Or.inl (Or.inl h1)
  · rcases lt_trichotomy a.2.1 b.2.1 with h2 | h2 | h2
    · exact Or.inl (Or.inr ⟨h1, Or.inl h2⟩)
    · rcases charListLE_total a.2.2.1.toList b.2.2.1.toList with h3 | h3
      · exact Or.inl (Or.inr ⟨h1, Or.inr ⟨h2, h3⟩⟩)
      · exact Or.inr (Or.inr ⟨h1.symm, Or.inr ⟨h2.symm, h3⟩⟩)
    · exact Or.inr (Or.inr ⟨h1.symm, Or.inl h2⟩)
  · exact Or.inr (Or.inl h1)

theorem fallbackLE_trans (a b c : Nat × ℚ × String × VideoEntry) :
    fallbackLE a b = true → fallbackLE b c = true →
      fallbackLE a c = true := by
  rw [fallbackLE_iff, fallbackLE_iff, fallbackLE_iff]
  rintro (h1 | ⟨h1, h2⟩) (g1 | ⟨g1, g2⟩)
  · exact Or.inl (lt_trans h1 g1)
  · exact Or.inl (g1 ▸ h1)
  · exact Or.inl (h1 ▸ g1)
  · refine Or.inr ⟨h1.trans g1, ?_⟩
    rcases h2 with h2 | ⟨h2, h3⟩ <;> rcases g2 with g2 | ⟨g2, g3⟩
    · exact Or.inl (lt_trans h2 g2)
    · exact Or.inl (g2 ▸ h2)
    · exact Or.inl (h2 ▸ g2)
    · exact Or.inr ⟨h2.trans g2, charListLE_trans _ _ _ h3 g3⟩

instance : IsTotal (Nat × ℚ × String × VideoEntry)
    (fun a b => fallbackLE a b = true) := ⟨fallbackLE_total⟩

instance : IsTrans (Nat × ℚ × String × VideoEntry)
    (fun a b => fallbackLE a b = true) := ⟨fallbackLE_trans⟩

theorem fallbackLE_refl (a : Nat × ℚ × String × VideoEntry) :
    fallbackLE a a = true := by
  rw [fallbackLE_iff]
  exact Or.inr ⟨rfl, Or.inr ⟨rfl, charListLE_refl _⟩⟩

/-! ### Counter lemmas (C4) -/

theorem countGet_map_replace (code c : String) (n : Nat) (hc : c ≠ code) :
    ∀ rest : List (String × Nat),
      countGet (rest.map fun p => if p.1 = code then (code, n) else p) c =
        countGet rest c := by
  intro rest
  induction rest with
  | nil => rfl
  | cons q rest ih =>
    unfold countGet at ih ⊢
    by_cases hq : q.1 = code
    · simp only [List.map_cons, if_pos hq, List.find?]
      rw [show decide ((code, n).1 = c) = false by simp [Ne.symm hc],
        show decide (q.1 = c) = false by
          rw [hq]; simp [Ne.symm hc]]
      exact ih
    · simp only [List.map_cons, if_neg hq, List.find?]
      by_cases hqc : q.1 = c
      · rw [show decide (q.1 = c) = true by simp [hqc]]
      · rw [show decide (q.1 = c) = false by simp [hqc]]
        exact ih

theorem countGet_map_hit (code : String) (n : Nat) :
    ∀ rest : List (String × Nat), rest.any (fun p => p.1 = code) = true →
      countGet (rest.map fun p => if p.1 = code then (code, n) else p) code
        = n := by
  intro rest
  induction rest with
  | nil => intro h; simp at h
  | cons q rest ih =>
    intro h
    unfold countGet
    by_cases hq : q.1 = code
    · simp only [List.map_cons, if_pos hq, List.find?]
      simp
    · simp only [List.map_cons, if_neg hq, List.find?]
      rw [show decide (q.1 = code) = false by simp [hq]]
      have h2 := h
      rw [List.any_cons] at h2
      rcases Bool.or_eq_true_iff.mp h2 with h1 | h1
      · exact absurd (of_decide_eq_true h1) hq
      · have := ih h1
        unfold countGet at this
        exact this

theorem countGet_countSet (counts : List (String × Nat)) (code c : String)
    (n : Nat) :
    countGet (countSet counts code n) c =
      if c = code then n else countGet counts c := by
  unfold countSet
  split
  · next hany =>
    by_cases hcc : c = code
    · subst hcc
      rw [if_pos rfl]
      exact countGet_map_hit c n counts hany
    · rw [if_neg hcc]
      exact countGet_map_replace code c n hcc counts
  · next hany =>
    unfold countGet
    rw [List.find?_append]
    by_cases hcc : c = code
    · subst hcc
      have hnone : List.find? (fun p => p.1 = c) counts = none := by
        rw [List.find?_eq_none]
        intro p hp
        simp only [decide_eq_true_eq]
        intro hpc
        exact hany (List.any_of_mem hp (by simpa using hpc))
      rw [hnone, if_pos rfl]
      simp [List.find?]
    · rw [if_neg hcc]
      have hsingle : List.find? (fun p => p.1 = c) [(code, n)] = none := by
        simp [List.find?, Ne.symm hcc]
      rw [hsingle]
      cases List.find? (fun p => p.1 = c) counts <;> rfl

/-- **C4.**  In the post-solver fallback pass, an unmatched surviving slot
is assigned the candidate identity that is minimal under the ordering
(fewest prior assignments, then lowest video value, then lexicographically
smallest alpha-3 code), and exactly that identity's usage counter is
incremented by one. -/
theorem fallback_assigns_minimum (slots : List PlaceholderSlot)
    (mc : List (Int × List String)) (ds : VideoDataset)
    (st : AssignPassState) (k : Nat)
    (hk : k < (stageA slots mc ds).slot_candidates.length) :
    ∃ code entry v,
      (fallbackStep ds (stageA slots mc ds).slot_candidates st k).results =
        st.results ++
          [(k, ⟨((stageA slots mc ds).slot_candidates.getD k dfltSC).1, code,
            entry, ds⟩)] ∧
      code ∈ ((stageA slots mc ds).slot_candidates.getD k dfltSC).2 ∧
      find_video_entry_for_code code ds = some entry ∧
      entry.value = some v ∧
      (∀ c e w, c ∈ ((stageA slots mc ds).slot_candidates.getD k dfltSC).2 →
        find_video_entry_for_code c ds = some e → e.value = some w →
        fallbackLE (countGet st.counts code, v, code, entry)
          (countGet st.counts c, w, c, e) = true) ∧
      countGet
        (fallbackStep ds (stageA slots mc ds).slot_candidates st k).counts
        code = countGet st.counts code + 1 ∧
      ∀ c, c ≠ code →
        countGet
          (fallbackStep ds (stageA slots mc ds).slot_candidates st k).counts
          c = countGet st.counts c := by
  set cands := (stageA slots mc ds).slot_candidates with hcands
  have hval := stageA_valid slots mc ds
  rw [← hcands] at hval
  have hsc := get?_eq_some_getD cands k hk
  have hscmem : cands.getD k dfltSC ∈ cands := by
    rw [List.getD_eq_getElem _ _ hk]
    exact List.getElem_mem hk
  obtain ⟨hne, _hnd, hv⟩ := hval _ hscmem
  unfold fallbackStep
  rw [hsc]
  dsimp only
  have hentries : ((cands.getD k dfltSC).2.filterMap fun code =>
      match find_video_entry_for_code code ds with
      | none => none
      | some entry =>
        match entry.value with
        | none => none
        | some v => some (countGet st.counts code, v, code, entry)) ≠ [] := by
    cases hcodes : (cands.getD k dfltSC).2 with
    | nil => exact absurd hcodes hne
    | cons c rest =>
      obtain ⟨e, v, hfind, hvalue⟩ :=
        hv c (by rw [hcodes]; exact List.mem_cons_self c rest)
      simp only [List.filterMap_cons, hfind, hvalue]
      exact List.cons_ne_nil _ _
  split
  · next hempty =>
    exact absurd (List.isEmpty_iff.mp hempty) hentries
  · next hempty =>
    split
    · next hsort =>
      have hperm := List.perm_insertionSort
        (fun a b => fallbackLE a b = true)
        ((cands.getD k dfltSC).2.filterMap fun code =>
          match find_video_entry_for_code code ds with
          | none => none
          | some entry =>
            match entry.value with
            | none => none
            | some v => some (countGet st.counts code, v, code, entry))
      rw [hsort] at hperm
      exact absurd (hperm.nil_eq).symm hentries
    · next chosen rest hsort =>
      have hsorted := List.sorted_insertionSort
        (fun a b => fallbackLE a b = true)
        ((cands.getD k dfltSC).2.filterMap fun code =>
          match find_video_entry_for_code code ds with
          | none => none
          | some entry =>
            match entry.value with
            | none => none
            | some v => some (countGet st.counts code, v, code, entry))
      rw [hsort] at hsorted
      have hmem : chosen ∈ List.insertionSort
          (fun a b => fallbackLE a b = true)
          ((cands.getD k dfltSC).2.filterMap fun code =>
            match find_video_entry_for_code code ds with
            | none => none
            | some entry =>
              match entry.value with
              | none => none
              | some v => some (countGet st.counts code, v, code, entry)) := by
        rw [hsort]
        exact List.mem_cons_self _ _
      have hmem2 := (List.perm_insertionSort _ _).mem_iff.mp hmem
      obtain ⟨code, hcodemem, heq⟩ := List.mem_filterMap.mp hmem2
      obtain ⟨e2, v2, hfind2, hvalue2⟩ := hv code hcodemem
      simp only [hfind2, hvalue2, Option.some.injEq] at heq
      subst heq
      refine ⟨code, e2, v2, rfl, hcodemem, hfind2, hvalue2, ?_, ?_, ?_⟩
      · intro c e w hc hf hw
        have htuple : (countGet st.counts c, w, c, e) ∈
            (cands.getD k dfltSC).2.filterMap fun code =>
              match find_video_entry_for_code code ds with
              | none => none
              | some entry =>
                match entry.value with
                | none => none
                | some v => some (countGet st.counts code, v, code, entry) :=
          List.mem_filterMap.mpr ⟨c, hc, by simp [hf, hw]⟩
        have hmem3 := (List.perm_insertionSort
          (fun a b => fallbackLE a b = true) _).mem_iff.mpr htuple
        rw [hsort] at hmem3
        rcases List.mem_cons.mp hmem3 with heq2 | hmem4
        · rw [← heq2]
          exact fallbackLE_refl _
        · exact (List.sorted_cons.mp hsorted).1 _ hmem4
      · show countGet (countSet st.counts code
          (countGet st.counts code + 1)) code = countGet st.counts code + 1
        rw [countGet_countSet]
        simp
      · intro c hcne
        show countGet (countSet st.counts code
          (countGet st.counts code + 1)) c = countGet st.counts c
        rw [countGet_countSet]
        simp [hcne]

/-- Witness for C4: on the USA instance with a fresh state, the unmatched
slot 0 is assigned the only candidate USA with its counter going to 1. -/
theorem fallback_assigns_minimum_witness :
    ∃ code entry v,
      (fallbackStep usaDataset
        (stageA usaSlots usaMap usaDataset).slot_candidates
        ⟨[], [], [], [], []⟩ 0).results =
        [] ++
          [(0, ⟨((stageA usaSlots usaMap usaDataset).slot_candidates.getD 0
            dfltSC).1, code, entry, usaDataset⟩)] ∧
      code ∈ ((stageA usaSlots usaMap usaDataset).slot_candidates.getD 0
        dfltSC).2 ∧
      find_video_entry_for_code code usaDataset = some entry ∧
      entry.value = some v ∧
      (∀ c e w,
        c ∈ ((stageA usaSlots usaMap usaDataset).slot_candidates.getD 0
          dfltSC).2 →
        find_video_entry_for_code c usaDataset = some e → e.value = some w →
        fallbackLE (countGet [] code, v, code, entry)
          (countGet [] c, w, c, e) = true) ∧
      countGet
        (fallbackStep usaDataset
          (stageA usaSlots usaMap usaDataset).slot_candidates
          ⟨[], [], [], [], []⟩ 0).counts code = countGet [] code + 1 ∧
      ∀ c, c ≠ code →
        countGet
          (fallbackStep usaDataset
            (stageA usaSlots usaMap usaDataset).slot_candidates
            ⟨[], [], [], [], []⟩ 0).counts c = countGet [] c :=
  fallback_assigns_minimum usaSlots usaMap usaDataset ⟨[], [], [], [], []⟩ 0
    (by decide)

/-- Witness for C2 on the USA instance: three slots survive, three
assignments are returned, and slot 0's assignment is feasible. -/
theorem assignments_feasible_witness :
    (compute_team_video_assignments usaSlots usaMap usaDataset).1.length =
      (stageA usaSlots usaMap usaDataset).slot_candidates.length ∧
    RowOK (stageA usaSlots usaMap usaDataset).slot_candidates
      ((compute_team_video_assignments usaSlots usaMap usaDataset).1.getD 0
        dfltAssign) 0 :=
  ⟨(assignments_feasible usaSlots usaMap usaDataset).1,
   (assignments_feasible usaSlots usaMap usaDataset).2 0 (by decide)⟩

/-! ### Duplicate-diagnostic lemmas (C5) -/

/-- Generic fold-invariant principle with membership access. -/
theorem foldl_inv_mem {α β : Type} (P : β → Prop) (f : β → α → β) :
    ∀ l : List α, (∀ st x, x ∈ l → P st → P (f st x)) →
      ∀ st : β, P st → P (l.foldl f st) := by
  intro l
  induction l with
  | nil => intro _ st h; exact h
  | cons x xs ih =>
    intro hstep st h
    exact ih (fun st2 y hy => hstep st2 y (List.mem_cons_of_mem _ hy))
      (f st x) (hstep st x (List.mem_cons_self _ _) h)

/-- Filter length across an appended singleton. -/
theorem filter_append_one {α : Type} (p : α → Bool) (l : List α) (x : α) :
    ((l ++ [x]).filter p).length =
      (l.filter p).length + (if p x then 1 else 0) := by
  rw [List.filter_append, List.length_append]
  by_cases h : p x
  · simp [List.filter_cons, h]
  · simp [List.filter_cons, h]

/-- A first-pass row either leaves results, counters and duplicate messages
unchanged, or accepts a fresh identity: the row is bound and that identity's
counter goes from zero to one. -/
theorem firstPassBody_state (ds : VideoDataset)
    (colCodes : List (Option String)) (cost : List (List ℚ))
    (st : AssignPassState) (m : Nat) (sc : PlaceholderSlot × List String)
    (ci : Int) :
    ((firstPassBody ds colCodes cost st m sc ci).results = st.results ∧
     (firstPassBody ds colCodes cost st m sc ci).counts = st.counts ∧
     (firstPassBody ds colCodes cost st m sc ci).duplicate_messages =
       st.duplicate_messages) ∨
    ∃ code entry, countGet st.counts code = 0 ∧
      firstPassBody ds colCodes cost st m sc ci = { st with
        counts := countSet st.counts code (countGet st.counts code + 1),
        results := st.results ++ [(m, ⟨sc.1, code, entry, ds⟩)] } := by
  unfold firstPassBody
  dsimp only
  split
  · exact Or.inl ⟨rfl, rfl, rfl⟩
  · split
    · exact Or.inl ⟨rfl, rfl, rfl⟩
    · split
      · exact Or.inl ⟨rfl, rfl, rfl⟩
      · split
        · exact Or.inl ⟨rfl, rfl, rfl⟩
        · split
          · exact Or.inl ⟨rfl, rfl, rfl⟩
          · split
            · exact Or.inl ⟨rfl, rfl, rfl⟩
            · next hpos =>
              exact Or.inr ⟨_, _, by omega, rfl⟩

/-- What one fallback step on an in-range row does to the whole state: a
candidate of the row is chosen, its counter is bumped, a duplicate message
is recorded exactly when that counter was already positive, and the row is
bound to the chosen identity. -/
theorem fallbackStep_state (ds : VideoDataset)
    (cands : List (PlaceholderSlot × List String)) (st : AssignPassState)
    (k : Nat) (hk : k < cands.length)
    (hval : ∀ sc ∈ cands, ValidCands ds sc) :
    ∃ code entry,
      code ∈ (cands.getD k dfltSC).2 ∧
      fallbackStep ds cands st k = { st with
        counts := countSet st.counts code (countGet st.counts code + 1),
        duplicate_messages :=
          if 0 < countGet st.counts code then
            st.duplicate_messages ++
              [Diag.duplicateAssignment code
                (cands.getD k dfltSC).1.match_number]
          else st.duplicate_messages,
        results := st.results ++
          [(k, ⟨(cands.getD k dfltSC).1, code, entry, ds⟩)] } := by
  have hsc := get?_eq_some_getD cands k hk
  have hscmem : cands.getD k dfltSC ∈ cands := by
    rw [List.getD_eq_getElem _ _ hk]
    exact List.getElem_mem hk
  obtain ⟨hne, _hnd, hv⟩ := hval _ hscmem
  unfold fallbackStep
  rw [hsc]
  dsimp only
  have hentries : ((cands.getD k dfltSC).2.filterMap fun code =>
      match find_video_entry_for_code code ds with
      | none => none
      | some entry =>
        match entry.value with
        | none => none
        | some v => some (countGet st.counts code, v, code, entry)) ≠ [] := by
    cases hcodes : (cands.getD k dfltSC).2 with
    | nil => exact absurd hcodes hne
    | cons c rest =>
      obtain ⟨e, v, hfind, hvalue⟩ :=
        hv c (by rw [hcodes]; exact List.mem_cons_self c rest)
      simp only [List.filterMap_cons, hfind, hvalue]
      exact List.cons_ne_nil _ _
  split
  · next hempty =>
    exact absurd (List.isEmpty_iff.mp hempty) hentries
  · next hempty =>
    split
    · next hsort =>
      have hperm := List.perm_insertionSort
        (fun a b => fallbackLE a b = true)
        ((cands.getD k dfltSC).2.filterMap fun code =>
          match find_video_entry_for_code code ds with
          | none => none
          | some entry =>
            match entry.value with
            | none => none
            | some v => some (countGet st.counts code, v, code, entry))
      rw [hsort] at hperm
      exact absurd (hperm.nil_eq).symm hentries
    · next chosen rest hsort =>
      have hmem : chosen ∈ List.insertionSort
          (fun a b => fallbackLE a b = true)
          ((cands.getD k dfltSC).2.filterMap fun code =>
            match find_video_entry_for_code code ds with
            | none => none
            | some entry =>
              match entry.value with
              | none => none
              | some v => some (countGet st.counts code, v, code, entry)) := by
        rw [hsort]
        exact List.mem_cons_self _ _
      have hmem2 := (List.perm_insertionSort _ _).mem_iff.mp hmem
      obtain ⟨code, hcodemem, heq⟩ := List.mem_filterMap.mp hmem2
      obtain ⟨e2, v2, hfind2, hvalue2⟩ := hv code hcodemem
      simp only [hfind2, hvalue2, Option.some.injEq] at heq
      subst heq
      exact ⟨code, e2, hcodemem, rfl⟩

/-- A first-pass row keeps counters equal to per-identity binding counts and
keeps every counter at most one. -/
theorem firstPassStep_counts (ds : VideoDataset)
    (cands : List (PlaceholderSlot × List String))
    (colCodes : List (Option String)) (cost : List (List ℚ))
    (assignments : List Int) (st : AssignPassState) (m : Nat)
    (h : CountsInv st ∧ ∀ code, countGet st.counts code ≤ 1) :
    CountsInv (firstPassStep ds cands colCodes cost assignments st m) ∧
      ∀ code,
        countGet
          (firstPassStep ds cands colCodes cost assignments st m).counts
          code ≤ 1 := by
  unfold firstPassStep
  cases hget : cands.get? m with
  | none => exact h
  | some sc =>
    dsimp only
    rcases firstPassBody_state ds colCodes cost st m sc
        (if m < assignments.length then assignments.getD m (-1) else -1) with
      ⟨hr, hcnt, _⟩ | ⟨code, entry, hzero, heq⟩
    · constructor
      · intro c
        rw [hcnt, hr]
        exact h.1 c
      · intro c
        rw [hcnt]
        exact h.2 c
    · rw [heq]
      constructor
      · intro c
        show countGet (countSet st.counts code (countGet st.counts code + 1))
            c =
          ((st.results ++
            [(m, (⟨sc.1, code, entry, ds⟩ : PlaceholderAssignment))]).filter
              fun p => p.2.country_code = c).length
        rw [countGet_countSet, filter_append_one]
        by_cases hcc : c = code
        · subst hcc
          rw [if_pos rfl, ← h.1 c]
          simp
        · rw [if_neg hcc, ← h.1 c]
          have : (decide
              ((m, (⟨sc.1, code, entry, ds⟩ : PlaceholderAssignment)).2.country_code
                = c)) = false := by
            simp
            exact fun hx => hcc hx.symm
          rw [this]
          simp
      · intro c
        show countGet (countSet st.counts code (countGet st.counts code + 1))
          c ≤ 1
        rw [countGet_countSet]
        by_cases hcc : c = code
        · rw [if_pos hcc]
          omega
        · rw [if_neg hcc]
          exact h.2 c

/-- A fallback step on an in-range row keeps counters equal to per-identity
binding counts and records a duplicate message whenever a counter passes
two. -/
theorem fallbackStep_counts (ds : VideoDataset)
    (cands : List (PlaceholderSlot × List String)) (st : AssignPassState)
    (k : Nat) (hk : k < cands.length)
    (hval : ∀ sc ∈ cands, ValidCands ds sc)
    (h : CountsInv st ∧ DupInv st) :
    CountsInv (fallbackStep ds cands st k) ∧
      DupInv (fallbackStep ds cands st k) := by
  obtain ⟨code, entry, hcm, heq⟩ := fallbackStep_state ds cands st k hk hval
  rw [heq]
  constructor
  · intro c
    show countGet (countSet st.counts code (countGet st.counts code + 1)) c
      = ((st.results ++
          [(k, (⟨(cands.getD k dfltSC).1, code, entry, ds⟩ :
            PlaceholderAssignment))]).filter
            fun p => p.2.country_code = c).length
    rw [countGet_countSet, filter_append_one]
    by_cases hcc : c = code
    · subst hcc
      rw [if_pos rfl, ← h.1 c]
      simp
    · rw [if_neg hcc, ← h.1 c]
      have : (decide
          ((k, (⟨(cands.getD k dfltSC).1, code, entry, ds⟩ :
            PlaceholderAssignment)).2.country_code = c)) = false := by
        simp
        exact fun hx => hcc hx.symm
      rw [this]
      simp
  · intro c h2
    show ∃ m, Diag.duplicateAssignment c m ∈
      (if 0 < countGet st.counts code then
        st.duplicate_messages ++
          [Diag.duplicateAssignment code
            (cands.getD k dfltSC).1.match_number]
       else st.duplicate_messages)
    have h2c : 2 ≤ countGet
        (countSet st.counts code (countGet st.counts code + 1)) c := h2
    rw [countGet_countSet] at h2c
    by_cases hcc : c = code
    · subst hcc
      rw [if_pos rfl] at h2c
      have hpos : 0 < countGet st.counts c := by omega
      rw [if_pos hpos]
      exact ⟨(cands.getD k dfltSC).1.match_number,
        List.mem_append_right _ (List.mem_singleton_self _)⟩
    · rw [if_neg hcc] at h2c
      obtain ⟨m, hm⟩ := h.2 c h2c
      split
      · exact ⟨m, List.mem_append_left _ hm⟩
      · exact ⟨m, hm⟩

/-- A row index is unbound exactly when no binding carries it. -/
theorem resultsGet_none_iff (results : List (Nat × PlaceholderAssignment))
    (k : Nat) :
    resultsGet results k = none ↔ ∀ p ∈ results, p.1 ≠ k := by
  unfold resultsGet
  constructor
  · intro h p hp hpk
    cases hfind : List.find? (fun p => p.1 = k) results with
    | some q =>
      rw [hfind] at h
      cases h
    | none =>
      have := List.find?_eq_none.mp hfind p hp
      simp at this
      exact this hpk
  · intro h
    rw [List.find?_eq_none.mpr]
    · rfl
    · intro p hp
      simp
      exact h p hp

/-- The first binding for a key heads the list of all bindings for it. -/
theorem find_eq_head_filter (results : List (Nat × PlaceholderAssignment))
    (n : Nat) :
    List.find? (fun p => p.1 = n) results =
      (results.filter fun p => p.1 = n).head? := by
  induction results with
  | nil => rfl
  | cons q rest ih =>
    by_cases h : q.1 = n
    · rw [List.find?_cons_of_pos _ (by simpa using h),
        List.filter_cons_of_pos (by simpa using h)]
      rfl
    · rw [List.find?_cons_of_neg _ (by simpa using h),
        List.filter_cons_of_neg (by simpa using h)]
      exact ih

/-- Dropping bindings for other keys does not change a key's lookup. -/
theorem resultsGet_filter (q : Nat × PlaceholderAssignment → Bool)
    (k : Nat) :
    ∀ results : List (Nat × PlaceholderAssignment),
      (∀ p ∈ results, p.1 = k → q p = true) →
      resultsGet (results.filter q) k = resultsGet results k := by
  intro results
  induction results with
  | nil => intro _; rfl
  | cons p rest ih =>
    intro hq
    by_cases hpk : p.1 = k
    · have hqp : q p = true := hq p (List.mem_cons_self _ _) hpk
      rw [List.filter_cons_of_pos hqp]
      unfold resultsGet
      rw [List.find?_cons_of_pos _ (by simpa using hpk),
        List.find?_cons_of_pos _ (by simpa using hpk)]
    · have h2 : resultsGet (p :: rest) k = resultsGet rest k := by
        unfold resultsGet
        rw [List.find?_cons_of_neg _ (by simpa using hpk)]
      cases hqp : q p with
      | false =>
        rw [List.filter_cons_of_neg (by simp [hqp]), h2]
        exact ih fun r hr => hq r (List.mem_cons_of_mem _ hr)
      | true =>
        rw [List.filter_cons_of_pos hqp]
        have h1 : resultsGet (p :: rest.filter q) k =
            resultsGet (rest.filter q) k := by
          unfold resultsGet
          rw [List.find?_cons_of_neg _ (by simpa using hpk)]
        rw [h1, h2]
        exact ih fun r hr => hq r (List.mem_cons_of_mem _ hr)

/-- Pointwise-equal option maps filter-map alike. -/
theorem filterMap_ext {α β : Type} (f g : α → Option β) :
    ∀ l : List α, (∀ a ∈ l, f a = g a) → l.filterMap f = l.filterMap g := by
  intro l
  induction l with
  | nil => intro _; rfl
  | cons a as ih =>
    intro h
    rw [List.filterMap_cons, List.filterMap_cons,
      h a (List.mem_cons_self _ _),
      ih fun b hb => h b (List.mem_cons_of_mem _ hb)]

/-- With duplicate-free, in-range keys, reading the bindings back in row
order is a permutation of the recorded assignments. -/
theorem filterMap_resultsGet_perm :
    ∀ (n : Nat) (results : List (Nat × PlaceholderAssignment)),
      (results.map Prod.fst).Nodup → (∀ p ∈ results, p.1 < n) →
      ((List.range n).filterMap (resultsGet results)).Perm
        (results.map Prod.snd) := by
  intro n
  induction n with
  | zero =>
    intro results _ hb
    cases results with
    | nil => simp
    | cons p rest =>
      exact absurd (hb p (List.mem_cons_self _ _)) (Nat.not_lt_zero _)
  | succ n ih =>
    intro results hnd hb
    rw [List.range_succ, List.filterMap_append]
    have hpoint : ∀ k ∈ List.range n,
        resultsGet results k =
          resultsGet (results.filter fun p => !(decide (p.1 = n))) k := by
      intro k hk
      have hkn : k ≠ n := by
        have := List.mem_range.mp hk
        omega
      refine (resultsGet_filter _ k results fun p _ hpk => ?_).symm
      rw [hpk]
      simp [hkn]
    rw [filterMap_ext _ _ _ hpoint]
    have hnd' : ((results.filter fun p =>
        !(decide (p.1 = n))).map Prod.fst).Nodup :=
      List.Nodup.sublist ((List.filter_sublist _).map Prod.fst) hnd
    have hb' : ∀ p ∈ results.filter fun p => !(decide (p.1 = n)),
        p.1 < n := by
      intro p hp
      obtain ⟨hpm, hpn⟩ := List.mem_filter.mp hp
      have h1 : p.1 ≠ n := by simpa using hpn
      have h2 := hb p hpm
      omega
    have hmain := ih (results.filter fun p => !(decide (p.1 = n))) hnd' hb'
    cases hfind : List.find? (fun p => p.1 = n) results with
    | none =>
      have hall : ∀ p ∈ results, p.1 ≠ n := by
        intro p hp
        have := List.find?_eq_none.mp hfind p hp
        simpa using this
      have hid : (results.filter fun p => !(decide (p.1 = n))) = results :=
        List.filter_eq_self.mpr fun p hp => by simp [hall p hp]
      have hnone : resultsGet results n = none := by
        unfold resultsGet
        rw [hfind]
        rfl
      rw [show List.filterMap (resultsGet results) [n] = [] by
        simp [hnone], List.append_nil]
      rw [hid] at hmain ⊢
      exact hmain
    | some p0 =>
      have hp0key : p0.1 = n := by
        have := List.find?_some hfind
        simpa using this
      have hsome : resultsGet results n = some p0.2 := by
        unfold resultsGet
        rw [hfind]
        rfl
      rw [show List.filterMap (resultsGet results) [n] = [p0.2] by
        simp [hsome]]
      have hfil : results.filter (fun p => decide (p.1 = n)) = [p0] := by
        have hhead := find_eq_head_filter results n
        rw [hfind] at hhead
        cases hfl : results.filter (fun p => decide (p.1 = n)) with
        | nil =>
          rw [hfl] at hhead
          cases hhead
        | cons q t =>
          rw [hfl] at hhead
          simp only [List.head?_cons, Option.some.injEq] at hhead
          subst hhead
          cases t with
          | nil => rfl
          | cons q2 t2 =>
            exfalso
            have hq2mem : q2 ∈ results.filter (fun p => decide (p.1 = n)) := by
              rw [hfl]
              exact List.mem_cons_of_mem _ (List.mem_cons_self _ _)
            have hq2 : q2.1 = n := by
              have := (List.mem_filter.mp hq2mem).2
              simpa using this
            have hsub : List.Sublist
                ((results.filter (fun p => decide (p.1 = n))).map Prod.fst)
                (results.map Prod.fst) :=
              (List.filter_sublist _).map Prod.fst
            have hndf := List.Nodup.sublist hsub hnd
            rw [hfl] at hndf
            simp only [List.map_cons] at hndf
            rw [hp0key, hq2] at hndf
            exact (List.nodup_cons.mp hndf).1 (List.mem_cons_self _ _)
      have hperm2 := List.filter_append_perm
        (fun p => decide (p.1 = n)) results
      rw [hfil] at hperm2
      refine (hmain.append_right [p0.2]).trans ?_
      refine (List.perm_append_singleton _ _).trans ?_
      have hmap := hperm2.map Prod.snd
      simpa using hmap

/-- Along the first pass, result keys are duplicate-free and below the
number of processed rows. -/
theorem firstPass_keys (ds : VideoDataset)
    (cands : List (PlaceholderSlot × List String))
    (colCodes : List (Option String)) (cost : List (List ℚ))
    (assignments : List Int) (diags : List Diag) :
    ∀ m : Nat,
      ((((List.range m).foldl
          (firstPassStep ds cands colCodes cost assignments)
          ⟨[], [], [], diags, []⟩).results.map Prod.fst).Nodup) ∧
      ∀ p ∈ ((List.range m).foldl
          (firstPassStep ds cands colCodes cost assignments)
          ⟨[], [], [], diags, []⟩).results, p.1 < m := by
  intro m
  induction m with
  | zero =>
    refine ⟨List.nodup_nil, ?_⟩
    intro p hp
    simp at hp
  | succ m ih =>
    obtain ⟨ihnd, ihb⟩ := ih
    rw [List.range_succ, List.foldl_append, List.foldl_cons, List.foldl_nil]
    set st := (List.range m).foldl
      (firstPassStep ds cands colCodes cost assignments)
      ⟨[], [], [], diags, []⟩ with hst
    unfold firstPassStep
    cases hget : cands.get? m with
    | none => exact ⟨ihnd, fun p hp => Nat.lt_succ_of_lt (ihb p hp)⟩
    | some sc =>
      dsimp only
      rcases firstPassBody_state ds colCodes cost st m sc
          (if m < assignments.length then assignments.getD m (-1) else -1)
        with ⟨hr, _, _⟩ | ⟨code, entry, _, heq⟩
      · rw [hr]
        exact ⟨ihnd, fun p hp => Nat.lt_succ_of_lt (ihb p hp)⟩
      · rw [heq]
        constructor
        · show ((st.results ++
            [(m, (⟨sc.1, code, entry, ds⟩ : PlaceholderAssignment))]).map
              Prod.fst).Nodup
          rw [List.map_append, List.nodup_append]
          refine ⟨ihnd, List.nodup_singleton _, ?_⟩
          intro a ha hb
          obtain ⟨p, hp, hpk⟩ := List.mem_map.mp ha
          have ham : a = m := by simpa using hb
          have := ihb p hp
          omega
        · intro p hp
          rcases List.mem_append.mp hp with hp | hp
          · exact Nat.lt_succ_of_lt (ihb p hp)
          · rcases List.mem_singleton.mp hp with rfl
            exact Nat.lt_succ_self m

/-- Along the fallback loop over fresh, in-range, duplicate-free rows, the
result keys stay duplicate-free and in range. -/
theorem fallback_keys (ds : VideoDataset)
    (cands : List (PlaceholderSlot × List String))
    (hval : ∀ sc ∈ cands, ValidCands ds sc) :
    ∀ (todo : List Nat) (st : AssignPassState),
      (∀ k ∈ todo, k < cands.length) → todo.Nodup →
      (∀ k ∈ todo, resultsGet st.results k = none) →
      (st.results.map Prod.fst).Nodup →
      (∀ p ∈ st.results, p.1 < cands.length) →
      (((todo.foldl (fallbackStep ds cands) st).results.map Prod.fst).Nodup ∧
        ∀ p ∈ (todo.foldl (fallbackStep ds cands) st).results,
          p.1 < cands.length) := by
  intro todo
  induction todo with
  | nil =>
    intro st _ _ _ hknd hb
    exact ⟨hknd, hb⟩
  | cons k0 rest ih =>
    intro st hlt hnd hnone hknd hb
    rw [List.foldl_cons]
    obtain ⟨a0, hres0, _⟩ := fallbackStep_results ds cands st k0
      (hlt k0 (List.mem_cons_self _ _)) hval
    have hk0 : resultsGet st.results k0 = none :=
      hnone k0 (List.mem_cons_self _ _)
    have hget_pres : ∀ k, k ≠ k0 →
        resultsGet (fallbackStep ds cands st k0).results k =
          resultsGet st.results k := by
      intro k hk
      rw [hres0, resultsGet_append, resultsGet_singleton,
        if_neg fun h => hk h.symm]
      cases resultsGet st.results k <;> simp
    apply ih
    · exact fun k hk => hlt k (List.mem_cons_of_mem _ hk)
    · exact List.Nodup.of_cons hnd
    · intro k hk
      have hkne : k ≠ k0 := by
        rintro rfl
        exact (List.nodup_cons.mp hnd).1 hk
      rw [hget_pres k hkne]
      exact hnone k (List.mem_cons_of_mem _ hk)
    · rw [hres0, List.map_append, List.nodup_append]
      refine ⟨hknd, List.nodup_singleton _, ?_⟩
      intro a ha hbm
      obtain ⟨p, hp, hpk⟩ := List.mem_map.mp ha
      have hak : a = k0 := by simpa using hbm
      exact (resultsGet_none_iff st.results k0).mp hk0 p hp (by omega)
    · intro p hp
      rw [hres0] at hp
      rcases List.mem_append.mp hp with hp | hp
      · exact hb p hp
      · rcases List.mem_singleton.mp hp with rfl
        exact hlt k0 (List.mem_cons_self _ _)

/-- When slots survive and the solver returns, the engine output is the
row-ordered read-back of the final pass state together with the final
diagnostics extended by the sorted duplicate messages. -/
theorem compute_eq (slots : List PlaceholderSlot)
    (mc : List (Int × List String)) (ds : VideoDataset) (asg : List Int)
    (hc : (stageA slots mc ds).slot_candidates ≠ [])
    (hasg : hungarian
      (costMatrix (stageA slots mc ds).slot_candidates ds) = some asg) :
    compute_team_video_assignments slots mc ds =
      ((List.range (stageA slots mc ds).slot_candidates.length).filterMap
        (resultsGet (finalState slots mc ds asg).results),
       (finalState slots mc ds asg).diagnostics ++
         List.insertionSort (fun a b => dupMsgLE a b = true)
           (finalState slots mc ds asg).duplicate_messages) := by
  have hval := stageA_valid slots mc ds
  have hcostlen := costMatrix_length (stageA slots mc ds).slot_candidates ds
  have hheadlen :=
    costMatrix_head_length (stageA slots mc ds).slot_candidates ds hc
  have hclen : 0 < (stageA slots mc ds).slot_candidates.length :=
    List.length_pos.mpr hc
  have hunil := uniqueCodes_ne_nil ds (stageA slots mc ds).slot_candidates
    hc hval
  have hcond2 :
      ((costMatrix (stageA slots mc ds).slot_candidates ds).isEmpty ||
        ((costMatrix (stageA slots mc ds).slot_candidates
          ds).headD []).isEmpty) = false := by
    have h1 : (costMatrix (stageA slots mc ds).slot_candidates ds).isEmpty
        = false := by
      rw [List.isEmpty_eq_false]
      intro hnil
      rw [hnil] at hcostlen
      simp at hcostlen
      omega
    have h2 : ((costMatrix (stageA slots mc ds).slot_candidates
        ds).headD []).isEmpty = false := by
      rw [List.isEmpty_eq_false]
      intro hnil
      rw [hnil] at hheadlen
      have := List.length_pos.mpr hunil
      have hcolslen := columnCodes_length (stageA slots mc ds).slot_candidates
      simp only [List.length_nil] at hheadlen
      omega
    rw [h1, h2]
    rfl
  unfold compute_team_video_assignments finalState firstPassState passDiags
  dsimp only
  rw [if_neg fun h => hc (List.isEmpty_iff.mp h),
    if_neg (by rw [hcond2]; simp :
      ¬ ((costMatrix (stageA slots mc ds).slot_candidates ds).isEmpty ||
        ((costMatrix (stageA slots mc ds).slot_candidates
          ds).headD []).isEmpty) = true), hasg]

set_option maxRecDepth 100000 in
/-- **C5.**  On three slots whose only valid candidate is the single USA
video, the engine assigns USA three times, emits exactly two
duplicate-reuse diagnostics naming USA, and logs the supply-shortfall
warning; in general, whenever an identity is assigned to more than one
slot, a duplicate diagnostic naming it appears in the output
diagnostics. -/
theorem duplicate_reuse_diagnosed :
    ((compute_team_video_assignments usaSlots usaMap usaDataset).1.map
        (fun a => a.country_code) = ["USA", "USA", "USA"] ∧
      ((compute_team_video_assignments usaSlots usaMap usaDataset).2.filter
        (fun d => match d with
          | Diag.duplicateAssignment c _ => c = "USA"
          | _ => false)).length = 2 ∧
      Diag.supplyShortfallWarning ∈
        (compute_team_video_assignments usaSlots usaMap usaDataset).2) ∧
    ∀ (slots : List PlaceholderSlot) (mc : List (Int × List String))
      (ds : VideoDataset) (code : String),
      2 ≤ ((compute_team_video_assignments slots mc ds).1.filter
        (fun a => a.country_code = code)).length →
      ∃ m, Diag.duplicateAssignment code m ∈
        (compute_team_video_assignments slots mc ds).2 := by
  constructor
  · exact ⟨by decide, by decide, by decide⟩
  · intro slots mc ds code h2
    set cands := (stageA slots mc ds).slot_candidates with hcands
    by_cases hc : cands = []
    · exfalso
      have hres : (compute_team_video_assignments slots mc ds).1 = [] := by
        unfold compute_team_video_assignments
        dsimp only
        rw [← hcands, hc]
        rfl
      rw [hres] at h2
      simp at h2
    · have hval := stageA_valid slots mc ds
      rw [← hcands] at hval
      have hcostlen := costMatrix_length cands ds
      have hheadlen := costMatrix_head_length cands ds hc
      have hcolslen := columnCodes_length cands
      have hclen : 0 < cands.length := List.length_pos.mpr hc
      obtain ⟨asg, hasg⟩ :=
        hungarian_isSome (costMatrix cands ds) (by omega)
      have heq := compute_eq slots mc ds asg (hcands ▸ hc) (hcands ▸ hasg)
      rw [← hcands] at heq
      have hfsEq : firstPassState slots mc ds asg =
          (List.range cands.length).foldl
            (firstPassStep ds cands (columnCodes cands)
              (costMatrix cands ds) asg)
            ⟨[], [], [], passDiags slots mc ds, []⟩ := by
        unfold firstPassState
        rw [← hcands]
      have hfnEq : finalState slots mc ds asg =
          (firstPassState slots mc ds asg).unmatched.foldl
            (fallbackStep ds cands) (firstPassState slots mc ds asg) := by
        unfold finalState
        rw [← hcands]
      obtain ⟨ha1, hb1, hc1, hd1⟩ :
          PassInv cands (firstPassState slots mc ds asg) cands.length := by
        rw [hfsEq]
        exact firstPass_inv ds cands asg (passDiags slots mc ds) [] hval
          cands.length le_rfl
      have hcounts1 : CountsInv (firstPassState slots mc ds asg) ∧
          ∀ c, countGet (firstPassState slots mc ds asg).counts c ≤ 1 := by
        rw [hfsEq]
        refine foldl_inv_mem
          (fun st => CountsInv st ∧ ∀ c, countGet st.counts c ≤ 1)
          (firstPassStep ds cands (columnCodes cands)
            (costMatrix cands ds) asg)
          (List.range cands.length)
          (fun st x _ h => firstPassStep_counts ds cands _ _ asg st x h)
          _ ⟨fun c => rfl, fun c => Nat.zero_le _⟩
      have hinv2 : CountsInv (finalState slots mc ds asg) ∧
          DupInv (finalState slots mc ds asg) := by
        rw [hfnEq]
        refine foldl_inv_mem (fun st => CountsInv st ∧ DupInv st)
          (fallbackStep ds cands)
          (firstPassState slots mc ds asg).unmatched
          (fun st k hk h =>
            fallbackStep_counts ds cands st k ((hc1 k hk).2) hval h)
          _ ⟨hcounts1.1, fun c hge => absurd hge (by
            have := hcounts1.2 c
            omega)⟩
      have hkeys1 :
          ((firstPassState slots mc ds asg).results.map Prod.fst).Nodup ∧
          ∀ p ∈ (firstPassState slots mc ds asg).results,
            p.1 < cands.length := by
        rw [hfsEq]
        exact firstPass_keys ds cands (columnCodes cands)
          (costMatrix cands ds) asg (passDiags slots mc ds) cands.length
      have hkeys2 :
          ((finalState slots mc ds asg).results.map Prod.fst).Nodup ∧
          ∀ p ∈ (finalState slots mc ds asg).results,
            p.1 < cands.length := by
        rw [hfnEq]
        exact fallback_keys ds cands hval _ _
          (fun k hk => (hc1 k hk).2) hd1 (fun k hk => (hc1 k hk).1)
          hkeys1.1 hkeys1.2
      have hperm := filterMap_resultsGet_perm cands.length
        (finalState slots mc ds asg).results hkeys2.1 hkeys2.2
      have hcount_eq :
          ((compute_team_video_assignments slots mc ds).1.filter
            (fun a => a.country_code = code)).length =
          ((finalState slots mc ds asg).results.filter
            (fun p => p.2.country_code = code)).length := by
        have hperm2 := hperm.filter fun a => decide (a.country_code = code)
        rw [heq]
        dsimp only
        rw [hperm2.length_eq, List.filter_map, List.length_map]
        congr 1
      rw [hcount_eq] at h2
      have hcnt : 2 ≤ countGet (finalState slots mc ds asg).counts code := by
        rw [hinv2.1 code]
        exact h2
      obtain ⟨m, hm⟩ := hinv2.2 code hcnt
      refine ⟨m, ?_⟩
      rw [heq]
      dsimp only
      refine List.mem_append_right _ ?_
      rw [(List.perm_insertionSort
        (fun a b => dupMsgLE a b = true) _).mem_iff]
      exact hm

/-! ### Booth fuzzy-matcher lemmas (C8) -/

/-- The best-score fold never lowers the score, dominates every processed
row's score, and either returns its seed or a processed row together with
that row's score. -/
theorem boothBestFold_spec (nk : List Char) :
    ∀ (rows : List BoothInterviewRow)
      (init : Option BoothInterviewRow × ℚ),
      init.2 ≤ (boothBestFold nk rows init).2 ∧
      (∀ r ∈ rows, similarityQ nk r.normalized_key.toList ≤
        (boothBestFold nk rows init).2) ∧
      (boothBestFold nk rows init = init ∨
        ∃ r ∈ rows, (boothBestFold nk rows init).1 = some r ∧
          (boothBestFold nk rows init).2 =
            similarityQ nk r.normalized_key.toList) := by
  intro rows
  induction rows with
  | nil =>
    intro init
    refine ⟨le_refl _, ?_, Or.inl rfl⟩
    intro r hr
    simp at hr
  | cons row rest ih =>
    intro init
    have hstep : boothBestFold nk (row :: rest) init =
        boothBestFold nk rest
          (if init.2 < similarityQ nk row.normalized_key.toList
           then (some row, similarityQ nk row.normalized_key.toList)
           else init) := by
      unfold boothBestFold
      rw [List.foldl_cons]
    rw [hstep]
    set init2 := if init.2 < similarityQ nk row.normalized_key.toList
      then (some row, similarityQ nk row.normalized_key.toList)
      else init with hinit2
    obtain ⟨ih1, ih2, ih3⟩ := ih init2
    have hle : init.2 ≤ init2.2 := by
      rw [hinit2]
      split
      · next h => exact le_of_lt h
      · exact le_refl _
    have hrow : similarityQ nk row.normalized_key.toList ≤ init2.2 := by
      rw [hinit2]
      split
      · exact le_refl _
      · next h => exact le_of_not_lt h
    refine ⟨le_trans hle ih1, ?_, ?_⟩
    · intro r hrm
      rcases List.mem_cons.mp hrm with rfl | hrm
      · exact le_trans hrow ih1
      · exact ih2 r hrm
    · rcases ih3 with heq | ⟨r, hrm, h1, h2⟩
      · rw [heq, hinit2]
        by_cases hlt : init.2 < similarityQ nk row.normalized_key.toList
        · right
          refine ⟨row, List.mem_cons_self _ _, ?_, ?_⟩
          · rw [if_pos hlt]
          · rw [if_pos hlt]
        · left
          rw [if_neg hlt]
      · exact Or.inr ⟨r, List.mem_cons_of_mem _ hrm, h1, h2⟩

/-- **C8.**  With every candidate row carrying the normalization of its
label, the booth matcher returns none on an empty normalized query; returns
a row whose normalized label equals the normalized query whenever one
exists; and otherwise returns a row of maximal similarity ratio when that
maximum is at least `0.7` and none when every ratio is below `0.7`. -/
theorem match_booth_interview_spec (key : String)
    (rows : List BoothInterviewRow)
    (hr : ∀ r ∈ rows, r.normalized_key = normalizeBoothKey r.key) :
    (normalizeBoothKey key = "" →
      match_booth_interview key rows = none) ∧
    (normalizeBoothKey key ≠ "" →
      ((∃ r ∈ rows, normalizeBoothKey r.key = normalizeBoothKey key) →
        ∃ r0, match_booth_interview key rows = some r0 ∧ r0 ∈ rows ∧
          normalizeBoothKey r0.key = normalizeBoothKey key) ∧
      ((∀ r ∈ rows, normalizeBoothKey r.key ≠ normalizeBoothKey key) →
        ((∀ r ∈ rows, similarityQ (normalizeBoothKey key).toList
            r.normalized_key.toList < 7 / 10) →
          match_booth_interview key rows = none) ∧
        ((∃ r ∈ rows, 7 / 10 ≤ similarityQ (normalizeBoothKey key).toList
            r.normalized_key.toList) →
          ∃ r0, match_booth_interview key rows = some r0) ∧
        ∀ r0, match_booth_interview key rows = some r0 →
          r0 ∈ rows ∧
          7 / 10 ≤ similarityQ (normalizeBoothKey key).toList
            r0.normalized_key.toList ∧
          ∀ r2 ∈ rows,
            similarityQ (normalizeBoothKey key).toList
              r2.normalized_key.toList ≤
            similarityQ (normalizeBoothKey key).toList
              r0.normalized_key.toList)) := by
  constructor
  · intro h0
    unfold match_booth_interview
    dsimp only
    rw [if_pos h0]
  · intro hne
    constructor
    · rintro ⟨r, hrm, hkey⟩
      cases hfind : rows.find?
          (fun row => row.normalized_key = normalizeBoothKey key) with
      | none =>
        exfalso
        have hnone := List.find?_eq_none.mp hfind r hrm
        simp at hnone
        exact hnone ((hr r hrm).trans hkey)
      | some r0 =>
        have hres : match_booth_interview key rows = some r0 := by
          unfold match_booth_interview
          dsimp only
          rw [if_neg hne, hfind]
        have hr0mem : r0 ∈ rows := List.mem_of_find?_eq_some hfind
        have hr0key : r0.normalized_key = normalizeBoothKey key := by
          have := List.find?_some hfind
          simpa using this
        refine ⟨r0, hres, hr0mem, ?_⟩
        rw [← hr r0 hr0mem]
        exact hr0key
    · intro habsent
      have hfind : rows.find?
          (fun row => row.normalized_key = normalizeBoothKey key) = none := by
        rw [List.find?_eq_none]
        intro r hrm
        simp
        intro heq
        exact habsent r hrm (by rw [← hr r hrm]; exact heq)
      have hm : match_booth_interview key rows =
          (match (boothBestFold (normalizeBoothKey key).toList rows
              (none, 0)).1 with
           | some row =>
             if 7 / 10 ≤ (boothBestFold (normalizeBoothKey key).toList rows
               (none, 0)).2 then some row else none
           | none => none) := by
        unfold match_booth_interview
        dsimp only
        rw [if_neg hne, hfind]
      obtain ⟨hf1, hf2, hf3⟩ :=
        boothBestFold_spec (normalizeBoothKey key).toList rows (none, 0)
      set best := boothBestFold (normalizeBoothKey key).toList rows (none, 0)
        with hbestEq
      refine ⟨?_, ?_, ?_⟩
      · intro hall
        rw [hm]
        cases hb1 : best.1 with
        | none => rfl
        | some r0 =>
          rcases hf3 with heq0 | ⟨r2, hrm2, h1, h2⟩
          · rw [heq0] at hb1
            cases hb1
          · have hlt : best.2 < 7 / 10 := by
              rw [h2]
              exact hall r2 hrm2
            show (if (7 : ℚ) / 10 ≤ best.2 then some r0 else none) = none
            rw [if_neg (not_le.mpr hlt)]
      · rintro ⟨r, hrm, hge⟩
        have hbge : (7 : ℚ) / 10 ≤ best.2 := le_trans hge (hf2 r hrm)
        rcases hf3 with heq0 | ⟨r2, hrm2, h1, h2⟩
        · rw [heq0] at hbge
          exact absurd hbge (by norm_num)
        · refine ⟨r2, ?_⟩
          rw [hm, h1]
          show (if (7 : ℚ) / 10 ≤ best.2 then some r2 else none) = some r2
          rw [if_pos hbge]
      · intro r0 hres
        rw [hm] at hres
        rcases hf3 with heq0 | ⟨r2, hrm2, h1, h2⟩
        · rw [heq0] at hres
          simp at hres
        · rw [h1] at hres
          have hres2 : (if (7 : ℚ) / 10 ≤ best.2 then some r2 else none) =
              some r0 := hres
          by_cases hge : (7 : ℚ) / 10 ≤ best.2
          · rw [if_pos hge] at hres2
            have hrr : r2 = r0 := by injection hres2
            subst hrr
            refine ⟨hrm2, ?_, ?_⟩
            · rw [← h2]
              exact hge
            · intro r3 hrm3
              have := hf2 r3 hrm3
              rw [h2] at this
              exact this
          · rw [if_neg hge] at hres2
            cases hres2

/-- Witness for C8: the noisy label resolves to the stored booth row by
exact normalized match. -/
theorem match_booth_interview_spec_witness :
    ∃ r0, match_booth_interview "Booth #1!" boothRows = some r0 ∧
      r0 ∈ boothRows ∧
      normalizeBoothKey r0.key = normalizeBoothKey "Booth #1!" :=
  ((match_booth_interview_spec "Booth #1!" boothRows (by decide)).2
    (by decide)).1 ⟨boothRow1, by decide, by decide⟩

set_option maxRecDepth 100000 in
/-- Witness for C5: on the USA instance, USA is assigned to all three
slots, and the general clause yields a duplicate diagnostic naming USA. -/
theorem duplicate_reuse_diagnosed_witness :
    ∃ m, Diag.duplicateAssignment "USA" m ∈
      (compute_team_video_assignments usaSlots usaMap usaDataset).2 :=
  duplicate_reuse_diagnosed.2 usaSlots usaMap usaDataset "USA" (by decide)

/-! ### Match-country-map lemmas (C9) -/

/-- A binding of the upserted map is the new binding or an old one. -/
theorem mem_upsertMap (m : List (Int × List String)) (k : Int)
    (v : List String) (p : Int × List String) (hp : p ∈ upsertMap m k v) :
    p = (k, v) ∨ p ∈ m := by
  unfold upsertMap at hp
  split at hp
  · obtain ⟨q, hq, hqe⟩ := List.mem_map.mp hp
    by_cases hqk : q.1 = k
    · rw [if_pos hqk] at hqe
      exact Or.inl hqe.symm
    · rw [if_neg hqk] at hqe
      exact Or.inr (hqe ▸ hq)
  · rcases List.mem_append.mp hp with hp | hp
    · exact Or.inr hp
    · exact Or.inl (List.mem_singleton.mp hp)

/-- The keys of the upserted map are the old keys plus the new one. -/
theorem any_upsertMap (m : List (Int × List String)) (k : Int)
    (v : List String) (n : Int) :
    (upsertMap m k v).any (fun p => p.1 = n) = true ↔
      (m.any (fun p => p.1 = n) = true ∨ n = k) := by
  unfold upsertMap
  split
  · next hany =>
    constructor
    · intro h
      obtain ⟨p, hp, hpe⟩ := List.any_eq_true.mp h
      obtain ⟨q, hq, hqe⟩ := List.mem_map.mp hp
      by_cases hqk : q.1 = k
      · rw [if_pos hqk] at hqe
        rw [← hqe] at hpe
        simp at hpe
        exact Or.inr hpe.symm
      · rw [if_neg hqk] at hqe
        subst hqe
        exact Or.inl (List.any_eq_true.mpr ⟨q, hq, hpe⟩)
    · intro h
      rcases h with h | rfl
      · obtain ⟨p, hp, hpe⟩ := List.any_eq_true.mp h
        by_cases hpk : p.1 = k
        · refine List.any_eq_true.mpr ⟨(k, v), ?_, ?_⟩
          · exact List.mem_map.mpr ⟨p, hp, by rw [if_pos hpk]⟩
          · simp at hpe ⊢
            rw [← hpk]
            exact hpe
        · refine List.any_eq_true.mpr ⟨p, ?_, hpe⟩
          exact List.mem_map.mpr ⟨p, hp, by rw [if_neg hpk]⟩
      · obtain ⟨p, hp, hpe⟩ := List.any_eq_true.mp hany
        refine List.any_eq_true.mpr ⟨(n, v), ?_, by simp⟩
        refine List.mem_map.mpr ⟨p, hp, ?_⟩
        have hpk : p.1 = n := by simpa using hpe
        rw [if_pos hpk]
  · next hany =>
    rw [List.any_append]
    constructor
    · intro h
      rcases Bool.or_eq_true_iff.mp h with h | h
      · exact Or.inl h
      · simp at h
        exact Or.inr h.symm
    · intro h
      rcases h with h | rfl
      · exact Bool.or_eq_true_iff.mpr (Or.inl h)
      · refine Bool.or_eq_true_iff.mpr (Or.inr ?_)
        simp

set_option maxRecDepth 1000000 in
/-- Every row of the country data table is keyed by a code the alpha-3
table resolves. -/
theorem countryCodeData_canonical :
    ∀ r ∈ countryCodeData, (countryCodeToInfo r.1).isSome = true := by
  decide

/-- Every output of `normalize_country_code` is a canonical alpha-3 code of
the country table. -/
theorem normalize_country_code_canonical (s code : String)
    (h : normalize_country_code s = some code) :
    (countryCodeToInfo code).isSome = true := by
  unfold normalize_country_code at h
  dsimp only at h
  split at h
  · cases h
  · split at h
    · next hguard =>
      have heq : String.mk (upperChars (trimChars s.toList)) = code := by
        injection h
      simp only [Bool.and_eq_true] at hguard
      rw [← heq]
      exact hguard.2
    · split at h
      · unfold iso2ToIso3 at h
        cases hf : countryCodeData.find? fun r =>
            r.2.1 = String.mk (upperChars (trimChars s.toList)) with
        | none =>
          rw [hf] at h
          cases h
        | some r =>
          rw [hf] at h
          have hr : r.1 = code := by injection h
          have hmem := List.mem_of_find?_eq_some hf
          rw [← hr]
          exact countryCodeData_canonical r hmem
      · cases h

/-- The `visit` walk keeps the code list duplicate-free and canonical. -/
theorem visitJ_codes :
    ∀ (fuel : Nat) (v : JVal) (st : ExtractState),
      st.codes.Nodup →
      (∀ c ∈ st.codes, (countryCodeToInfo c).isSome = true) →
      (visitJ fuel v st).codes.Nodup ∧
        ∀ c ∈ (visitJ fuel v st).codes,
          (countryCodeToInfo c).isSome = true := by
  intro fuel
  induction fuel with
  | zero =>
    intro v st hnd hcan
    exact ⟨hnd, hcan⟩
  | succ fuel ih =>
    intro v st hnd hcan
    cases v with
    | str s =>
      cases hn : normalize_country_code s with
      | none =>
        have hid : visitJ (fuel + 1) (JVal.str s) st = st := by
          unfold visitJ
          rw [hn]
        rw [hid]
        exact ⟨hnd, hcan⟩
      | some iso3 =>
        have hcan3 : (countryCodeToInfo iso3).isSome = true :=
          normalize_country_code_canonical s iso3 hn
        unfold visitJ
        rw [hn]
        dsimp only
        set st1 := if String.mk (trimChars s.toList) ≠ "" &&
            !st.rawValues.contains (String.mk (trimChars s.toList)) then
            { st with rawValues :=
              st.rawValues ++ [String.mk (trimChars s.toList)] }
          else st with hst1
        have hst1codes : st1.codes = st.codes := by
          rw [hst1]
          split <;> rfl
        split
        · next hcont =>
          refine ⟨?_, ?_⟩
          · show (st1.codes ++ [iso3]).Nodup
            rw [List.nodup_append, hst1codes]
            refine ⟨hnd, List.nodup_singleton _, ?_⟩
            intro a ha hb
            have hai : a = iso3 := by simpa using hb
            subst hai
            rw [hst1codes, Bool.not_eq_true'] at hcont
            simp at hcont
            exact hcont ha
          · intro c hc
            rcases List.mem_append.mp hc with hc | hc
            · rw [hst1codes] at hc
              exact hcan c hc
            · rcases List.mem_singleton.mp hc with rfl
              exact hcan3
        · rw [hst1codes]
          exact ⟨hnd, hcan⟩
    | obj fields =>
      unfold visitJ
      dsimp only
      refine foldl_inv_mem
        (fun st : ExtractState => st.codes.Nodup ∧
          ∀ c ∈ st.codes, (countryCodeToInfo c).isSome = true)
        _ fields ?_ _ ?_
      · intro st2 p _ h
        dsimp only
        cases hp2 : p.2 with
        | arr xs => exact ih _ _ h.1 h.2
        | obj gs => exact ih _ _ h.1 h.2
        | str s => exact h
        | intVal n => exact h
        | floatVal q => exact h
        | boolVal b => exact h
        | nullVal => exact h
      · refine foldl_inv_mem
          (fun st : ExtractState => st.codes.Nodup ∧
            ∀ c ∈ st.codes, (countryCodeToInfo c).isSome = true)
          _ _ ?_ _ ⟨hnd, hcan⟩
        intro st2 key _ h
        dsimp only
        cases hl : lookupField fields key with
        | none => exact h
        | some v2 => exact ih _ _ h.1 h.2
    | arr xs =>
      unfold visitJ
      refine foldl_inv_mem
        (fun st : ExtractState => st.codes.Nodup ∧
          ∀ c ∈ st.codes, (countryCodeToInfo c).isSome = true)
        _ xs ?_ _ ⟨hnd, hcan⟩
      intro st2 v2 _ h
      exact ih _ _ h.1 h.2
    | intVal n => exact ⟨hnd, hcan⟩
    | floatVal q => exact ⟨hnd, hcan⟩
    | boolVal b => exact ⟨hnd, hcan⟩
    | nullVal => exact ⟨hnd, hcan⟩

/-- The extracted code list is duplicate-free and canonical. -/
theorem extract_countries_codes (fields : List (String × JVal)) :
    (extract_countries_from_match fields).2.Nodup ∧
      ∀ c ∈ (extract_countries_from_match fields).2,
        (countryCodeToInfo c).isSome = true := by
  unfold extract_countries_from_match
  dsimp only
  have hP := fun (l : List String) (st0 : ExtractState) (h0) =>
    foldl_inv_mem
      (fun st : ExtractState => st.codes.Nodup ∧
        ∀ c ∈ st.codes, (countryCodeToInfo c).isSome = true)
      (fun st key =>
        match lookupField fields key with
        | some v => visitJ 7 v st
        | none => st) l
      (by
        intro st2 key _ h
        dsimp only
        cases hl : lookupField fields key with
        | none => exact h
        | some v2 => exact visitJ_codes 7 _ _ h.1 h.2)
      st0 h0
  have h1 := hP ["countries", "countryCodes", "teams", "participants",
    "alliances", "blueAllianceTeams", "redAllianceTeams"]
    (⟨[], []⟩ : ExtractState) ⟨List.nodup_nil, by intro c hc; simp at hc⟩
  split
  · refine foldl_inv_mem
      (fun st : ExtractState => st.codes.Nodup ∧
        ∀ c ∈ st.codes, (countryCodeToInfo c).isSome = true)
      _ fields ?_ _ h1
    intro st2 p _ h
    dsimp only
    cases hp2 : p.2 with
    | arr xs => exact visitJ_codes 7 _ _ h.1 h.2
    | obj gs => exact visitJ_codes 7 _ _ h.1 h.2
    | str s => exact h
    | intVal n => exact h
    | floatVal q => exact h
    | boolVal b => exact h
    | nullVal => exact h
  · exact h1

/-- Along the build fold, the two skip diagnostics are appended exactly
once per record without a number, and once per numbered record without
codes. -/
theorem buildFold_diag_counts :
    ∀ (records : List (List (String × JVal)))
      (acc : List (Int × List String) × List Diag),
      ((records.foldl
        (fun acc fields =>
          match extract_match_number fields with
          | none => (acc.1, acc.2 ++ [Diag.scheduleMissingMatchNumber])
          | some n =>
            let countries := (extract_countries_from_match fields).2
            if countries.isEmpty then
              (acc.1, acc.2 ++ [Diag.noCountryEntries n])
            else (upsertMap acc.1 n countries, acc.2)) acc).2.filter
          fun d => match d with
            | Diag.scheduleMissingMatchNumber => true
            | _ => false).length =
        ((acc.2.filter fun d => match d with
          | Diag.scheduleMissingMatchNumber => true
          | _ => false).length +
        (records.filter fun f => (extract_match_number f).isNone).length) ∧
      ((records.foldl
        (fun acc fields =>
          match extract_match_number fields with
          | none => (acc.1, acc.2 ++ [Diag.scheduleMissingMatchNumber])
          | some n =>
            let countries := (extract_countries_from_match fields).2
            if countries.isEmpty then
              (acc.1, acc.2 ++ [Diag.noCountryEntries n])
            else (upsertMap acc.1 n countries, acc.2)) acc).2.filter
          fun d => match d with
            | Diag.noCountryEntries _ => true
            | _ => false).length =
        ((acc.2.filter fun d => match d with
          | Diag.noCountryEntries _ => true
          | _ => false).length +
        (records.filter fun f => (extract_match_number f).isSome &&
          (extract_countries_from_match f).2.isEmpty).length) := by
  intro records
  induction records with
  | nil =>
    intro acc
    constructor <;> simp
  | cons f rest ih =>
    intro acc
    rw [List.foldl_cons]
    cases hn : extract_match_number f with
    | none =>
      simp only [hn]
      obtain ⟨ih1, ih2⟩ :=
        ih (acc.1, acc.2 ++ [Diag.scheduleMissingMatchNumber])
      constructor
      · rw [ih1]
        dsimp only
        rw [filter_append_one, List.filter_cons]
        simp [hn]
        try omega
      · rw [ih2]
        dsimp only
        rw [filter_append_one, List.filter_cons]
        simp [hn]
        try omega
    | some n =>
      by_cases hemp : (extract_countries_from_match f).2.isEmpty = true
      · simp only [hn]
        rw [if_pos hemp]
        obtain ⟨ih1, ih2⟩ := ih (acc.1, acc.2 ++ [Diag.noCountryEntries n])
        constructor
        · rw [ih1]
          dsimp only
          rw [filter_append_one, List.filter_cons]
          simp [hn]
          try omega
        · rw [ih2]
          dsimp only
          rw [filter_append_one, List.filter_cons]
          simp [hn, hemp]
          try omega
      · simp only [hn]
        rw [if_neg hemp]
        have hemp2 : (extract_countries_from_match f).2.isEmpty = false := by
          revert hemp
          cases (extract_countries_from_match f).2.isEmpty <;> simp
        obtain ⟨ih1, ih2⟩ :=
          ih (upsertMap acc.1 n (extract_countries_from_match f).2, acc.2)
        constructor
        · rw [ih1]
          dsimp only
          rw [List.filter_cons]
          simp [hn]
        · rw [ih2]
          dsimp only
          rw [List.filter_cons]
          simp [hn, hemp2]

/-- Every binding produced by the build fold that is not inherited comes
from a record with that number and those (non-empty) codes. -/
theorem buildFold_mem :
    ∀ (records : List (List (String × JVal)))
      (acc : List (Int × List String) × List Diag)
      (p : Int × List String),
      p ∈ (records.foldl
        (fun acc fields =>
          match extract_match_number fields with
          | none => (acc.1, acc.2 ++ [Diag.scheduleMissingMatchNumber])
          | some n =>
            let countries := (extract_countries_from_match fields).2
            if countries.isEmpty then
              (acc.1, acc.2 ++ [Diag.noCountryEntries n])
            else (upsertMap acc.1 n countries, acc.2)) acc).1 →
      p ∈ acc.1 ∨ ∃ f ∈ records, extract_match_number f = some p.1 ∧
        (extract_countries_from_match f).2 = p.2 ∧ p.2 ≠ [] := by
  intro records
  induction records with
  | nil =>
    intro acc p hp
    exact Or.inl hp
  | cons f rest ih =>
    intro acc p hp
    rw [List.foldl_cons] at hp
    cases hn : extract_match_number f with
    | none =>
      simp only [hn] at hp
      rcases ih _ p hp with hmem | ⟨f2, hf2, h1, h2, h3⟩
      · exact Or.inl hmem
      · exact Or.inr ⟨f2, List.mem_cons_of_mem _ hf2, h1, h2, h3⟩
    | some n =>
      by_cases hemp : (extract_countries_from_match f).2.isEmpty = true
      · simp only [hn] at hp
        rw [if_pos hemp] at hp
        rcases ih _ p hp with hmem | ⟨f2, hf2, h1, h2, h3⟩
        · exact Or.inl hmem
        · exact Or.inr ⟨f2, List.mem_cons_of_mem _ hf2, h1, h2, h3⟩
      · simp only [hn] at hp
        rw [if_neg hemp] at hp
        have hemp2 : (extract_countries_from_match f).2.isEmpty = false := by
          revert hemp
          cases (extract_countries_from_match f).2.isEmpty <;> simp
        have hne : (extract_countries_from_match f).2 ≠ [] := by
          intro hnil
          rw [hnil] at hemp2
          simp at hemp2
        rcases ih _ p hp with hmem | ⟨f2, hf2, h1, h2, h3⟩
        · rcases mem_upsertMap _ _ _ _ hmem with heq | hmem2
          · subst heq
            exact Or.inr ⟨f, List.mem_cons_self _ _, by rw [hn], rfl, hne⟩
          · exact Or.inl hmem2
        · exact Or.inr ⟨f2, List.mem_cons_of_mem _ hf2, h1, h2, h3⟩

/-- A number keys the built map exactly when some processed record carries
that number together with at least one code. -/
theorem buildFold_keys :
    ∀ (records : List (List (String × JVal)))
      (acc : List (Int × List String) × List Diag) (n : Int),
      ((records.foldl
        (fun acc fields =>
          match extract_match_number fields with
          | none => (acc.1, acc.2 ++ [Diag.scheduleMissingMatchNumber])
          | some n =>
            let countries := (extract_countries_from_match fields).2
            if countries.isEmpty then
              (acc.1, acc.2 ++ [Diag.noCountryEntries n])
            else (upsertMap acc.1 n countries, acc.2)) acc).1.any fun p => p.1 = n) = true ↔
      ((acc.1.any fun p => p.1 = n) = true ∨ ∃ f ∈ records,
        extract_match_number f = some n ∧
        (extract_countries_from_match f).2 ≠ []) := by
  intro records
  induction records with
  | nil =>
    intro acc n
    constructor
    · exact fun h => Or.inl h
    · intro h
      rcases h with h | ⟨f, hf, _⟩
      · exact h
      · simp at hf
  | cons f rest ih =>
    intro acc n
    rw [List.foldl_cons]
    cases hn : extract_match_number f with
    | none =>
      simp only [hn]
      rw [ih]
      constructor
      · intro h
        rcases h with h | ⟨f2, hf2, h1, h2⟩
        · exact Or.inl h
        · exact Or.inr ⟨f2, List.mem_cons_of_mem _ hf2, h1, h2⟩
      · intro h
        rcases h with h | ⟨f2, hf2, h1, h2⟩
        · exact Or.inl h
        · rcases List.mem_cons.mp hf2 with rfl | hf2r
          · rw [hn] at h1
            cases h1
          · exact Or.inr ⟨f2, hf2r, h1, h2⟩
    | some n0 =>
      by_cases hemp : (extract_countries_from_match f).2.isEmpty = true
      · simp only [hn]
        rw [if_pos hemp, ih]
        constructor
        · intro h
          rcases h with h | ⟨f2, hf2, h1, h2⟩
          · exact Or.inl h
          · exact Or.inr ⟨f2, List.mem_cons_of_mem _ hf2, h1, h2⟩
        · intro h
          rcases h with h | ⟨f2, hf2, h1, h2⟩
          · exact Or.inl h
          · rcases List.mem_cons.mp hf2 with rfl | hf2r
            · exact absurd (List.isEmpty_iff.mp hemp) h2
            · exact Or.inr ⟨f2, hf2r, h1, h2⟩
      · simp only [hn]
        rw [if_neg hemp, ih]
        have hemp2 : (extract_countries_from_match f).2.isEmpty = false := by
          revert hemp
          cases (extract_countries_from_match f).2.isEmpty <;> simp
        have hne : (extract_countries_from_match f).2 ≠ [] := by
          intro hnil
          rw [hnil] at hemp2
          simp at hemp2
        constructor
        · intro h
          rcases h with h | ⟨f2, hf2, h1, h2⟩
          · rcases (any_upsertMap acc.1 n0
                (extract_countries_from_match f).2 n).mp h with h | rfl
            · exact Or.inl h
            · exact Or.inr ⟨f, List.mem_cons_self _ _, by rw [hn], hne⟩
          · exact Or.inr ⟨f2, List.mem_cons_of_mem _ hf2, h1, h2⟩
        · intro h
          rcases h with h | ⟨f2, hf2, h1, h2⟩
          · exact Or.inl ((any_upsertMap acc.1 n0
              (extract_countries_from_match f).2 n).mpr (Or.inl h))
          · rcases List.mem_cons.mp hf2 with rfl | hf2r
            · refine Or.inl ((any_upsertMap acc.1 n0
                (extract_countries_from_match f2).2 n).mpr (Or.inr ?_))
              rw [hn] at h1
              injection h1 with h1
              exact h1.symm
            · exact Or.inr ⟨f2, hf2r, h1, h2⟩

/-- **C9.**  The build of the match-country map appends one
missing-match-number diagnostic per record without an extractable number
and one no-country-entries diagnostic per numbered record without
normalizable tokens; a number keys the map exactly when some record
carries it with at least one code; and every binding holds a non-empty,
duplicate-free list of canonical alpha-3 codes. -/
theorem build_match_country_map_spec
    (matchRecords : List (List (String × JVal))) :
    ((build_match_country_map matchRecords).2.filter
      fun d => match d with
        | Diag.scheduleMissingMatchNumber => true
        | _ => false).length =
      (matchRecords.filter fun f => (extract_match_number f).isNone).length ∧
    ((build_match_country_map matchRecords).2.filter
      fun d => match d with
        | Diag.noCountryEntries _ => true
        | _ => false).length =
      (matchRecords.filter fun f => (extract_match_number f).isSome &&
        (extract_countries_from_match f).2.isEmpty).length ∧
    (∀ n : Int, ((build_match_country_map matchRecords).1.any
        fun p => p.1 = n) = true ↔
      ∃ f ∈ matchRecords, extract_match_number f = some n ∧
        (extract_countries_from_match f).2 ≠ []) ∧
    ∀ p ∈ (build_match_country_map matchRecords).1,
      p.2 ≠ [] ∧ p.2.Nodup ∧
        ∀ c ∈ p.2, (countryCodeToInfo c).isSome = true := by
  have hbuild : build_match_country_map matchRecords =
      matchRecords.foldl
        (fun acc fields =>
          match extract_match_number fields with
          | none => (acc.1, acc.2 ++ [Diag.scheduleMissingMatchNumber])
          | some n =>
            let countries := (extract_countries_from_match fields).2
            if countries.isEmpty then
              (acc.1, acc.2 ++ [Diag.noCountryEntries n])
            else (upsertMap acc.1 n countries, acc.2)) ([], []) := rfl
  refine ⟨?_, ?_, ?_, ?_⟩
  · rw [hbuild]
    have := (buildFold_diag_counts matchRecords ([], [])).1
    simpa using this
  · rw [hbuild]
    have := (buildFold_diag_counts matchRecords ([], [])).2
    simpa using this
  · intro n
    rw [hbuild]
    have := buildFold_keys matchRecords ([], []) n
    simpa using this
  · intro p hp
    rw [hbuild] at hp
    rcases buildFold_mem matchRecords ([], []) p hp with h | ⟨f, hf, h1, h2, h3⟩
    · simp at h
    · refine ⟨h3, ?_, ?_⟩
      · rw [← h2]
        exact (extract_countries_codes f).1
      · intro c hc
        rw [← h2] at hc
        exact (extract_countries_codes f).2 c hc

set_option maxRecDepth 100000 in
/-- Witness for C9: in the three-record schedule, match 1 keys the map
because its record resolves the USA codes. -/
theorem build_match_country_map_spec_witness :
    ((build_match_country_map matchRecords1).1.any
      fun p => p.1 = 1) = true :=
  ((build_match_country_map_spec matchRecords1).2.2.1 1).mpr
    ⟨rec1, List.mem_cons_self _ _, by decide, by decide⟩

/-- `getD` after `set`, in full generality. -/
theorem getD_set {α : Type} :
    ∀ (l : List α) (i j : Nat) (a d : α),
      (l.set i a).getD j d =
        if i = j ∧ i < l.length then a else l.getD j d := by
  intro l
  induction l with
  | nil =>
    intro i j a d
    simp
  | cons x xs ih =>
    intro i j a d
    cases i with
    | zero =>
      cases j with
      | zero => simp
      | succ j => simp
    | succ i =>
      cases j with
      | zero => simp
      | succ j =>
        show (xs.set i a).getD j d = _
        rw [ih i j]
        by_cases h : i = j ∧ i < xs.length
        · rw [if_pos h, if_pos (by simp; omega)]
        · rw [if_neg h, if_neg (by simp; omega), List.getD_cons_succ]

/-- A duplicate-free list of values drawn from `[lo, lo + n)` has at most
`n` elements. -/
theorem nodup_range_length (cs : List Nat) (lo n : Nat) (hnd : cs.Nodup)
    (hmem : ∀ x ∈ cs, lo ≤ x ∧ x < lo + n) : cs.length ≤ n := by
  have hsub : cs ⊆ List.range' lo n := by
    intro x hx
    rw [List.mem_range'_1]
    obtain ⟨h1, h2⟩ := hmem x hx
    exact ⟨h1, by omega⟩
  have := (List.subperm_of_subset hnd hsub).length_le
  simpa using this

/-- The flip loop rewires exactly the chain columns: each chain column
receives its successor value, the last receives the value at column `0`,
and every other column is untouched. -/
theorem flipLoop_spec (cols : Nat) :
    ∀ (cs : List Nat) (way : List Nat) (fuel : Nat) (p : List Nat),
      ChainOK way cols cs → cs.length ≤ fuel → p.length = cols + 1 →
      (flipLoop way fuel (cs.getD 0 0) p).length = p.length ∧
      (∀ x, x ∉ cs → (flipLoop way fuel (cs.getD 0 0) p).getD x 0 =
        p.getD x 0) ∧
      (∀ k, k + 1 < cs.length →
        (flipLoop way fuel (cs.getD 0 0) p).getD (cs.getD k 0) 0 =
          p.getD (cs.getD (k + 1) 0) 0) ∧
      (flipLoop way fuel (cs.getD 0 0) p).getD
          (cs.getD (cs.length - 1) 0) 0 = p.getD 0 0 := by
  intro cs
  induction cs with
  | nil =>
    intro way fuel p hch _ _
    exact absurd rfl hch.1
  | cons a cs ih =>
    intro way fuel p hch hfuel hp
    obtain ⟨_, hnd, hrange, hlink, hlast⟩ := hch
    obtain ⟨ha1, ha2⟩ := hrange a (List.mem_cons_self _ _)
    cases fuel with
    | zero => simp at hfuel
    | succ fuel =>
      cases cs with
      | nil =>
        have hw0 : way.getD a 0 = 0 := by simpa using hlast
        have hred : flipLoop way (fuel + 1)
            ((a :: ([] : List Nat)).getD 0 0) p = p.set a (p.getD 0 0) := by
          show flipLoop way (fuel + 1) a p = _
          unfold flipLoop
          dsimp only
          rw [hw0]
          simp
        rw [hred]
        refine ⟨by simp, ?_, ?_, ?_⟩
        · intro x hx
          rw [getD_set]
          rw [if_neg (by
            intro hh
            exact hx (by simp [hh.1]))]
        · intro k hk
          simp at hk
        · show (p.set a (p.getD 0 0)).getD a 0 = p.getD 0 0
          rw [getD_set, if_pos ⟨rfl, by omega⟩]
      | cons b cs2 =>
        have hwa : way.getD a 0 = b := by
          have := hlink 0 (by simp)
          simpa using this
        have hb0 : b ≠ 0 := by
          have := (hrange b
            (List.mem_cons_of_mem _ (List.mem_cons_self _ _))).1
          omega
        have hanotin : a ∉ b :: cs2 := (List.nodup_cons.mp hnd).1
        have hred : flipLoop way (fuel + 1) ((a :: b :: cs2).getD 0 0) p =
            flipLoop way fuel b (p.set a (p.getD b 0)) := by
          show flipLoop way (fuel + 1) a p = _
          rw [flipLoop]
          rw [hwa, if_neg hb0]
        have hchain2 : ChainOK way cols (b :: cs2) := by
          refine ⟨List.cons_ne_nil _ _, (List.nodup_cons.mp hnd).2,
            ?_, ?_, ?_⟩
          · intro x hx
            exact hrange x (List.mem_cons_of_mem _ hx)
          · intro k hk
            have h2 := hlink (k + 1)
              (by simp only [List.length_cons] at hk ⊢; omega)
            rw [List.getD_cons_succ, List.getD_cons_succ] at h2
            exact h2
          · have h2 := hlast
            have hlen : (a :: b :: cs2).length - 1 =
                ((b :: cs2).length - 1) + 1 := by
              simp
            rw [hlen, List.getD_cons_succ] at h2
            exact h2
        obtain ⟨ih1, ih2, ih3, ih4⟩ := ih way fuel (p.set a (p.getD b 0))
          hchain2 (by simp at hfuel ⊢; omega) (by simp [hp])
        simp only [List.getD_cons_zero] at ih1 ih2 ih3 ih4
        rw [hred]
        refine ⟨?_, ?_, ?_, ?_⟩
        · rw [ih1]
          simp
        · intro x hx
          have hxb : x ∉ b :: cs2 := fun h =>
            hx (List.mem_cons_of_mem _ h)
          have hxa : x ≠ a := fun h => hx (h ▸ List.mem_cons_self _ _)
          rw [ih2 x hxb, getD_set,
            if_neg (by intro hh; exact hxa hh.1.symm)]
        · intro k hk
          cases k with
          | zero =>
            show (flipLoop way fuel b
              (p.set a (p.getD b 0))).getD ((a :: b :: cs2).getD 0 0) 0 =
              p.getD ((a :: b :: cs2).getD 1 0) 0
            rw [List.getD_cons_zero, List.getD_cons_succ,
              List.getD_cons_zero, ih2 a hanotin, getD_set,
              if_pos ⟨rfl, by omega⟩]
          | succ k =>
            have hk2 : k + 1 < (b :: cs2).length := by
              simp at hk ⊢
              omega
            have h3 := ih3 k hk2
            have hmem2 : (b :: cs2).getD (k + 1) 0 ∈ b :: cs2 := by
              rw [List.getD_eq_getElem _ _ hk2]
              exact List.getElem_mem hk2
            rw [getD_set, if_neg (by
              intro hh
              exact hanotin (hh.1 ▸ hmem2))] at h3
            rw [List.getD_cons_succ, List.getD_cons_succ]
            exact h3
        · have h4 := ih4
          rw [getD_set, if_neg (by intro hh; omega)] at h4
          have hlen : (a :: b :: cs2).length - 1 =
              ((b :: cs2).length - 1) + 1 := by
            simp
          rw [hlen, List.getD_cons_succ]
          exact h4


/-- A duplicate-free list all of whose elements are equal has at most one
element. -/
theorem nodup_const_length (cs : List Nat) (v : Nat) (hnd : cs.Nodup)
    (hmem : ∀ x ∈ cs, x = v) : cs.length ≤ 1 := by
  cases cs with
  | nil => simp
  | cons a t =>
    cases t with
    | nil => simp
    | cons b t2 =>
      exfalso
      have ha := hmem a (List.mem_cons_self _ _)
      have hb := hmem b (List.mem_cons_of_mem _ (List.mem_cons_self _ _))
      subst ha
      rw [List.nodup_cons] at hnd
      exact hnd.1 (hb ▸ List.mem_cons_self _ _)

/-- Membership in a prefix, by position. -/
theorem mem_take_idx (l : List Nat) (k x : Nat) (hx : x ∈ l.take k) :
    ∃ i, i < k ∧ i < l.length ∧ l.getD i 0 = x := by
  obtain ⟨i, hi, hv⟩ := List.mem_iff_getElem.mp hx
  have hik : i < k := by
    have := hi
    rw [List.length_take] at this
    omega
  have hil : i < l.length := by
    have := hi
    rw [List.length_take] at this
    omega
  refine ⟨i, hik, hil, ?_⟩
  rw [List.getD_eq_getElem _ _ hil, ← hv, List.getElem_take]

/-- A position below the cut yields membership in the prefix. -/
theorem idx_mem_take (l : List Nat) (i k : Nat) (h1 : i < k)
    (h2 : i < l.length) : l.getD i 0 ∈ l.take k := by
  have hlen : i < (l.take k).length := by
    rw [List.length_take]
    omega
  have : (l.take k).getD i 0 = l.getD i 0 := by
    rw [List.getD_eq_getElem _ _ hlen, List.getD_eq_getElem _ _ h2]
    exact List.getElem_take _
  rw [← this, List.getD_eq_getElem _ _ hlen]
  exact List.getElem_mem hlen

/-- Prefix membership is monotone in the cut. -/
theorem mem_take_mono (l : List Nat) (x k1 k2 : Nat) (h : k1 ≤ k2)
    (hx : x ∈ l.take k1) : x ∈ l.take k2 := by
  obtain ⟨i, hik, hil, hv⟩ := mem_take_idx l k1 x hx
  rw [← hv]
  exact idx_mem_take l i k2 (by omega) hil

/-- Positions of a duplicate-free list are determined by their values. -/
theorem nodup_getD_inj (l : List Nat) (hnd : l.Nodup) (i j : Nat)
    (hi : i < l.length) (hj : j < l.length)
    (he : l.getD i 0 = l.getD j 0) : i = j := by
  rw [List.getD_eq_getElem _ _ hi, List.getD_eq_getElem _ _ hj] at he
  have := List.nodup_iff_injective_get.mp hnd
    (show l.get ⟨i, hi⟩ = l.get ⟨j, hj⟩ by simpa using he)
  simpa using congrArg Fin.val this

/-- From the position-wise `way` invariant, every marked nonzero column
heads a well-formed chain that terminates at column `0` and stays inside
the marked prefix. -/
theorem chain_build (way : List Nat) (cols : Nat) (order : List Nat)
    (hnd : order.Nodup) (hmem : ∀ x ∈ order, x ≤ cols)
    (hW : ∀ k, k < order.length → order.getD k 0 ≠ 0 →
      way.getD (order.getD k 0) 0 ∈ order.take k) :
    ∀ k, k < order.length → order.getD k 0 ≠ 0 →
      ∃ cs, cs.getD 0 0 = order.getD k 0 ∧ ChainOK way cols cs ∧
        ∀ x ∈ cs, x ∈ order.take (k + 1) := by
  intro k
  induction k using Nat.strong_induction_on with
  | _ k ih =>
    intro hk hkz
    have hordmem : order.getD k 0 ∈ order := by
      rw [List.getD_eq_getElem _ _ hk]
      exact List.getElem_mem hk
    by_cases hw0 : way.getD (order.getD k 0) 0 = 0
    · refine ⟨[order.getD k 0], rfl,
        ⟨List.cons_ne_nil _ _, List.nodup_singleton _, ?_, ?_, ?_⟩, ?_⟩
      · intro x hx
        rcases List.mem_singleton.mp hx with rfl
        exact ⟨by omega, hmem _ hordmem⟩
      · intro k2 hk2
        simp at hk2
      · simpa using hw0
      · intro x hx
        rcases List.mem_singleton.mp hx with rfl
        exact idx_mem_take order k (k + 1) (by omega) hk
    · have hw := hW k hk hkz
      obtain ⟨k1, hk1k, hk1len, hk1v⟩ := mem_take_idx _ _ _ hw
      have hk1z : order.getD k1 0 ≠ 0 := by
        rw [hk1v]
        exact hw0
      obtain ⟨cs1, hhead1, hchain1, hsub1⟩ := ih k1 hk1k hk1len hk1z
      obtain ⟨hne1, hnd1, hrange1, hlink1, hlast1⟩ := hchain1
      have hnotin : order.getD k 0 ∉ cs1 := by
        intro hmem2
        have h2 := hsub1 _ hmem2
        obtain ⟨i, hik, hil, hiv⟩ := mem_take_idx _ _ _ h2
        have : i = k := nodup_getD_inj order hnd i k hil hk hiv
        omega
      refine ⟨order.getD k 0 :: cs1, rfl,
        ⟨List.cons_ne_nil _ _, List.nodup_cons.mpr ⟨hnotin, hnd1⟩,
          ?_, ?_, ?_⟩, ?_⟩
      · intro x hx
        rcases List.mem_cons.mp hx with rfl | hx
        · exact ⟨by omega, hmem _ hordmem⟩
        · exact hrange1 x hx
      · intro k2 hk2
        cases k2 with
        | zero =>
          rw [List.getD_cons_zero, List.getD_cons_succ, hhead1, hk1v]
        | succ k2 =>
          rw [List.getD_cons_succ, List.getD_cons_succ]
          exact hlink1 k2 (by simpa using hk2)
      · have hpos : 0 < cs1.length := List.length_pos.mpr hne1
        have hlen : (order.getD k 0 :: cs1).length - 1 =
            (cs1.length - 1) + 1 := by
          simp only [List.length_cons]
          omega
        rw [hlen, List.getD_cons_succ]
        exact hlast1
      · intro x hx
        rcases List.mem_cons.mp hx with rfl | hx
        · exact idx_mem_take order k (k + 1) (by omega) hk
        · exact mem_take_mono order x (k1 + 1) (k + 1) (by omega)
            (hsub1 x hx)

/-- A duplicate-free marked list whose nonzero columns are all matched has
at most `i` elements when the matching covers only rows `1..i-1`. -/
theorem order_length_bound (order p : List Nat) (cols i : Nat)
    (hnd : order.Nodup) (hmem : ∀ x ∈ order, x ≤ cols)
    (hmatched : ∀ x ∈ order, x ≠ 0 → p.getD x 0 ≠ 0)
    (hbound : ∀ j, 1 ≤ j → j ≤ cols → p.getD j 0 ≤ i - 1)
    (hinj : ∀ j1 j2, 1 ≤ j1 → j1 ≤ cols → 1 ≤ j2 → j2 ≤ cols → j1 ≠ j2 →
      p.getD j1 0 ≠ 0 → p.getD j1 0 ≠ p.getD j2 0)
    (hi : 1 ≤ i) :
    order.length ≤ i := by
  have hrfact : ∀ x ∈ order.filter (fun x => x ≠ 0), 1 ≤ x ∧ x ≤ cols := by
    intro x hx
    obtain ⟨hxo, hxz⟩ := List.mem_filter.mp hx
    have : x ≠ 0 := by simpa using hxz
    exact ⟨by omega, hmem x hxo⟩
  have hmapnd : ((order.filter (fun x => x ≠ 0)).map
      (fun j => p.getD j 0)).Nodup := by
    refine List.Nodup.map_on ?_ (hnd.filter _)
    intro x hx y hy hxy
    by_contra hne
    obtain ⟨hx1, hx2⟩ := hrfact x hx
    obtain ⟨hy1, hy2⟩ := hrfact y hy
    have hpx : p.getD x 0 ≠ 0 :=
      hmatched x (List.mem_of_mem_filter hx)
        (by simpa using (List.mem_filter.mp hx).2)
    exact hinj x y hx1 hx2 hy1 hy2 hne hpx hxy
  have hmapmem : ∀ v ∈ (order.filter (fun x => x ≠ 0)).map
      (fun j => p.getD j 0), 1 ≤ v ∧ v < 1 + (i - 1) := by
    intro v hv
    obtain ⟨j, hj, rfl⟩ := List.mem_map.mp hv
    obtain ⟨hj1, hj2⟩ := hrfact j hj
    have hpj : p.getD j 0 ≠ 0 :=
      hmatched j (List.mem_of_mem_filter hj)
        (by simpa using (List.mem_filter.mp hj).2)
    have := hbound j hj1 hj2
    omega
  have h1 : (order.filter (fun x => x ≠ 0)).length ≤ i - 1 := by
    have := nodup_range_length _ 1 (i - 1) hmapnd hmapmem
    simpa using this
  have h2 : (order.filter (fun x => !(decide (x ≠ 0)))).length ≤ 1 := by
    refine nodup_const_length _ 0 (hnd.filter _) ?_
    intro x hx
    have := (List.mem_filter.mp hx).2
    simpa using this
  have h3 := (List.filter_append_perm
    (fun x => decide (x ≠ 0)) order).length_eq
  rw [List.length_append] at h3
  omega


/-- `range' 1` grown by one on the right. -/
theorem range1_concat (m : Nat) :
    List.range' 1 (m + 1) = List.range' 1 m ++ [m + 1] := by
  have h := @List.range'_concat 1 1 m
  have h2 : 1 + 1 * m = m + 1 := by omega
  rw [h2] at h
  exact h

/-- Structural facts about the column scan: lengths are preserved, `way`
is rewritten only at unmatched-scan columns and there to the current
pivot, and a finite `minv` entry always points `way` at the pivot or keeps
its previous finite pointer. -/
theorem innerScan_struct (c : Nat → Nat → ℚ) (cols : Nat) (s : InnerState)
    (hm : s.minv.length = cols + 1) (hw : s.way.length = cols + 1) :
    (innerScan c cols s).minv.length = cols + 1 ∧
    (innerScan c cols s).way.length = cols + 1 ∧
    (∀ j, (innerScan c cols s).way.getD j 0 = s.way.getD j 0 ∨
      (1 ≤ j ∧ j ≤ cols ∧ s.used.getD j false = false ∧
        (innerScan c cols s).way.getD j 0 = s.j0)) ∧
    (∀ j, (innerScan c cols s).minv.getD j none ≠ none →
      ((innerScan c cols s).way.getD j 0 = s.j0 ∨
       ((innerScan c cols s).way.getD j 0 = s.way.getD j 0 ∧
         s.minv.getD j none ≠ none))) := by
  unfold innerScan
  refine foldl_inv_mem
    (fun acc : ScanResult => acc.minv.length = cols + 1 ∧
      acc.way.length = cols + 1 ∧
      (∀ j, acc.way.getD j 0 = s.way.getD j 0 ∨
        (1 ≤ j ∧ j ≤ cols ∧ s.used.getD j false = false ∧
          acc.way.getD j 0 = s.j0)) ∧
      (∀ j, acc.minv.getD j none ≠ none →
        (acc.way.getD j 0 = s.j0 ∨
         (acc.way.getD j 0 = s.way.getD j 0 ∧ s.minv.getD j none ≠ none))))
    _ _ ?_ _ ⟨hm, hw, fun j => Or.inl rfl, fun j h => Or.inr ⟨rfl, h⟩⟩
  intro acc j hj h
  obtain ⟨h1, h2, h3, h4⟩ := h
  obtain ⟨hj1, hj2⟩ := List.mem_range'_1.mp hj
  have hjcols : j ≤ cols := by omega
  dsimp only
  by_cases hused : s.used.getD j false = true
  · rw [if_pos hused]
    exact ⟨h1, h2, h3, h4⟩
  · rw [if_neg hused]
    have husedf : s.used.getD j false = false := by
      revert hused
      cases s.used.getD j false <;> simp
    by_cases hlt : ltInf
        (c (s.p.getD s.j0 0 - 1) (j - 1) - s.u.getD (s.p.getD s.j0 0) 0 -
          s.v.getD j 0) (acc.minv.getD j none) = true
    · rw [if_pos hlt]
      have hA1 : (acc.minv.set j (some
          (c (s.p.getD s.j0 0 - 1) (j - 1) - s.u.getD (s.p.getD s.j0 0) 0 -
            s.v.getD j 0))).length = cols + 1 := by
        rw [List.length_set]
        exact h1
      have hA2 : (acc.way.set j s.j0).length = cols + 1 := by
        rw [List.length_set]
        exact h2
      have hA3 : ∀ j2, (acc.way.set j s.j0).getD j2 0 = s.way.getD j2 0 ∨
          (1 ≤ j2 ∧ j2 ≤ cols ∧ s.used.getD j2 false = false ∧
            (acc.way.set j s.j0).getD j2 0 = s.j0) := by
        intro j2
        rw [getD_set]
        by_cases hjj : j = j2 ∧ j < acc.way.length
        · rw [if_pos hjj]
          exact Or.inr ⟨by omega, by omega, hjj.1 ▸ husedf, rfl⟩
        · rw [if_neg hjj]
          exact h3 j2
      have hA4 : ∀ j2, ((acc.minv.set j (some
          (c (s.p.getD s.j0 0 - 1) (j - 1) - s.u.getD (s.p.getD s.j0 0) 0 -
            s.v.getD j 0))).getD j2 none ≠ none) →
          ((acc.way.set j s.j0).getD j2 0 = s.j0 ∨
           ((acc.way.set j s.j0).getD j2 0 = s.way.getD j2 0 ∧
             s.minv.getD j2 none ≠ none)) := by
        intro j2 hsome
        rw [getD_set]
        by_cases hjj : j = j2 ∧ j < acc.way.length
        · rw [if_pos hjj]
          exact Or.inl rfl
        · rw [if_neg hjj]
          refine h4 j2 ?_
          rw [getD_set, if_neg (by rw [h1, ← h2]; exact hjj)] at hsome
          exact hsome
      by_cases hopt : optLt ((acc.minv.set j (some
          (c (s.p.getD s.j0 0 - 1) (j - 1) - s.u.getD (s.p.getD s.j0 0) 0 -
            s.v.getD j 0))).getD j none) acc.delta = true
      · rw [if_pos hopt]
        exact ⟨hA1, hA2, hA3, hA4⟩
      · rw [if_neg hopt]
        exact ⟨hA1, hA2, hA3, hA4⟩
    · rw [if_neg hlt]
      by_cases hopt : optLt (acc.minv.getD j none) acc.delta = true
      · rw [if_pos hopt]
        exact ⟨h1, h2, h3, h4⟩
      · rw [if_neg hopt]
        exact ⟨h1, h2, h3, h4⟩




theorem innerScan_eq_fold (c : Nat → Nat → ℚ) (cols : Nat)
    (s : InnerState) :
    innerScan c cols s =
      (List.range' 1 cols).foldl (scanStep c s)
        ⟨s.minv, s.way, none, 0⟩ := rfl

/-- Scan outcome over a processed prefix: lengths are kept, every unused
processed column has a finite `minv` entry, a `none` delta means every
processed column was used, and a finite delta designates an unused
processed column with a finite `minv` entry. -/
theorem scan_fold_min (c : Nat → Nat → ℚ) (cols : Nat) (s : InnerState)
    (hm : s.minv.length = cols + 1) :
    ∀ m, m ≤ cols →
      ((List.range' 1 m).foldl (scanStep c s)
          ⟨s.minv, s.way, none, 0⟩).minv.length = cols + 1 ∧
      (∀ j, 1 ≤ j → j ≤ m → s.used.getD j false = false →
        ((List.range' 1 m).foldl (scanStep c s)
          ⟨s.minv, s.way, none, 0⟩).minv.getD j none ≠ none) ∧
      (((List.range' 1 m).foldl (scanStep c s)
          ⟨s.minv, s.way, none, 0⟩).delta = none →
        ∀ j, 1 ≤ j → j ≤ m → s.used.getD j false = true) ∧
      (∀ d, ((List.range' 1 m).foldl (scanStep c s)
          ⟨s.minv, s.way, none, 0⟩).delta = some d →
        1 ≤ ((List.range' 1 m).foldl (scanStep c s)
          ⟨s.minv, s.way, none, 0⟩).j1 ∧
        ((List.range' 1 m).foldl (scanStep c s)
          ⟨s.minv, s.way, none, 0⟩).j1 ≤ m ∧
        s.used.getD
          (((List.range' 1 m).foldl (scanStep c s)
            ⟨s.minv, s.way, none, 0⟩).j1) false = false ∧
        ((List.range' 1 m).foldl (scanStep c s)
            ⟨s.minv, s.way, none, 0⟩).minv.getD
          (((List.range' 1 m).foldl (scanStep c s)
            ⟨s.minv, s.way, none, 0⟩).j1) none ≠ none) := by
  intro m
  induction m with
  | zero =>
    intro _
    refine ⟨hm, ?_, ?_, ?_⟩
    · intro j h1 h2
      omega
    · intro _ j h1 h2
      omega
    · intro d hd
      cases hd
  | succ m ih =>
    intro hmc
    obtain ⟨ih1, ih2, ih3, ih4⟩ := ih (by omega)
    rw [range1_concat, List.foldl_append, List.foldl_cons, List.foldl_nil]
    set acc := (List.range' 1 m).foldl (scanStep c s)
      (⟨s.minv, s.way, none, 0⟩ : ScanResult) with hacc
    unfold scanStep
    by_cases hused : s.used.getD (m + 1) false = true
    · rw [if_pos hused]
      refine ⟨ih1, ?_, ?_, ?_⟩
      · intro j h1 h2 h3
        rcases Nat.lt_succ_iff_lt_or_eq.mp (by omega : j < m + 2) with h | h
        · exact ih2 j h1 (by omega) h3
        · rw [h] at h3
          rw [h3] at hused
          cases hused
      · intro hd j h1 h2
        rcases Nat.lt_succ_iff_lt_or_eq.mp (by omega : j < m + 2) with h | h
        · exact ih3 hd j h1 (by omega)
        · rw [h]
          exact hused
      · intro d hd
        obtain ⟨g1, g2, g3, g4⟩ := ih4 d hd
        exact ⟨g1, by omega, g3, g4⟩
    · rw [if_neg hused]
      have husedf : s.used.getD (m + 1) false = false := by
        revert hused
        cases s.used.getD (m + 1) false <;> simp
      dsimp only
      set cur := c (s.p.getD s.j0 0 - 1) (m + 1 - 1) -
        s.u.getD (s.p.getD s.j0 0) 0 - s.v.getD (m + 1) 0 with hcur
      by_cases hlt : ltInf cur (acc.minv.getD (m + 1) none) = true
      · rw [if_pos hlt]
        dsimp only
        have hsome1 : (acc.minv.set (m + 1) (some cur)).getD (m + 1) none
            = some cur := by
          rw [getD_set, if_pos ⟨rfl, by rw [ih1]; omega⟩]
        have hmemo : ∀ j, 1 ≤ j → j ≤ m + 1 →
            s.used.getD j false = false →
            (acc.minv.set (m + 1) (some cur)).getD j none ≠ none := by
          intro j h1 h2 h3
          rcases Nat.lt_succ_iff_lt_or_eq.mp (by omega : j < m + 2) with
            h | h
          · rw [getD_set, if_neg (fun hh => by omega)]
            exact ih2 j h1 (by omega) h3
          · rw [h, hsome1]
            simp
        have hlen2 : (acc.minv.set (m + 1) (some cur)).length = cols + 1 :=
          by
          rw [List.length_set]
          exact ih1
        by_cases hopt : optLt ((acc.minv.set (m + 1) (some cur)).getD
            (m + 1) none) acc.delta = true
        · rw [if_pos hopt]
          refine ⟨hlen2, hmemo, ?_, ?_⟩
          · intro hd
            exfalso
            have hd2 : (acc.minv.set (m + 1) (some cur)).getD (m + 1) none
                = none := hd
            rw [hsome1] at hd2
            cases hd2
          · intro d hd
            refine ⟨?_, ?_, ?_, ?_⟩
            · show 1 ≤ m + 1
              omega
            · show m + 1 ≤ m + 1
              omega
            · show s.used.getD (m + 1) false = false
              exact husedf
            · show (acc.minv.set (m + 1) (some cur)).getD (m + 1) none ≠
                none
              rw [hsome1]
              simp
        · rw [if_neg hopt]
          refine ⟨hlen2, hmemo, ?_, ?_⟩
          · intro hd
            exfalso
            have hd2 : acc.delta = none := hd
            rw [hd2, hsome1] at hopt
            exact hopt rfl
          · intro d hd
            have hd2 : acc.delta = some d := hd
            obtain ⟨g1, g2, g3, g4⟩ := ih4 d hd2
            refine ⟨g1, ?_, g3, ?_⟩
            · show acc.j1 ≤ m + 1
              omega
            · show (acc.minv.set (m + 1) (some cur)).getD acc.j1 none ≠
                none
              rw [getD_set, if_neg (fun hh => by omega)]
              exact g4
      · rw [if_neg hlt]
        dsimp only
        have hsome : acc.minv.getD (m + 1) none ≠ none := by
          intro hnone
          rw [hnone] at hlt
          exact hlt rfl
        have hmemo : ∀ j, 1 ≤ j → j ≤ m + 1 →
            s.used.getD j false = false →
            acc.minv.getD j none ≠ none := by
          intro j h1 h2 h3
          rcases Nat.lt_succ_iff_lt_or_eq.mp (by omega : j < m + 2) with
            h | h
          · exact ih2 j h1 (by omega) h3
          · rw [h]
            exact hsome
        by_cases hopt : optLt (acc.minv.getD (m + 1) none) acc.delta =
            true
        · rw [if_pos hopt]
          refine ⟨ih1, hmemo, ?_, ?_⟩
          · intro hd
            exact absurd (hd : acc.minv.getD (m + 1) none = none) hsome
          · intro d hd
            refine ⟨?_, ?_, husedf, hsome⟩
            · show 1 ≤ m + 1
              omega
            · show m + 1 ≤ m + 1
              omega
        · rw [if_neg hopt]
          refine ⟨ih1, hmemo, ?_, ?_⟩
          · intro hd
            exfalso
            have hd2 : acc.delta = none := hd
            rw [hd2] at hopt
            cases hmj : acc.minv.getD (m + 1) none with
            | none => exact hsome hmj
            | some v =>
              rw [hmj] at hopt
              exact hopt rfl
          · intro d hd
            have hd2 : acc.delta = some d := hd
            obtain ⟨g1, g2, g3, g4⟩ := ih4 d hd2
            refine ⟨g1, ?_, g3, g4⟩
            show acc.j1 ≤ m + 1
            omega

/-- Scan outcome at the full width, stated for `innerScan`. -/
theorem innerScan_min (c : Nat → Nat → ℚ) (cols : Nat) (s : InnerState)
    (hm : s.minv.length = cols + 1) :
    ((innerScan c cols s).delta = none →
      ∀ j, 1 ≤ j → j ≤ cols → s.used.getD j false = true) ∧
    (∀ d, (innerScan c cols s).delta = some d →
      1 ≤ (innerScan c cols s).j1 ∧ (innerScan c cols s).j1 ≤ cols ∧
      s.used.getD (innerScan c cols s).j1 false = false ∧
      (innerScan c cols s).minv.getD (innerScan c cols s).j1 none ≠
        none) := by
  have h := scan_fold_min c cols s hm cols le_rfl
  rw [innerScan_eq_fold]
  exact ⟨h.2.2.1, h.2.2.2⟩


/-- Membership gives a position. -/
theorem mem_idx (l : List Nat) (x : Nat) (hx : x ∈ l) :
    ∃ i, i < l.length ∧ l.getD i 0 = x := by
  obtain ⟨i, hi, hv⟩ := List.mem_iff_getElem.mp hx
  exact ⟨i, hi, by rw [List.getD_eq_getElem _ _ hi]; exact hv⟩

/-- The potential update keeps the length of `minv` and its pattern of
finite entries. -/
theorem applyDelta_spec (d : ℚ) (cols : Nat) (s : InnerState)
    (hm : s.minv.length = cols + 1) :
    (applyDelta d cols s).2.2.length = cols + 1 ∧
    ∀ j, ((applyDelta d cols s).2.2.getD j none = none ↔
      s.minv.getD j none = none) := by
  unfold applyDelta
  refine foldl_inv_mem
    (fun acc : List ℚ × List ℚ × List (Option ℚ) =>
      acc.2.2.length = cols + 1 ∧
      ∀ j, (acc.2.2.getD j none = none ↔ s.minv.getD j none = none))
    _ _ ?_ _ ⟨hm, fun j => Iff.rfl⟩
  intro acc j hj h
  dsimp only
  by_cases hused : s.used.getD j false = true
  · rw [if_pos hused]
    exact h
  · rw [if_neg hused]
    refine ⟨by rw [List.length_set]; exact h.1, ?_⟩
    intro j2
    rw [getD_set]
    by_cases hjj : j = j2 ∧ j < acc.2.2.length
    · rw [if_pos hjj, ← hjj.1]
      constructor
      · intro hmap
        refine (h.2 j).mp ?_
        cases hmj : acc.2.2.getD j none with
        | none => rfl
        | some v =>
          rw [hmj] at hmap
          cases hmap
      · intro hs
        rw [(h.2 j).mpr hs]
        rfl
    · rw [if_neg hjj]
      exact h.2 j2


/-- A fresh column whose `way` pointer enters a well-founded marked list
heads a chain. -/
theorem chain_from_outside (way : List Nat) (cols : Nat)
    (order : List Nat) (hnd : order.Nodup)
    (hom : ∀ x ∈ order, x ≤ cols)
    (hW : ∀ k, k < order.length → order.getD k 0 ≠ 0 →
      way.getD (order.getD k 0) 0 ∈ order.take k)
    (x : Nat) (hx1 : 1 ≤ x) (hxc : x ≤ cols) (hxo : x ∉ order)
    (hwx : way.getD x 0 ∈ order) :
    ∃ cs, ChainOK way cols cs ∧ cs.getD 0 0 = x ∧ cs.length ≤ cols := by
  by_cases hw0 : way.getD x 0 = 0
  · refine ⟨[x], ⟨List.cons_ne_nil _ _, List.nodup_singleton _, ?_, ?_,
      by simpa using hw0⟩, rfl, by simp; omega⟩
    · intro y hy
      rcases List.mem_singleton.mp hy with rfl
      exact ⟨hx1, hxc⟩
    · intro k hk
      simp at hk
  · obtain ⟨k1, hk1len, hk1v⟩ := mem_idx order _ hwx
    obtain ⟨cs1, hhead1, hchain1, hsub1⟩ :=
      chain_build way cols order hnd hom hW k1 hk1len
        (by rw [hk1v]; exact hw0)
    obtain ⟨hne1, hnd1, hrange1, hlink1, hlast1⟩ := hchain1
    have hnotin : x ∉ cs1 := by
      intro hmem
      exact hxo (List.take_subset _ _ (hsub1 x hmem))
    have hchain : ChainOK way cols (x :: cs1) := by
      refine ⟨List.cons_ne_nil _ _, List.nodup_cons.mpr ⟨hnotin, hnd1⟩,
        ?_, ?_, ?_⟩
      · intro y hy
        rcases List.mem_cons.mp hy with rfl | hy
        · exact ⟨hx1, hxc⟩
        · exact hrange1 y hy
      · intro k hk
        cases k with
        | zero =>
          rw [List.getD_cons_zero, List.getD_cons_succ, hhead1, hk1v]
        | succ k =>
          rw [List.getD_cons_succ, List.getD_cons_succ]
          exact hlink1 k (by simpa using hk)
      · have hpos : 0 < cs1.length := List.length_pos.mpr hne1
        have hlen : (x :: cs1).length - 1 = (cs1.length - 1) + 1 := by
          simp only [List.length_cons]
          omega
        rw [hlen, List.getD_cons_succ]
        exact hlast1
    refine ⟨x :: cs1, hchain, rfl, ?_⟩
    refine nodup_range_length _ 1 cols hchain.2.1 ?_
    intro y hy
    obtain ⟨g1, g2⟩ := hchain.2.2.1 y hy
    exact ⟨g1, by omega⟩


/-- Helper: `getD` on the left part of an append. -/
theorem getD_append_left (l1 l2 : List Nat) (k : Nat)
    (hk : k < l1.length) : (l1 ++ l2).getD k 0 = l1.getD k 0 := by
  rw [List.getD_eq_getElem _ _ (by rw [List.length_append]; omega),
    List.getD_eq_getElem _ _ hk]
  exact List.getElem_append_left hk

/-- Helper: `getD` at the appended singleton. -/
theorem getD_append_last (l1 : List Nat) (x : Nat) :
    (l1 ++ [x]).getD l1.length 0 = x := by
  rw [List.getD_eq_getElem _ _ (by simp)]
  rw [List.getElem_append_right (by omega)]
  simp

/-- The augmenting loop, on a state whose marked columns form a
well-founded `way` forest over matched columns, terminates at a free real
column reachable by a chain, without touching `p`. -/
theorem innerLoop_spec (c : Nat → Nat → ℚ) (cols i : Nat) (hi : 1 ≤ i)
    (hic : i ≤ cols) :
    ∀ (fuel : Nat) (s : InnerState) (order : List Nat),
      s.used.length = cols + 1 → s.way.length = cols + 1 →
      s.minv.length = cols + 1 →
      (∀ j, 1 ≤ j → j ≤ cols → s.p.getD j 0 ≤ i - 1) →
      (∀ j1 j2, 1 ≤ j1 → j1 ≤ cols → 1 ≤ j2 → j2 ≤ cols → j1 ≠ j2 →
        s.p.getD j1 0 ≠ 0 → s.p.getD j1 0 ≠ s.p.getD j2 0) →
      order.Nodup →
      (∀ x ∈ order, x ≤ cols) →
      (∀ j, j ≤ cols → (s.used.getD j false = true ↔ j ∈ order)) →
      (∀ k, k < order.length → order.getD k 0 ≠ 0 →
        s.way.getD (order.getD k 0) 0 ∈ order.take k) →
      (∀ j, 1 ≤ j → j ≤ cols → j ∉ order → s.minv.getD j none ≠ none →
        s.way.getD j 0 ∈ order) →
      (∀ x ∈ order, x ≠ 0 → s.p.getD x 0 ≠ 0) →
      ((order = [] ∧ s.j0 = 0) ∨
        (order ≠ [] ∧ order.getD 0 0 = 0 ∧ 1 ≤ s.j0 ∧ s.j0 ≤ cols ∧
          s.j0 ∉ order ∧ s.p.getD s.j0 0 ≠ 0 ∧
          s.minv.getD s.j0 none ≠ none)) →
      i + 2 ≤ order.length + fuel →
      ∃ cs, (innerLoop c cols fuel s).p = s.p ∧
        ChainOK (innerLoop c cols fuel s).way cols cs ∧
        cs.getD 0 0 = (innerLoop c cols fuel s).j0 ∧
        s.p.getD (innerLoop c cols fuel s).j0 0 = 0 ∧
        1 ≤ (innerLoop c cols fuel s).j0 ∧
        (innerLoop c cols fuel s).j0 ≤ cols ∧ cs.length ≤ cols := by
  intro fuel
  induction fuel with
  | zero =>
    intro s order hul hwl hml hpb hpinj hnd hom hui hW1 hW2 hM1 hj0d hbud
    exfalso
    have hle := order_length_bound order s.p cols i hnd hom hM1 hpb
      hpinj hi
    omega
  | succ fuel ih =>
    intro s order hul hwl hml hpb hpinj hnd hom hui hW1 hW2 hM1 hj0d hbud
    have hj0cols : s.j0 ≤ cols := by
      rcases hj0d with ⟨_, h⟩ | ⟨_, _, _, h, _⟩
      · omega
      · exact h
    have hj0notin : s.j0 ∉ order := by
      rcases hj0d with ⟨ho, _⟩ | ⟨_, _, _, _, h, _⟩
      · rw [ho]
        exact List.not_mem_nil _
      · exact h
    have hnd1 : (order ++ [s.j0]).Nodup := by
      rw [List.nodup_append]
      exact ⟨hnd, List.nodup_singleton _, by
        intro a ha hb
        rcases List.mem_singleton.mp hb with rfl
        exact hj0notin ha⟩
    have hom1 : ∀ x ∈ order ++ [s.j0], x ≤ cols := by
      intro x hx
      rcases List.mem_append.mp hx with hx | hx
      · exact hom x hx
      · rcases List.mem_singleton.mp hx with rfl
        exact hj0cols
    have hM1a : ∀ x ∈ order ++ [s.j0], x ≠ 0 → s.p.getD x 0 ≠ 0 := by
      intro x hx hxz
      rcases List.mem_append.mp hx with hx | hx
      · exact hM1 x hx hxz
      · rcases List.mem_singleton.mp hx with rfl
        rcases hj0d with ⟨_, h⟩ | ⟨_, _, _, _, _, h, _⟩
        · exact absurd h hxz
        · exact h
    have hui1m : ∀ j, j ≤ cols →
        ({ s with used := s.used.set s.j0 true }.used.getD j false = true ↔ j ∈ order ++ [s.j0]) := by
      intro j hj
      show ((s.used.set s.j0 true).getD j false = true ↔ _)
      rw [getD_set]
      by_cases hjj : s.j0 = j ∧ s.j0 < s.used.length
      · rw [if_pos hjj]
        simp only [true_iff]
        exact List.mem_append_right _ (hjj.1 ▸ List.mem_singleton_self _)
      · rw [if_neg hjj]
        have hjne : j ≠ s.j0 := by
          intro h
          exact hjj ⟨h.symm, by omega⟩
        rw [hui j hj]
        constructor
        · intro h
          exact List.mem_append_left _ h
        · intro h
          rcases List.mem_append.mp h with h | h
          · exact h
          · exact absurd (List.mem_singleton.mp h) hjne
    have h0mem1 : (0 : Nat) ∈ order ++ [s.j0] := by
      rcases hj0d with ⟨_, h⟩ | ⟨hne, h0, _⟩
      · exact List.mem_append_right _ (h ▸ List.mem_singleton_self _)
      · refine List.mem_append_left _ ?_
        rw [← h0]
        have : 0 < order.length := List.length_pos.mpr hne
        rw [List.getD_eq_getElem _ _ this]
        exact List.getElem_mem this
    have h0g : (order ++ [s.j0]).getD 0 0 = 0 := by
      rcases hj0d with ⟨ho, h⟩ | ⟨hne, h0, _⟩
      · rw [ho]
        simpa using h
      · rw [getD_append_left _ _ _ (List.length_pos.mpr hne)]
        exact h0
    cases hdelta : (innerScan c cols { s with used := s.used.set s.j0 true }).delta with
    | none =>
      exfalso
      have hallused := (innerScan_min c cols { s with used := s.used.set s.j0 true } hml).1 hdelta
      have hsub2 : ∀ j, j ≤ cols → j ∈ order ++ [s.j0] := by
        intro j hj
        by_cases hj0 : j = 0
        · rw [hj0]
          exact h0mem1
        · have hused := hallused j (by omega) hj
          have h2 := hused
          show j ∈ order ++ [s.j0]
          have h3 : (s.used.set s.j0 true).getD j false = true := h2
          rw [getD_set] at h3
          by_cases hjj : s.j0 = j ∧ s.j0 < s.used.length
          · exact List.mem_append_right _
              (hjj.1 ▸ List.mem_singleton_self _)
          · rw [if_neg hjj] at h3
            exact List.mem_append_left _ ((hui j hj).mp h3)
      have hge : cols + 1 ≤ (order ++ [s.j0]).length := by
        have hsubr : List.range (cols + 1) ⊆ order ++ [s.j0] := by
          intro y hy
          exact hsub2 y (by
            have := List.mem_range.mp hy
            omega)
        have := (List.subperm_of_subset (List.nodup_range _)
          hsubr).length_le
        simpa using this
      have hle := order_length_bound (order ++ [s.j0]) s.p cols i hnd1
        hom1 hM1a hpb hpinj hi
      omega
    | some d =>
      obtain ⟨sc1, sc2, sc3, sc4⟩ := innerScan_struct c cols { s with used := s.used.set s.j0 true } hml hwl
      obtain ⟨hj11, hj1c, hj1unused, hj1minv⟩ :=
        (innerScan_min c cols { s with used := s.used.set s.j0 true } hml).2 d hdelta
      have hj1ne0 : s.j0 ≠ (innerScan c cols { s with used := s.used.set s.j0 true }).j1 := by
        intro h
        have h2 : (s.used.set s.j0 true).getD
            (innerScan c cols { s with used := s.used.set s.j0 true }).j1 false = false := hj1unused
        rw [getD_set, if_pos ⟨h, by omega⟩] at h2
        cases h2
      have hj1notino : (innerScan c cols { s with used := s.used.set s.j0 true }).j1 ∉ order := by
        intro hmem
        have h2 : (s.used.set s.j0 true).getD
            (innerScan c cols { s with used := s.used.set s.j0 true }).j1 false = false := hj1unused
        rw [getD_set, if_neg (fun hh => hj1ne0 hh.1)] at h2
        rw [(hui _ hj1c).mpr hmem] at h2
        cases h2
      have hj1notin1 : (innerScan c cols { s with used := s.used.set s.j0 true }).j1 ∉ order ++ [s.j0] := by
        intro hmem
        rcases List.mem_append.mp hmem with h | h
        · exact hj1notino h
        · exact hj1ne0 (List.mem_singleton.mp h).symm
      have hwayj1 : (innerScan c cols { s with used := s.used.set s.j0 true }).way.getD
          (innerScan c cols { s with used := s.used.set s.j0 true }).j1 0 ∈ order ++ [s.j0] := by
        rcases sc4 (innerScan c cols { s with used := s.used.set s.j0 true }).j1 hj1minv with h | ⟨h, hsm⟩
        · rw [h]
          exact List.mem_append_right _ (List.mem_singleton_self _)
        · rw [h]
          exact List.mem_append_left _
            (hW2 _ hj11 hj1c hj1notino hsm)
      have hW1new : ∀ k, k < (order ++ [s.j0]).length →
          (order ++ [s.j0]).getD k 0 ≠ 0 →
          (innerScan c cols { s with used := s.used.set s.j0 true }).way.getD
            ((order ++ [s.j0]).getD k 0) 0 ∈ (order ++ [s.j0]).take k := by
        intro k hk hkz
        have hxmem : (order ++ [s.j0]).getD k 0 ∈ order ++ [s.j0] := by
          rw [List.getD_eq_getElem _ _ hk]
          exact List.getElem_mem hk
        have hxcols := hom1 _ hxmem
        have hxused : { s with used := s.used.set s.j0 true }.used.getD ((order ++ [s.j0]).getD k 0) false
            = true := (hui1m _ hxcols).mpr hxmem
        rcases sc3 ((order ++ [s.j0]).getD k 0) with h | ⟨_, _, hfalse, _⟩
        · rw [h]
          show s.way.getD ((order ++ [s.j0]).getD k 0) 0 ∈ _
          rcases Nat.lt_succ_iff_lt_or_eq.mp (by
              rw [List.length_append] at hk
              simpa using hk : k < order.length + 1) with hko | hko
          · rw [getD_append_left _ _ _ hko] at hkz ⊢
            rw [List.take_append_of_le_length (by omega)]
            exact hW1 k hko hkz
          · rw [hko] at hkz
            rw [getD_append_last] at hkz
            rw [hko, getD_append_last, List.take_left]
            rcases hj0d with ⟨_, h0⟩ | ⟨_, _, _, _, _, _, hminv⟩
            · exact absurd h0 hkz
            · exact hW2 s.j0 (by omega) hj0cols hj0notin hminv
        · rw [hxused] at hfalse
          cases hfalse
      rw [innerLoop]
      dsimp only
      rw [hdelta]
      dsimp only
      by_cases hfree : s.p.getD (innerScan c cols { s with used := s.used.set s.j0 true }).j1 0 = 0
      · rw [if_pos hfree]
        obtain ⟨cs, hcs1, hcs2, hcs3⟩ := chain_from_outside
          (innerScan c cols { s with used := s.used.set s.j0 true }).way cols (order ++ [s.j0]) hnd1 hom1
          hW1new (innerScan c cols { s with used := s.used.set s.j0 true }).j1 hj11 hj1c hj1notin1 hwayj1
        exact ⟨cs, rfl, hcs1, hcs2, hfree, hj11, hj1c, hcs3⟩
      · rw [if_neg hfree]
        refine ih _ (order ++ [s.j0]) ?_ ?_ ?_ ?_ ?_ hnd1 hom1 ?_ ?_ ?_
          ?_ ?_ ?_
        · show (s.used.set s.j0 true).length = cols + 1
          rw [List.length_set]
          exact hul
        · exact sc2
        · exact (applyDelta_spec d cols _ sc1).1
        · exact hpb
        · exact hpinj
        · exact hui1m
        · exact hW1new
        · intro j hj1 hjc hjno hjm
          have hscanm : (innerScan c cols { s with used := s.used.set s.j0 true }).minv.getD j none ≠
              none := by
            intro hm2
            exact hjm (((applyDelta_spec d cols _ sc1).2 j).mpr hm2)
          rcases sc4 j hscanm with h | ⟨h, hsm⟩
          · rw [h]
            exact List.mem_append_right _ (List.mem_singleton_self _)
          · rw [h]
            refine List.mem_append_left _ (hW2 j hj1 hjc ?_ hsm)
            intro hmem
            exact hjno (List.mem_append_left _ hmem)
        · exact hM1a
        · refine Or.inr ⟨by simp, h0g, hj11, hj1c, hj1notin1, hfree, ?_⟩
          intro hm2
          exact hj1minv (((applyDelta_spec d cols _ sc1).2 _).mp hm2)
        · rw [List.length_append]
          simp only [List.length_cons, List.length_nil]
          omega

/-- `getD` on a replicated list of the default value. -/
theorem getD_replicate {α : Type} (n j : Nat) (a : α) :
    (List.replicate n a).getD j a = a := by
  rcases Nat.lt_or_ge j n with h | h
  · rw [List.getD_eq_getElem _ _ (by simpa using h)]
    simp
  · rw [List.getD_eq_default]
    simpa using h

/-- An in-bounds `getD` is a member. -/
theorem getD_mem_of_lt (l : List Nat) (k : Nat) (hk : k < l.length) :
    l.getD k 0 ∈ l := by
  rw [List.getD_eq_getElem _ _ hk]
  exact List.getElem_mem _

/-- The inner loop keeps `way` at physical length `cols + 1`. -/
theorem innerLoop_way_length (c : Nat → Nat → ℚ) (cols : Nat) :
    ∀ (fuel : Nat) (s : InnerState), s.way.length = cols + 1 →
      s.minv.length = cols + 1 →
      (innerLoop c cols fuel s).way.length = cols + 1 := by
  intro fuel
  induction fuel with
  | zero =>
    intro s hw _
    exact hw
  | succ fuel ih =>
    intro s hw hm
    have hs := innerScan_struct c cols
      { s with used := s.used.set s.j0 true } hm hw
    rw [innerLoop]
    dsimp only
    cases hdelta : (innerScan c cols
        { s with used := s.used.set s.j0 true }).delta with
    | none =>
      dsimp only
      exact hs.2.1
    | some d =>
      dsimp only
      by_cases hfree : s.p.getD (innerScan c cols
          { s with used := s.used.set s.j0 true }).j1 0 = 0
      · rw [if_pos hfree]
        exact hs.2.1
      · rw [if_neg hfree]
        refine ih _ hs.2.1 ?_
        exact (applyDelta_spec d cols _ hs.1).1

/-- Running the inner loop on a fresh augmenting state and flipping the
resulting chain extends the partial matching by one row. -/
theorem augment_spec (c : Nat → Nat → ℚ) (cols i : Nat) (hi : 1 ≤ i)
    (hic : i ≤ cols) (s0 : InnerState)
    (hpl : s0.p.length = cols + 1)
    (hwl : s0.way.length = cols + 1)
    (hmv : s0.minv = List.replicate (cols + 1) none)
    (hus : s0.used = List.replicate (cols + 1) false)
    (hj0 : s0.j0 = 0)
    (hpb : ∀ j, 1 ≤ j → j ≤ cols → s0.p.getD j 0 ≤ i - 1)
    (hpinj : ∀ j1 j2, 1 ≤ j1 → j1 ≤ cols → 1 ≤ j2 → j2 ≤ cols → j1 ≠ j2 →
      s0.p.getD j1 0 ≠ 0 → s0.p.getD j1 0 ≠ s0.p.getD j2 0)
    (hp00 : s0.p.getD 0 0 = i)
    (hcov : ∀ r, 1 ≤ r → r ≤ i - 1 → ∃ j, 1 ≤ j ∧ j ≤ cols ∧
      s0.p.getD j 0 = r) :
    HMatching (flipLoop (innerLoop c cols (cols + 2) s0).way (cols + 2)
      (innerLoop c cols (cols + 2) s0).j0
      (innerLoop c cols (cols + 2) s0).p) i cols := by
  obtain ⟨cs, hp, hch, hcs0, hfree, hx1, hxc, hcl⟩ :=
    innerLoop_spec c cols i hi hic (cols + 2) s0 []
      (by rw [hus]; simp)
      hwl
      (by rw [hmv]; simp)
      hpb hpinj
      List.nodup_nil
      (by intro x hx; cases hx)
      (by
        intro j hj
        rw [hus]
        constructor
        · intro hh
          rw [getD_replicate] at hh
          cases hh
        · intro hh
          cases hh)
      (by intro k hk; exact absurd hk (by simp))
      (by
        intro j hj1 hjc hjn hmn
        rw [hmv, getD_replicate] at hmn
        cases hmn rfl)
      (by intro x hx; cases hx)
      (Or.inl ⟨rfl, hj0⟩)
      (by simp only [List.length_nil]; omega)
  obtain ⟨hcne, hcnd, hcrange, hclink, hclast⟩ := hch
  have hfree0 : s0.p.getD (cs.getD 0 0) 0 = 0 := by
    rw [hcs0]
    exact hfree
  obtain ⟨hflen, hfout, hfmid, hflast⟩ :=
    flipLoop_spec cols cs (innerLoop c cols (cols + 2) s0).way (cols + 2)
      (innerLoop c cols (cols + 2) s0).p
      ⟨hcne, hcnd, hcrange, hclink, hclast⟩ (by omega)
      (by rw [hp]; exact hpl)
  rw [hcs0, hp] at hflen hfout hfmid hflast
  rw [hp]
  set pf := flipLoop (innerLoop c cols (cols + 2) s0).way (cols + 2)
    (innerLoop c cols (cols + 2) s0).j0 s0.p with hpf
  have hcl1 : 1 ≤ cs.length := List.length_pos.mpr hcne
  have hlastmem : cs.getD (cs.length - 1) 0 ∈ cs :=
    getD_mem_of_lt _ _ (by omega)
  have hchar : ∀ j, 1 ≤ j → j ≤ cols →
      (j ∉ cs ∧ pf.getD j 0 = s0.p.getD j 0) ∨
      (∃ k, k + 1 < cs.length ∧ cs.getD k 0 = j ∧
        pf.getD j 0 = s0.p.getD (cs.getD (k + 1) 0) 0) ∨
      (cs.getD (cs.length - 1) 0 = j ∧ pf.getD j 0 = i) := by
    intro j hj1 hjc
    by_cases hjin : j ∈ cs
    · obtain ⟨k, hk, hkv⟩ := mem_idx cs j hjin
      by_cases hkl : k + 1 < cs.length
      · refine Or.inr (Or.inl ⟨k, hkl, hkv, ?_⟩)
        rw [← hkv]
        exact hfmid k hkl
      · have hkeq : k = cs.length - 1 := by omega
        refine Or.inr (Or.inr ⟨by rw [← hkeq]; exact hkv, ?_⟩)
        rw [← hkv, hkeq, hflast, hp00]
    · exact Or.inl ⟨hjin, hfout j hjin⟩
  refine ⟨by rw [hflen]; exact hpl, ?_, ?_, ?_⟩
  · intro j hj1 hjc
    rcases hchar j hj1 hjc with ⟨_, hv⟩ | ⟨k, hk, _, hv⟩ | ⟨_, hv⟩
    · rw [hv]
      have := hpb j hj1 hjc
      omega
    · rw [hv]
      obtain ⟨h1, h2⟩ := hcrange _ (getD_mem_of_lt cs (k + 1) hk)
      have := hpb _ h1 h2
      omega
    · rw [hv]
  · intro j1 j2 h11 h1c h21 h2c hne12 hnz
    rcases hchar j1 h11 h1c with ⟨hn1, hv1⟩ | ⟨k1, hk1, hc1, hv1⟩ |
        ⟨hc1, hv1⟩ <;>
      rcases hchar j2 h21 h2c with ⟨hn2, hv2⟩ | ⟨k2, hk2, hc2, hv2⟩ |
        ⟨hc2, hv2⟩
    · rw [hv1, hv2]
      rw [hv1] at hnz
      exact hpinj j1 j2 h11 h1c h21 h2c hne12 hnz
    · rw [hv1, hv2]
      rw [hv1] at hnz
      have hm2 := getD_mem_of_lt cs (k2 + 1) hk2
      obtain ⟨hb1, hb2⟩ := hcrange _ hm2
      refine hpinj j1 _ h11 h1c hb1 hb2 ?_ hnz
      intro h
      rw [h] at hn1
      exact hn1 hm2
    · rw [hv1, hv2]
      rw [hv1] at hnz
      have := hpb j1 h11 h1c
      omega
    · rw [hv1, hv2]
      rw [hv1] at hnz
      have hm1 := getD_mem_of_lt cs (k1 + 1) hk1
      obtain ⟨hb1, hb2⟩ := hcrange _ hm1
      refine hpinj _ j2 hb1 hb2 h21 h2c ?_ hnz
      intro h
      rw [h] at hm1
      exact hn2 hm1
    · rw [hv1, hv2]
      rw [hv1] at hnz
      have hm1 := getD_mem_of_lt cs (k1 + 1) hk1
      have hm2 := getD_mem_of_lt cs (k2 + 1) hk2
      obtain ⟨ha1, ha2⟩ := hcrange _ hm1
      obtain ⟨hb1, hb2⟩ := hcrange _ hm2
      have hkk : k1 ≠ k2 := by
        intro h
        exact hne12 (by rw [← hc1, ← hc2, h])
      refine hpinj _ _ ha1 ha2 hb1 hb2 ?_ hnz
      intro h
      have := nodup_getD_inj cs hcnd (k1 + 1) (k2 + 1) hk1 hk2 h
      omega
    · rw [hv1, hv2]
      rw [hv1] at hnz
      have hm1 := getD_mem_of_lt cs (k1 + 1) hk1
      obtain ⟨ha1, ha2⟩ := hcrange _ hm1
      have := hpb _ ha1 ha2
      omega
    · rw [hv1, hv2]
      have := hpb j2 h21 h2c
      omega
    · rw [hv1, hv2]
      have hm2 := getD_mem_of_lt cs (k2 + 1) hk2
      obtain ⟨hb1, hb2⟩ := hcrange _ hm2
      have := hpb _ hb1 hb2
      omega
    · exact absurd (by rw [← hc1, hc2]) hne12
  · intro r hr1 hri
    by_cases hreq : r = i
    · refine ⟨cs.getD (cs.length - 1) 0, (hcrange _ hlastmem).1,
        (hcrange _ hlastmem).2, ?_⟩
      rw [hflast, hp00, hreq]
    · have hrle : r ≤ i - 1 := by omega
      obtain ⟨j, hj1, hjc, hjv⟩ := hcov r hr1 hrle
      by_cases hjin : j ∈ cs
      · obtain ⟨k, hk, hkv⟩ := mem_idx cs j hjin
        have hk0 : k ≠ 0 := by
          intro h0
          rw [h0] at hkv
          rw [hkv] at hfree0
          rw [hjv] at hfree0
          omega
        refine ⟨cs.getD (k - 1) 0,
          (hcrange _ (getD_mem_of_lt _ _ (by omega))).1,
          (hcrange _ (getD_mem_of_lt _ _ (by omega))).2, ?_⟩
        have hkk : k - 1 + 1 = k := by omega
        have hmid := hfmid (k - 1) (by omega)
        rw [hkk] at hmid
        rw [hmid, hkv]
        exact hjv
      · refine ⟨j, hj1, hjc, ?_⟩
        rw [hfout j hjin]
        exact hjv

/-- One outer iteration turns a matching of rows `1..i-1` into a matching
of rows `1..i` and keeps the `way` array at length `cols + 1`. -/
theorem hungarianOuter_spec (c : Nat → Nat → ℚ) (cols i : Nat)
    (st : HungarianState) (hi : 1 ≤ i) (hic : i ≤ cols)
    (hm : HMatching st.p (i - 1) cols) (hw : st.way.length = cols + 1) :
    HMatching (hungarianOuter c cols i st).p i cols ∧
    (hungarianOuter c cols i st).way.length = cols + 1 := by
  obtain ⟨hpl, hpb, hpinj, hcov⟩ := hm
  have hset : ∀ j, 1 ≤ j → (st.p.set 0 i).getD j 0 = st.p.getD j 0 := by
    intro j hj
    rw [getD_set]
    rw [if_neg (by intro hh; omega)]
  constructor
  · show HMatching (flipLoop (innerLoop c cols (cols + 2)
      ⟨st.u, st.v, st.p.set 0 i, st.way, List.replicate (cols + 1) none,
        List.replicate (cols + 1) false, 0⟩).way (cols + 2)
      (innerLoop c cols (cols + 2)
        ⟨st.u, st.v, st.p.set 0 i, st.way, List.replicate (cols + 1) none,
          List.replicate (cols + 1) false, 0⟩).j0
      (innerLoop c cols (cols + 2)
        ⟨st.u, st.v, st.p.set 0 i, st.way, List.replicate (cols + 1) none,
          List.replicate (cols + 1) false, 0⟩).p) i cols
    refine augment_spec c cols i hi hic _ ?_ ?_ rfl rfl rfl ?_ ?_ ?_ ?_
    · show (st.p.set 0 i).length = cols + 1
      rw [List.length_set]
      exact hpl
    · exact hw
    · intro j hj1 hjc
      show (st.p.set 0 i).getD j 0 ≤ i - 1
      rw [hset j hj1]
      exact hpb j hj1 hjc
    · intro j1 j2 h11 h1c h21 h2c hne12 hnz
      show (st.p.set 0 i).getD j1 0 ≠ (st.p.set 0 i).getD j2 0
      rw [hset j1 h11] at hnz
      rw [hset j1 h11, hset j2 h21]
      exact hpinj j1 j2 h11 h1c h21 h2c hne12 hnz
    · show (st.p.set 0 i).getD 0 0 = i
      rw [getD_set]
      rw [if_pos ⟨rfl, by rw [hpl]; omega⟩]
    · intro r hr1 hrle
      obtain ⟨j, hj1, hjc, hjv⟩ := hcov r hr1 hrle
      refine ⟨j, hj1, hjc, ?_⟩
      show (st.p.set 0 i).getD j 0 = r
      rw [hset j hj1]
      exact hjv
  · show (innerLoop c cols (cols + 2)
      ⟨st.u, st.v, st.p.set 0 i, st.way, List.replicate (cols + 1) none,
        List.replicate (cols + 1) false, 0⟩).way.length = cols + 1
    refine innerLoop_way_length c cols (cols + 2) _ hw ?_
    show (List.replicate (cols + 1) (none : Option ℚ)).length = cols + 1
    simp

/-- The outer fold over rows `1..k` maintains the matching invariant. -/
theorem hungarianFold_spec (c : Nat → Nat → ℚ) (cols rows : Nat)
    (hrc : rows ≤ cols) :
    ∀ k, k ≤ rows →
      HMatching ((List.range k).foldl
        (fun st i => hungarianOuter c cols (i + 1) st)
        (hungarianInit rows cols)).p k cols ∧
      ((List.range k).foldl (fun st i => hungarianOuter c cols (i + 1) st)
        (hungarianInit rows cols)).way.length = cols + 1 := by
  intro k
  induction k with
  | zero =>
    intro _
    rw [List.range_zero, List.foldl_nil]
    refine ⟨⟨?_, ?_, ?_, ?_⟩, ?_⟩
    · show (List.replicate (cols + 1) (0 : Nat)).length = cols + 1
      simp
    · intro j _ _
      show (List.replicate (cols + 1) (0 : Nat)).getD j 0 ≤ 0
      rw [getD_replicate]
    · intro j1 j2 _ _ _ _ _ hnz
      exfalso
      exact hnz (getD_replicate _ _ _)
    · intro r hr1 hr0
      exact absurd hr0 (by omega)
    · show (List.replicate (cols + 1) (0 : Nat)).length = cols + 1
      simp
  | succ k ih =>
    intro hk
    rw [List.range_succ, List.foldl_append, List.foldl_cons,
      List.foldl_nil]
    have h := ih (by omega)
    exact hungarianOuter_spec c cols (k + 1) _ (by omega) (by omega)
      h.1 h.2

/-- The final extraction fold preserves list length. -/
theorem extract_length (p : List Nat) :
    ∀ (L : List Nat) (asg : List Int),
      (L.foldl (fun asg j => if p.getD j 0 ≠ 0 then
        asg.set (p.getD j 0 - 1) ((j : Int) - 1) else asg) asg).length =
      asg.length := by
  intro L
  induction L with
  | nil =>
    intro asg
    rfl
  | cons a L ih =>
    intro asg
    rw [List.foldl_cons, ih]
    by_cases hz : p.getD a 0 ≠ 0
    · rw [if_pos hz, List.length_set]
    · rw [if_neg hz]

/-- Columns that do not target slot `r` leave slot `r` untouched. -/
theorem extract_preserve (p : List Nat) (r : Nat) :
    ∀ (L : List Nat) (asg : List Int),
      (∀ j2 ∈ L, p.getD j2 0 = 0 ∨ p.getD j2 0 - 1 ≠ r) →
      ((L.foldl (fun asg j => if p.getD j 0 ≠ 0 then
          asg.set (p.getD j 0 - 1) ((j : Int) - 1) else asg) asg).getD
        r (-1)) = asg.getD r (-1) := by
  intro L
  induction L with
  | nil =>
    intro asg _
    rfl
  | cons a L ih =>
    intro asg h
    rw [List.foldl_cons]
    rw [ih _ (fun j2 hj2 => h j2 (List.mem_cons_of_mem _ hj2))]
    rcases h a (List.mem_cons_self _ _) with hz | hne
    · rw [if_neg (by intro hc; exact hc hz)]
    · by_cases hz : p.getD a 0 ≠ 0
      · rw [if_pos hz, getD_set]
        rw [if_neg (by intro hc; exact hne hc.1)]
      · rw [if_neg hz]

/-- If column `j` holds row `r + 1`, slot `r` of the extracted assignment
is `j - 1`. -/
theorem extract_getD (p : List Nat) (cols rows : Nat)
    (hpinj : ∀ j1 j2, 1 ≤ j1 → j1 ≤ cols → 1 ≤ j2 → j2 ≤ cols → j1 ≠ j2 →
      p.getD j1 0 ≠ 0 → p.getD j1 0 ≠ p.getD j2 0)
    (r j : Nat) (hr : r < rows) (hj1 : 1 ≤ j) (hjc : j ≤ cols)
    (hpj : p.getD j 0 = r + 1) :
    ((List.range' 1 cols).foldl
      (fun asg j => if p.getD j 0 ≠ 0 then
        asg.set (p.getD j 0 - 1) ((j : Int) - 1) else asg)
      (List.replicate rows (-1 : Int))).getD r (-1) = (j : Int) - 1 := by
  have hjmem : j ∈ List.range' 1 cols := by
    rw [List.mem_range'_1]
    omega
  obtain ⟨A, B, hAB⟩ := List.append_of_mem hjmem
  have hnd : (List.range' 1 cols).Nodup := List.nodup_range' 1 cols
  have hjB : j ∉ B := by
    rw [hAB] at hnd
    exact (List.nodup_cons.mp hnd.of_append_right).1
  have hB : ∀ j2 ∈ B, p.getD j2 0 = 0 ∨ p.getD j2 0 - 1 ≠ r := by
    intro j2 hj2
    by_cases hz : p.getD j2 0 = 0
    · exact Or.inl hz
    · refine Or.inr ?_
      intro hcontra
      have hj2mem : j2 ∈ List.range' 1 cols := by
        rw [hAB]
        exact List.mem_append_right _ (List.mem_cons_of_mem _ hj2)
      rw [List.mem_range'_1] at hj2mem
      have hjj2 : j2 ≠ j := by
        intro h
        rw [h] at hj2
        exact hjB hj2
      have hval : p.getD j2 0 = r + 1 := by omega
      exact hpinj j2 j hj2mem.1 (by omega) hj1 hjc hjj2 hz
        (by rw [hval, hpj])
  have hne0 : p.getD j 0 ≠ 0 := by
    rw [hpj]
    omega
  have hlenA : (A.foldl (fun asg j => if p.getD j 0 ≠ 0 then
      asg.set (p.getD j 0 - 1) ((j : Int) - 1) else asg)
      (List.replicate rows (-1 : Int))).length = rows := by
    rw [extract_length]
    simp
  rw [hAB, List.foldl_append, List.foldl_cons]
  rw [if_pos hne0]
  rw [extract_preserve p r B _ hB]
  rw [getD_set]
  rw [if_pos ⟨by omega, by rw [hlenA]; omega⟩]

/-- Unfolding `hungarian` on a well-shaped matrix. -/
theorem hungarian_eq (m : List (List ℚ)) (h0 : ¬ m.length = 0)
    (hrc : ¬ (m.headD []).length < m.length) :
    hungarian m = some ((List.range' 1 (m.headD []).length).foldl
      (fun asg j =>
        if ((List.range m.length).foldl
            (fun st i => hungarianOuter (fun i j => (m.getD i []).getD j 0)
              (m.headD []).length (i + 1) st)
            (hungarianInit m.length (m.headD []).length)).p.getD j 0 ≠ 0
        then
          asg.set (((List.range m.length).foldl
            (fun st i => hungarianOuter (fun i j => (m.getD i []).getD j 0)
              (m.headD []).length (i + 1) st)
            (hungarianInit m.length (m.headD []).length)).p.getD j 0 - 1)
            ((j : Int) - 1)
        else asg)
      (List.replicate m.length (-1 : Int))) := by
  rw [hungarian]
  dsimp only
  rw [if_neg h0, if_neg hrc]

/-- C10: for every non-empty cost matrix whose column count is at least
its row count, `_hungarian_algorithm` returns a list whose length equals
the row count and whose entries are pairwise-distinct valid column
indices: an injective row-to-column matching. -/
theorem hungarian_algorithm_injective_matching (m : List (List ℚ))
    (hne : m ≠ []) (hrc : m.length ≤ (m.headD []).length) :
    ∃ asg, hungarian m = some asg ∧ asg.length = m.length ∧
      (∀ x ∈ asg, 0 ≤ x ∧ x < ((m.headD []).length : Int)) ∧
      asg.Pairwise (fun a b : Int => a ≠ b) := by
  have h0 : ¬ m.length = 0 := by
    intro h
    exact hne (List.length_eq_zero.mp h)
  have hrc2 : ¬ (m.headD []).length < m.length := not_lt.mpr hrc
  obtain ⟨⟨hpl, hpb, hpinj, hcov⟩, hwlen⟩ :=
    hungarianFold_spec (fun i j => (m.getD i []).getD j 0)
      (m.headD []).length m.length hrc m.length le_rfl
  refine ⟨_, hungarian_eq m h0 hrc2, ?_, ?_, ?_⟩
  · rw [extract_length]
    simp
  · intro x hx
    obtain ⟨r, hr, hrx⟩ := List.mem_iff_getElem.mp hx
    have hrlen : r < m.length := by
      rw [extract_length] at hr
      simpa using hr
    obtain ⟨j, hj1, hjc, hjv⟩ := hcov (r + 1) (by omega) (by omega)
    have hget := extract_getD _ (m.headD []).length m.length hpinj r j
      hrlen hj1 hjc hjv
    rw [List.getD_eq_getElem _ _ hr] at hget
    rw [hrx] at hget
    rw [hget]
    omega
  · rw [List.pairwise_iff_getElem]
    intro r1 r2 hr1 hr2 hlt
    have hr1l : r1 < m.length := by
      rw [extract_length] at hr1
      simpa using hr1
    have hr2l : r2 < m.length := by
      rw [extract_length] at hr2
      simpa using hr2
    obtain ⟨j1, hj11, hj1c, hj1v⟩ := hcov (r1 + 1) (by omega) (by omega)
    obtain ⟨j2, hj21, hj2c, hj2v⟩ := hcov (r2 + 1) (by omega) (by omega)
    have hg1 := extract_getD _ (m.headD []).length m.length hpinj r1 j1
      hr1l hj11 hj1c hj1v
    have hg2 := extract_getD _ (m.headD []).length m.length hpinj r2 j2
      hr2l hj21 hj2c hj2v
    rw [List.getD_eq_getElem _ _ hr1] at hg1
    rw [List.getD_eq_getElem _ _ hr2] at hg2
    intro heq
    rw [hg1, hg2] at heq
    have hjj : j1 = j2 := by omega
    rw [hjj] at hj1v
    rw [hj2v] at hj1v
    omega

/-- Witness for C10 at the concrete matrix `[[0]]`. -/
theorem hungarian_algorithm_injective_matching_witness :
    ([[(0 : ℚ)]] ≠ ([] : List (List ℚ))) ∧
    [[(0 : ℚ)]].length ≤ ([[(0 : ℚ)]].headD []).length ∧
    ∃ asg, hungarian [[(0 : ℚ)]] = some asg ∧
      asg.length = [[(0 : ℚ)]].length ∧
      (∀ x ∈ asg, 0 ≤ x ∧ x < (([[(0 : ℚ)]].headD []).length : Int)) ∧
      asg.Pairwise (fun a b : Int => a ≠ b) :=
  ⟨by simp, by simp,
    hungarian_algorithm_injective_matching [[(0 : ℚ)]] (by simp) (by simp)⟩

end FGC
